import Mathlib

/-! A shallow embedding of `string_builder.h`.

The accumulator of `string_builder.h` is a `String_Builder` object holding an
embedded first `Sb_Buffer`, a pointer to the last buffer of the chain and a
buffer count.  Further buffers are obtained from `sb__malloc` and linked
through their `next` pointers.

The embedding keeps the pointer structure: the machine state `Mem` holds the
accumulator object, the regions handed out by `sb__malloc` (indexed by
address) and a log of allocator calls.  Every function of the source is a
Lean function on that state.  Loops take a fuel argument; leaving defined
behaviour (NULL dereference, access outside an object) is an `Err`.

`SB_BUFFER_CAPACITY` is the parameter `cap` (16384 unless overridden).  The
source has two variants of `sb__malloc`, one returning the result of
`VirtualAlloc` and one the result of `mmap`.  What the operating system
primitive returns at the n-th call of `sb__malloc` is `env n`: a new
mapping, or the failure value of the primitive, which is NULL for
`VirtualAlloc` and `MAP_FAILED`, that is `(void *) -1`, for `mmap`.

C `int` values are integers.  In `sb_append_len` no operation leaves the `int`
range when `0 ≤ length` and the last buffer satisfies `0 ≤ length ≤ cap`, so
the arithmetic there is exact; the buffer counter is exact as long as fewer
than 2^31 buffers exist.  In `sb_to_string` and `sb_append`, where the total
length (resp. `strlen`) is squeezed into an `int`, the 32-bit wrap-around is
explicit (`wrap32`), and the conversion to `size_t` is `to_size_t`.
-/

namespace StringBuilder

/-- Ways in which a run of the C code leaves defined behaviour, and fuel exhaustion of the model. -/
inductive Err where
  | nullDeref
  | invalidPtr
  | outOfBounds
  | badArg
  | outOfFuel
  deriving DecidableEq, Repr

/-- An `Sb_Buffer *` (or `char *` base address): NULL, the address of the
embedded `first_buffer`, the address of a region obtained from `sb__malloc`,
or the value `MAP_FAILED`, which is not the address of any object. -/
inductive Ptr where
  | null
  | first
  | heap (a : Nat)
  | mapFailed
  deriving DecidableEq, Repr

/-- What the operating system primitive called by `sb__malloc` returns: a
new mapping, or its failure value, NULL for `VirtualAlloc` and `MAP_FAILED`
for `mmap`. -/
inductive Outcome where
  | mapped
  | null
  | mapFailed
  deriving DecidableEq, Repr

/-- The struct `Sb_Buffer`: `data` is the array `char data[SB_BUFFER_CAPACITY]`. -/
structure Sb_Buffer where
  data : List Nat
  length : Int
  next : Ptr
  deriving DecidableEq, Repr

/-- The struct `String_Builder`. -/
structure String_Builder where
  first_buffer : Sb_Buffer
  last_buffer : Ptr
  number_of_buffers : Int
  deriving DecidableEq, Repr

/-- A region handed out by `sb__malloc`: untouched zero-filled pages of a
given size, a region used as an `Sb_Buffer`, a region used as a `char` array,
or a region that was given back with `sb__free`. -/
inductive Region where
  | fresh (size : Nat)
  | slab (b : Sb_Buffer)
  | bytes (l : List Nat)
  | released
  deriving DecidableEq, Repr

/-- A call of the allocator: `sb__malloc(size)` with its result, or `sb__free(ptr, size)`. -/
inductive Event where
  | acquire (size : Nat) (result : Ptr)
  | release (ptr : Ptr) (size : Nat)
  deriving DecidableEq, Repr

/-- The machine state: the accumulator object, the regions by address, the
number of `sb__malloc` calls made so far and the log of allocator calls. -/
structure Mem where
  sb : String_Builder
  regions : List Region
  calls : Nat
  log : List Event
  deriving DecidableEq, Repr

/-- A `String_Builder *` argument: NULL or the address of the accumulator object of the state. -/
inductive SbRef where
  | null
  | valid
  deriving DecidableEq, Repr

/-- An argument of the variable argument list of `sb_vappendf`. -/
inductive Arg where
  | str (s : List Nat)
  | int (v : Int)
  | chr (c : Nat)
  deriving DecidableEq, Repr

/-- The constant `INT_MAX` of a 32-bit `int`. -/
def INT_MAX : Int := 2147483647

/-- Reduction of an integer to the range of a 32-bit two's complement `int`. -/
def wrap32 (x : Int) : Int := (x + 2147483648) % 4294967296 - 2147483648

/-- Conversion of an `int` to the 64-bit `size_t`. -/
def to_size_t (x : Int) : Nat := (x % 18446744073709551616).toNat

/-- The value of `sizeof(Sb_Buffer)` under the LP64 layout: the array, the
4-byte `length` aligned to 4, and the 8-byte `next` aligned to 8. -/
def sizeof_Sb_Buffer (cap : Nat) : Nat := ((cap + 3) / 4 * 4 + 4 + 7) / 8 * 8 + 8

/-- Read of the `Sb_Buffer` a pointer refers to.  Untouched pages read as zero bytes. -/
def load (cap : Nat) (m : Mem) : Ptr → Except Err Sb_Buffer
  | .null => .error .nullDeref
  | .mapFailed => .error .invalidPtr
  | .first => .ok m.sb.first_buffer
  | .heap a =>
    match m.regions[a]? with
    | some (.slab b) => .ok b
    | some (.fresh size) =>
      if sizeof_Sb_Buffer cap ≤ size then .ok ⟨List.replicate cap 0, 0, .null⟩
      else .error .outOfBounds
    | _ => .error .invalidPtr

/-- Write of the `Sb_Buffer` a pointer refers to. -/
def store (cap : Nat) (m : Mem) : Ptr → Sb_Buffer → Except Err Mem
  | .null, _ => .error .nullDeref
  | .mapFailed, _ => .error .invalidPtr
  | .first, b => .ok { m with sb := { m.sb with first_buffer := b } }
  | .heap a, b =>
    match m.regions[a]? with
    | some (.slab _) => .ok { m with regions := m.regions.set a (.slab b) }
    | some (.fresh size) =>
      if sizeof_Sb_Buffer cap ≤ size then .ok { m with regions := m.regions.set a (.slab b) }
      else .error .outOfBounds
    | _ => .error .invalidPtr

/-- The assignment `p->length = v`. -/
def setLength (cap : Nat) (m : Mem) (p : Ptr) (v : Int) : Except Err Mem := do
  let b ← load cap m p
  store cap m p { b with length := v }

/-- The assignment `p->next = q`. -/
def setNext (cap : Nat) (m : Mem) (p : Ptr) (q : Ptr) : Except Err Mem := do
  let b ← load cap m p
  store cap m p { b with next := q }

/-- The call `memcpy(dst + off, src, n)` on an array `dst`, reading from the
memory `src` that starts at the source pointer.  A negative `n` converts to a
huge `size_t` and leaves every object. -/
def memcpy (dst : List Nat) (off : Int) (src : List Nat) (n : Int) : Except Err (List Nat) :=
  if n < 0 ∨ off < 0 then .error .outOfBounds
  else if src.length < n.toNat ∨ dst.length < off.toNat + n.toNat then .error .outOfBounds
  else .ok (dst.take off.toNat ++ src.take n.toNat ++ dst.drop (off.toNat + n.toNat))

/-- The function `sb__malloc`: it returns what the operating system
primitive returns at call number `m.calls`.  On success a new zero-filled
region of `size` bytes is mapped at a new address. -/
def sb__malloc (env : Nat → Outcome) (m : Mem) (size : Nat) : Ptr × Mem :=
  match env m.calls with
  | .mapped =>
    (.heap m.regions.length,
      { m with regions := m.regions ++ [.fresh size], calls := m.calls + 1,
               log := m.log ++ [.acquire size (.heap m.regions.length)] })
  | .null =>
    (.null, { m with calls := m.calls + 1, log := m.log ++ [.acquire size .null] })
  | .mapFailed =>
    (.mapFailed, { m with calls := m.calls + 1, log := m.log ++ [.acquire size .mapFailed] })

/-- The function `sb__free`: the region at the address is unmapped. -/
def sb__free (m : Mem) (ptr : Ptr) (size : Nat) : Mem :=
  match ptr with
  | .heap a => { m with regions := m.regions.set a .released, log := m.log ++ [.release ptr size] }
  | _ => { m with log := m.log ++ [.release ptr size] }

/-- The function `sb_init`. -/
def sb_init (cap : Nat) (m : Mem) : SbRef → Except Err Mem
  | .null => .error .nullDeref
  | .valid => do
    let m := { m with sb := { m.sb with last_buffer := .first } }
    let m ← setLength cap m m.sb.last_buffer 0
    let m ← setNext cap m m.sb.last_buffer .null
    pure { m with sb := { m.sb with number_of_buffers := 1 } }

/-- The inner loop of `sb_free`: `while (new_last->next != sb->last_buffer) new_last = new_last->next;`. -/
def free_seek (cap : Nat) : Nat → Mem → Ptr → Except Err Ptr
  | 0, _, _ => .error .outOfFuel
  | fuel + 1, m, new_last => do
    let b ← load cap m new_last
    if b.next ≠ m.sb.last_buffer then free_seek cap fuel m b.next
    else pure new_last

/-- The outer loop of `sb_free`: `while (sb->number_of_buffers-- > 1) { ... }`. -/
def free_loop (cap : Nat) : Nat → Mem → Except Err Mem
  | 0, _ => .error .outOfFuel
  | fuel + 1, m =>
    let n := m.sb.number_of_buffers
    let m := { m with sb := { m.sb with number_of_buffers := n - 1 } }
    if n > 1 then do
      let new_last ← free_seek cap (fuel + 1) m .first
      let m := sb__free m m.sb.last_buffer (sizeof_Sb_Buffer cap)
      let m ← setNext cap m new_last .null
      let m := { m with sb := { m.sb with last_buffer := new_last } }
      free_loop cap fuel m
    else pure m

/-- The function `sb_free`. -/
def sb_free (cap : Nat) (fuel : Nat) (m : Mem) : SbRef → Except Err Mem
  | .null => .ok m
  | .valid => free_loop cap fuel m

/-- The function `sb__expand`, returning its `int` result and the new state. -/
def sb__expand (cap : Nat) (env : Nat → Outcome) (m : Mem) : SbRef → Except Err (Int × Mem)
  | .null => .ok (0, m)
  | .valid => do
    let r := sb__malloc env m (sizeof_Sb_Buffer cap)
    let m ← setNext cap r.2 r.2.sb.last_buffer r.1
    let last ← load cap m m.sb.last_buffer
    if last.next = .null then pure (0, m)
    else do
      let last ← load cap m m.sb.last_buffer
      let m := { m with sb := { m.sb with last_buffer := last.next } }
      let m ← setLength cap m m.sb.last_buffer 0
      let m ← setNext cap m m.sb.last_buffer .null
      let m := { m with sb := { m.sb with number_of_buffers := m.sb.number_of_buffers + 1 } }
      pure (1, m)

/-- The function `sb_is_empty`. -/
def sb_is_empty (m : Mem) : SbRef → Except Err Int
  | .null => .error .nullDeref
  | .valid => if m.sb.first_buffer.length = 0 then .ok 1 else .ok 0

/-- The loop of `sb_append_len` together with the two statements after it.
The arguments are the loop variables `cursor` (the memory from the cursor
on), `length` and `remaining_space`. -/
def append_loop (cap : Nat) (env : Nat → Outcome) : Nat → Mem → List Nat → Int → Int → Except Err Mem
  | 0, _, _, _, _ => .error .outOfFuel
  | fuel + 1, m, cursor, length, remaining_space =>
    if remaining_space - length ≤ 0 then do
      let last ← load cap m m.sb.last_buffer
      let data ← memcpy last.data last.length cursor remaining_space
      let m ← store cap m m.sb.last_buffer { last with data := data }
      let cursor := cursor.drop remaining_space.toNat
      let m ← setLength cap m m.sb.last_buffer cap
      let r ← sb__expand cap env m .valid
      if r.1 = 0 then pure r.2
      else append_loop cap env fuel r.2 cursor (length - remaining_space) cap
    else do
      let last ← load cap m m.sb.last_buffer
      let data ← memcpy last.data last.length cursor length
      let m ← store cap m m.sb.last_buffer { last with data := data }
      let last ← load cap m m.sb.last_buffer
      setLength cap m m.sb.last_buffer (last.length + length)

/-- The function `sb_append_len`; `string` is the memory from the pointer on. -/
def sb_append_len (cap : Nat) (env : Nat → Outcome) (fuel : Nat) (m : Mem) :
    SbRef → List Nat → Int → Except Err Mem
  | .null, _, _ => .ok m
  | .valid, string, length => do
    let last ← load cap m m.sb.last_buffer
    let remaining_space := (cap : Int) - last.length
    append_loop cap env fuel m string length remaining_space

/-- The libc function `strlen`: the index of the first zero byte. -/
def strlen : List Nat → Except Err Nat
  | [] => .error .outOfBounds
  | c :: rest => if c = 0 then .ok 0 else (strlen rest).map (· + 1)

/-- The function `sb_append` (the C linkage variant). -/
def sb_append (cap : Nat) (env : Nat → Outcome) (fuel : Nat) (m : Mem) (sb : SbRef)
    (string : List Nat) : Except Err Mem := do
  let n ← strlen string
  let length := wrap32 n
  sb_append_len cap env fuel m sb string length

/-- The view of a region as a `char` array.  Untouched pages read as zero bytes. -/
def load_bytes (m : Mem) : Ptr → Except Err (List Nat)
  | .null => .error .nullDeref
  | .mapFailed => .error .invalidPtr
  | .first => .error .invalidPtr
  | .heap a =>
    match m.regions[a]? with
    | some (.bytes l) => .ok l
    | some (.fresh size) => .ok (List.replicate size 0)
    | _ => .error .invalidPtr

/-- The call `memcpy(p + off, src, n)` for a `char *` base address `p`. -/
def write_bytes (m : Mem) (p : Ptr) (off : Int) (src : List Nat) (n : Nat) : Except Err Mem := do
  let l ← load_bytes m p
  let l ← memcpy l off src n
  match p with
  | .heap a => pure { m with regions := m.regions.set a (.bytes l) }
  | _ => .error .invalidPtr

/-- The first loop of `sb_to_string`:
`while (buf->next) { buf = buf->next; total_length += buf->length; }`. -/
def sum_loop (cap : Nat) : Nat → Mem → Ptr → Int → Except Err Int
  | 0, _, _, _ => .error .outOfFuel
  | fuel + 1, m, buf, total_length => do
    let b ← load cap m buf
    if b.next ≠ .null then do
      let buf := b.next
      let b ← load cap m buf
      sum_loop cap fuel m buf (wrap32 (total_length + b.length))
    else pure total_length

/-- The second loop of `sb_to_string`:
`do { memcpy(cursor, buf->data, buf->length); cursor += buf->length; buf = buf->next; } while (buf);`
with `cursor` kept as an offset from `result`. -/
def copy_loop (cap : Nat) : Nat → Mem → Ptr → Int → Ptr → Except Err Mem
  | 0, _, _, _, _ => .error .outOfFuel
  | fuel + 1, m, result, cursor, buf => do
    let b ← load cap m buf
    let m ← write_bytes m result cursor b.data (to_size_t b.length)
    let cursor := cursor + b.length
    let buf := b.next
    if buf ≠ .null then copy_loop cap fuel m result cursor buf
    else pure m

/-- The function `sb_to_string`, returning its `int` result, the pointer
stored into `*string` and the new state. -/
def sb_to_string (cap : Nat) (env : Nat → Outcome) (fuel : Nat) (m : Mem) :
    SbRef → Except Err (Int × Ptr × Mem)
  | .null => .ok (-1, .null, m)
  | .valid => do
    let total_length := m.sb.first_buffer.length
    let total_length ← sum_loop cap fuel m .first total_length
    let r := sb__malloc env m (to_size_t (wrap32 (total_length + 1)))
    let result := r.1
    let m ← write_bytes r.2 result total_length [0] 1
    let m ← copy_loop cap fuel m result 0 .first
    pure (total_length, result, m)

/-- The decimal digits of a natural number, most significant first, as
ASCII codes; the first argument bounds the number of digits. -/
def decimal_digits : Nat → Nat → List Nat
  | 0, _ => []
  | fuel + 1, n => if n < 10 then [48 + n] else decimal_digits fuel (n / 10) ++ [48 + n % 10]

/-- Modelled from the spec: the library function `itoa(value, buf, 10)`, which
is not part of the repository; section 4.3 says that the directive `d` emits
the base-10 decimal text representation of its integer argument.  The result
is the text without its terminating zero byte. -/
def itoa (value : Int) : List Nat :=
  if value < 0 then 45 :: decimal_digits (value.natAbs + 1) value.natAbs
  else decimal_digits (value.natAbs + 1) value.natAbs

/-- The inner loop of `sb_vappendf`:
`while (format[pos] != '%' && format[pos] != '\0') ++pos;` (37 is the
ASCII code of the percent sign). -/
def scan_loop (format : List Nat) : Nat → Nat → Except Err Nat
  | 0, _ => .error .outOfFuel
  | fuel + 1, pos =>
    match format[pos]? with
    | none => .error .outOfBounds
    | some c => if c ≠ 37 ∧ c ≠ 0 then scan_loop format fuel (pos + 1) else .ok pos

/-- The function `sb_vappendf`.  `format` is the memory from the format
pointer to the end of the object it points into, `va` the arguments not yet
consumed; the result carries the arguments left over.  Characters are their
ASCII codes: 37 is the percent sign, 115, 100 and 99 are the letters s, d
and c. -/
def sb_vappendf (cap : Nat) (env : Nat → Outcome) :
    Nat → Mem → SbRef → List Nat → List Arg → Except Err (Mem × List Arg)
  | 0, _, _, _, _ => .error .outOfFuel
  | fuel + 1, m, sb, format, va =>
    match format.head? with
    | none => .error .outOfBounds
    | some c0 =>
      if c0 = 0 then .ok (m, va)
      else do
        let pos ← scan_loop format (fuel + 1) 0
        let m ← sb_append_len cap env (fuel + 1) m sb format pos
        let format := format.drop (pos + 1)
        let r ← (match format.head? with
          | none => .error .outOfBounds
          | some 115 =>
            (match va with
            | .str s :: va => do
              let m ← sb_append cap env (fuel + 1) m sb s
              pure (m, va)
            | _ => .error .badArg)
          | some 100 =>
            (match va with
            | .int v :: va =>
              if 20 < (itoa v).length + 1 then .error .outOfBounds
              else do
                let m ← sb_append cap env (fuel + 1) m sb (itoa v ++ [0])
                pure (m, va)
            | _ => .error .badArg)
          | some 99 =>
            (match va with
            | .chr val :: va => do
              let m ← sb_append_len cap env (fuel + 1) m sb [val] 1
              pure (m, va)
            | _ => .error .badArg)
          | some 37 => do
            let m ← sb_append_len cap env (fuel + 1) m sb [37, 0] 1
            pure (m, va)
          | some _ => pure (m, va) : Except Err (Mem × List Arg))
        let format := format.drop 1
        sb_vappendf cap env fuel r.1 sb format r.2

/-- The function `sb_appendf`: the arguments after `format` form the list `va`. -/
def sb_appendf (cap : Nat) (env : Nat → Outcome) (fuel : Nat) (m : Mem) (sb : SbRef)
    (format : List Nat) (va : List Arg) : Except Err (Mem × List Arg) :=
  sb_vappendf cap env fuel m sb format va

/-! ## The chain of an accumulator -/

/-- Equality of results is decidable. -/
instance decEqExcept {α : Type} [DecidableEq α] : DecidableEq (Except Err α)
  | .ok a, .ok b =>
    if h : a = b then isTrue (by rw [h]) else isFalse (fun h2 => h (by cases h2; rfl))
  | .error a, .error b =>
    if h : a = b then isTrue (by rw [h]) else isFalse (fun h2 => h (by cases h2; rfl))
  | .ok _, .error _ => isFalse (fun h => by cases h)
  | .error _, .ok _ => isFalse (fun h => by cases h)

/-- A chain segment: following `next` from `p` one visits exactly the
pointers listed in `ch`, reads there the buffers paired with them, and the
`next` of the last one is `r` (with `p = r` for the empty segment). -/
def Seg (cap : Nat) (m : Mem) : Ptr → List (Ptr × Sb_Buffer) → Ptr → Prop
  | p, [], r => p = r
  | p, x :: rest, r => p = x.1 ∧ load cap m x.1 = .ok x.2 ∧ Seg cap m x.2.next rest r

/-- Whether a list describes a chain segment is decidable. -/
instance decSeg (cap : Nat) (m : Mem) : ∀ p ch r, Decidable (Seg cap m p ch r)
  | p, [], r => by unfold Seg; exact inferInstance
  | p, x :: rest, r => by
    unfold Seg
    exact @instDecidableAnd _ _ _ (@instDecidableAnd _ _ _ (decSeg cap m x.2.next rest r))

/-- The used region `data[0..length)` of a buffer. -/
def used (b : Sb_Buffer) : List Nat := b.data.take b.length.toNat

/-- The used regions of the buffers of a chain, concatenated in chain order. -/
def contents (ch : List (Ptr × Sb_Buffer)) : List Nat := (ch.map fun x => used x.2).flatten

/-- The sum of the `length` fields of the buffers of a chain. -/
def total (ch : List (Ptr × Sb_Buffer)) : Int := (ch.map fun x => x.2.length).sum

/-- The chain of the accumulator is `ch`: the buffers linked from
`first_buffer` up to an absent `next`, each with `0 ≤ length ≤ cap` (and a
`data` array of `cap` bytes). -/
def Chain (cap : Nat) (m : Mem) (ch : List (Ptr × Sb_Buffer)) : Prop :=
  Seg cap m .first ch .null ∧
  ∀ x ∈ ch, 0 ≤ x.2.length ∧ x.2.length ≤ cap ∧ x.2.data.length = cap

/-- A well-formed accumulator with chain `ch`: in addition `last_buffer`
points to the last buffer of the chain and `number_of_buffers` is the
number of buffers of the chain. -/
def WF (cap : Nat) (m : Mem) (ch : List (Ptr × Sb_Buffer)) : Prop :=
  Chain cap m ch ∧ (ch.map Prod.fst).getLast? = some m.sb.last_buffer ∧
  m.sb.number_of_buffers = ch.length

/-- The slab shape: every buffer of the chain other than the last is full. -/
def Shape (cap : Nat) (ch : List (Ptr × Sb_Buffer)) : Prop :=
  ∀ x ∈ ch.dropLast, x.2.length = cap

/-- The state after a successful write of `b` through `p`. -/
def put (m : Mem) : Ptr → Sb_Buffer → Mem
  | .null, _ => m
  | .mapFailed, _ => m
  | .first, b => { m with sb := { m.sb with first_buffer := b } }
  | .heap a, b => { m with regions := m.regions.set a (.slab b) }

/-- Whether a list is the chain of the accumulator is decidable. -/
instance decChain (cap : Nat) (m : Mem) (ch : List (Ptr × Sb_Buffer)) :
    Decidable (Chain cap m ch) := by
  unfold Chain; exact inferInstance

/-- Well-formedness with a given chain is decidable. -/
instance decWF (cap : Nat) (m : Mem) (ch : List (Ptr × Sb_Buffer)) :
    Decidable (WF cap m ch) := by
  unfold WF; exact inferInstance

/-- The slab shape is decidable. -/
instance decShape (cap : Nat) (ch : List (Ptr × Sb_Buffer)) : Decidable (Shape cap ch) := by
  unfold Shape; exact inferInstance

/-- What a call of the loop of `sb_append_len` achieves, started in state `m`
with chain `ch`, loop variables `cursor`, `length`, `remaining_space = rem`,
and ending in state `m2` with chain `ch2`: `k` bytes of the input were
stored, `n` buffers were acquired; either every allocation needed succeeded
and the whole input was stored, or allocation number `n` failed. -/
def AppendPost (cap : Nat) (env : Nat → Outcome) (m : Mem) (ch : List (Ptr × Sb_Buffer))
    (cursor : List Nat) (length rem : Int) (m2 : Mem) (ch2 : List (Ptr × Sb_Buffer)) : Prop :=
  WF cap m2 ch2 ∧ (Shape cap ch → Shape cap ch2) ∧
  (∃ extra, ch2.map Prod.fst = ch.map Prod.fst ++ extra) ∧
  ∃ (k : Int) (n : Nat) (init2 : List (Ptr × Sb_Buffer)) (p2 : Ptr) (b2 : Sb_Buffer),
    ch2 = init2 ++ [(p2, b2)] ∧ 0 ≤ k ∧ k ≤ length ∧
    contents ch2 = contents ch ++ cursor.take k.toNat ∧ total ch2 = total ch + k ∧
    ch2.length = ch.length + n ∧ (∀ i, i < n → env (m.calls + i) = .mapped) ∧
    ((m2.calls = m.calls + n ∧ k = length ∧ b2.length < cap ∧
        b2.length = cap - rem + length - n * cap) ∨
     (m2.calls = m.calls + n + 1 ∧ env (m.calls + n) = .null ∧ k = rem + n * cap ∧
        b2.length = cap))

/-- The state after a successful write of the `char` array `l` to the region at address `a`. -/
def putBytes (m : Mem) (a : Nat) (l : List Nat) : Mem :=
  { m with regions := m.regions.set a (.bytes l) }

/-- A sequence of `sb_append_len` calls, each string passed with its true length. -/
def sb_append_all (cap : Nat) (env : Nat → Outcome) (fuel : Nat) : Mem → List (List Nat) → Except Err Mem
  | m, [] => .ok m
  | m, s :: rest => do
    let m ← sb_append_len cap env fuel m .valid s s.length
    sb_append_all cap env fuel m rest

/-- The states reachable from `sb_init` by `sb_append_len` calls with
`0 ≤ length` (and `length` readable bytes behind `string`), together with the
sum of the lengths passed so far.  Any outcome of the allocator is allowed. -/
inductive Reached (cap : Nat) (env : Nat → Outcome) : Mem → Int → Prop where
  | init (m0 m : Mem) : m0.sb.first_buffer.data.length = cap →
      sb_init cap m0 .valid = .ok m → Reached cap env m 0
  | append (m m2 : Mem) (T : Int) (fuel : Nat) (string : List Nat) (length : Int) :
      Reached cap env m T → 0 ≤ length → length ≤ string.length →
      sb_append_len cap env fuel m .valid string length = .ok m2 →
      Reached cap env m2 (T + length)

/-- The total number of bytes of a list of strings. -/
def appended (strings : List (List Nat)) : Nat := (strings.map List.length).sum

/-- The last buffer of a chain has room left. -/
def Spare (cap : Nat) (ch : List (Ptr × Sb_Buffer)) : Prop :=
  ∀ x, ch.getLast? = some x → x.2.length < cap

/-- An accumulator object with a 4-byte buffer and arbitrary field values,
in a state without regions; used with `cap = 4` in the examples. -/
def mem4 : Mem := ⟨⟨⟨[7, 7, 7, 7], 99, .heap 5⟩, .null, 42⟩, [], 0, []⟩

/-- An allocator that never fails. -/
def allOk : Nat → Outcome := fun _ => .mapped

/-- The bytes of "hello", " " and "world". -/
def helloWorld : List (List Nat) :=
  [[104, 101, 108, 108, 111], [32], [119, 111, 114, 108, 100]]

/-- The contents of a full buffer of capacity 2^30 (`SB_BUFFER_CAPACITY`
overridden to 1073741824): all bytes are `a`. -/
def bigData : List Nat := List.replicate 1073741824 97

/-- An accumulator with four full buffers of 2^30 bytes each, every
`data` array being `d`: 4 GiB of content in all. -/
def bigMem (d : List Nat) : Mem :=
  ⟨⟨⟨d, 1073741824, .heap 0⟩, .heap 2, 4⟩,
    [.slab ⟨d, 1073741824, .heap 1⟩, .slab ⟨d, 1073741824, .heap 2⟩,
      .slab ⟨d, 1073741824, .null⟩], 3,
    [.acquire 1073741840 (.heap 0), .acquire 1073741840 (.heap 1),
      .acquire 1073741840 (.heap 2)]⟩

/-- The chain of `bigMem d`. -/
def bigChain (d : List Nat) : List (Ptr × Sb_Buffer) :=
  [(.first, ⟨d, 1073741824, .heap 0⟩), (.heap 0, ⟨d, 1073741824, .heap 1⟩),
    (.heap 1, ⟨d, 1073741824, .heap 2⟩), (.heap 2, ⟨d, 1073741824, .null⟩)]

/-- The calls of `sb__free` that tear a chain down: every buffer but the
first, from the last backwards, each with the size of an `Sb_Buffer`. -/
def releases (cap : Nat) (ch : List (Ptr × Sb_Buffer)) : List Event :=
  (ch.tail.map Prod.fst).reverse.map fun q => Event.release q (sizeof_Sb_Buffer cap)

/-- The accumulator after `sb_init` and the appends of "hello", " ", "world"
with 4-byte buffers: three buffers, two of them obtained from the allocator. -/
def mem4hw : Mem :=
  ⟨⟨⟨[104, 101, 108, 108], 4, .heap 0⟩, .heap 1, 3⟩,
    [.slab ⟨[111, 32, 119, 111], 4, .heap 1⟩, .slab ⟨[114, 108, 100, 0], 3, .null⟩], 2,
    [.acquire 16 (.heap 0), .acquire 16 (.heap 1)]⟩

/-- The chain of `mem4hw`. -/
def chain4hw : List (Ptr × Sb_Buffer) :=
  [(.first, ⟨[104, 101, 108, 108], 4, .heap 0⟩), (.heap 0, ⟨[111, 32, 119, 111], 4, .heap 1⟩),
    (.heap 1, ⟨[114, 108, 100, 0], 3, .null⟩)]

/-- A freshly initialised accumulator with a 16-byte buffer (`cap = 16`). -/
def mem16 : Mem := ⟨⟨⟨List.replicate 16 0, 0, .null⟩, .first, 1⟩, [], 0, []⟩

/-- A call of the loop of `sb_append_len` reaches an allocation at which the
operating system primitive returns `MAP_FAILED`: the allocations before it
succeed and the input is long enough for the loop to get there. -/
def AppendCrash (cap : Nat) (env : Nat → Outcome) (m : Mem) (length rem : Int) : Prop :=
  ∃ n : Nat, (∀ i, i < n → env (m.calls + i) = .mapped) ∧ env (m.calls + n) = .mapFailed ∧
    rem + n * cap ≤ length

/-- The accumulator object and every buffer read the same in `m2` as in `m`,
and the allocator was not called in between. -/
def Unchanged (cap : Nat) (m m2 : Mem) : Prop :=
  m2.sb = m.sb ∧ (∀ q, load cap m2 q = load cap m q) ∧
  m2.regions.length = m.regions.length ∧ m2.calls = m.calls ∧ m2.log = m.log

/-! ## Reads and writes -/

theorem bind_ok {α β : Type} (a : α) (f : α → Except Err β) : (Except.ok a >>= f) = f a := rfl

theorem bind_error {α β : Type} (e : Err) (f : α → Except Err β) :
    ((Except.error e : Except Err α) >>= f) = .error e := rfl

theorem store_eq_put {cap : Nat} {m : Mem} {p : Ptr} {b0 : Sb_Buffer} (b : Sb_Buffer)
    (h : load cap m p = .ok b0) : store cap m p b = .ok (put m p b) := by
  cases p with
  | null => simp [load] at h
  | mapFailed => simp [load] at h
  | first => rfl
  | heap a =>
    simp only [load] at h
    simp only [store, put]
    cases hr : m.regions[a]? with
    | none => simp [hr] at h
    | some r =>
      cases r with
      | fresh size =>
        simp only [hr] at h ⊢
        by_cases hs : sizeof_Sb_Buffer cap ≤ size
        · simp [hs]
        · simp [hs] at h
      | slab b1 => simp
      | bytes l => simp [hr] at h
      | released => simp [hr] at h

theorem load_put_same {cap : Nat} {m : Mem} {p : Ptr} {b0 : Sb_Buffer} (b : Sb_Buffer)
    (h : load cap m p = .ok b0) : load cap (put m p b) p = .ok b := by
  cases p with
  | null => simp [load] at h
  | mapFailed => simp [load] at h
  | first => rfl
  | heap a =>
    simp only [load] at h
    have hlt : a < m.regions.length := by
      by_contra hge
      have : m.regions[a]? = none := List.getElem?_eq_none (by omega)
      simp [this] at h
    simp [load, put, List.getElem?_set, hlt]

theorem load_put_ne {cap : Nat} (m : Mem) {p q : Ptr} (b : Sb_Buffer) (h : q ≠ p) :
    load cap (put m p b) q = load cap m q := by
  cases p with
  | null => rfl
  | mapFailed => rfl
  | first =>
    cases q with
    | null => rfl
    | mapFailed => rfl
    | first => exact absurd rfl h
    | heap a => rfl
  | heap a =>
    cases q with
    | null => rfl
    | mapFailed => rfl
    | first => rfl
    | heap c =>
      have hne : a ≠ c := fun e => h (by rw [e])
      simp [load, put, List.getElem?_set, hne]

@[simp] theorem put_last_buffer (m : Mem) (p : Ptr) (b : Sb_Buffer) :
    (put m p b).sb.last_buffer = m.sb.last_buffer := by cases p <;> rfl

@[simp] theorem put_number_of_buffers (m : Mem) (p : Ptr) (b : Sb_Buffer) :
    (put m p b).sb.number_of_buffers = m.sb.number_of_buffers := by cases p <;> rfl

@[simp] theorem put_calls (m : Mem) (p : Ptr) (b : Sb_Buffer) :
    (put m p b).calls = m.calls := by cases p <;> rfl

@[simp] theorem put_log (m : Mem) (p : Ptr) (b : Sb_Buffer) :
    (put m p b).log = m.log := by cases p <;> rfl

@[simp] theorem put_regions_length (m : Mem) (p : Ptr) (b : Sb_Buffer) :
    (put m p b).regions.length = m.regions.length := by cases p <;> simp [put]

theorem load_heap_lt {cap : Nat} {m : Mem} {a : Nat} {b : Sb_Buffer}
    (h : load cap m (.heap a) = .ok b) : a < m.regions.length := by
  by_contra hge
  have : m.regions[a]? = none := List.getElem?_eq_none (by omega)
  simp [load, this] at h

theorem setLength_eq {cap : Nat} {m : Mem} {p : Ptr} {b : Sb_Buffer} (v : Int)
    (h : load cap m p = .ok b) :
    setLength cap m p v = .ok (put m p { b with length := v }) := by
  unfold setLength
  rw [h, bind_ok]
  exact store_eq_put _ h

theorem setNext_eq {cap : Nat} {m : Mem} {p : Ptr} {b : Sb_Buffer} (q : Ptr)
    (h : load cap m p = .ok b) :
    setNext cap m p q = .ok (put m p { b with next := q }) := by
  unfold setNext
  rw [h, bind_ok]
  exact store_eq_put _ h

/-! ## Chain segments -/

theorem Seg_congr {cap : Nat} {m m2 : Mem} :
    ∀ (ch : List (Ptr × Sb_Buffer)) (p r : Ptr),
      (∀ x ∈ ch, load cap m2 x.1 = load cap m x.1) → Seg cap m p ch r → Seg cap m2 p ch r
  | [], _, _, _, h => h
  | x :: rest, _, r, hl, h => by
    obtain ⟨h1, h2, h3⟩ := h
    refine ⟨h1, ?_, ?_⟩
    · rw [hl x (List.mem_cons_self _ _)]; exact h2
    · exact Seg_congr rest _ r (fun y hy => hl y (List.mem_cons_of_mem _ hy)) h3

theorem Seg_append {cap : Nat} {m : Mem} :
    ∀ (c1 c2 : List (Ptr × Sb_Buffer)) (p r : Ptr),
      Seg cap m p (c1 ++ c2) r ↔ ∃ q, Seg cap m p c1 q ∧ Seg cap m q c2 r
  | [], c2, p, r => by
    constructor
    · intro h; exact ⟨p, rfl, h⟩
    · rintro ⟨q, h1, h2⟩
      have : p = q := h1
      rw [this]; exact h2
  | x :: rest, c2, p, r => by
    constructor
    · intro h
      obtain ⟨h1, h2, h3⟩ := h
      obtain ⟨q, h4, h5⟩ := (Seg_append rest c2 _ r).1 h3
      exact ⟨q, ⟨h1, h2, h4⟩, h5⟩
    · rintro ⟨q, ⟨h1, h2, h4⟩, h5⟩
      exact ⟨h1, h2, (Seg_append rest c2 _ r).2 ⟨q, h4, h5⟩⟩

theorem Seg_load {cap : Nat} {m : Mem} :
    ∀ (ch : List (Ptr × Sb_Buffer)) (p r : Ptr), Seg cap m p ch r →
      ∀ x ∈ ch, load cap m x.1 = .ok x.2
  | [], _, _, _, x, hx => by cases hx
  | y :: rest, _, r, h, x, hx => by
    obtain ⟨_, h2, h3⟩ := h
    rcases List.mem_cons.1 hx with e | hmem
    · rw [e]; exact h2
    · exact Seg_load rest _ r h3 x hmem

theorem Seg_det {cap : Nat} {m : Mem} :
    ∀ (c1 c2 : List (Ptr × Sb_Buffer)) (p : Ptr),
      Seg cap m p c1 .null → Seg cap m p c2 .null → c1 = c2
  | [], [], _, _, _ => rfl
  | [], y :: r2, p, h1, h2 => by
    have hp : p = .null := h1
    obtain ⟨e, hl, _⟩ := h2
    rw [← e, hp] at hl
    simp [load] at hl
  | x :: r1, [], p, h1, h2 => by
    have hp : p = .null := h2
    obtain ⟨e, hl, _⟩ := h1
    rw [← e, hp] at hl
    simp [load] at hl
  | x :: r1, y :: r2, p, h1, h2 => by
    obtain ⟨e1, l1, s1⟩ := h1
    obtain ⟨e2, l2, s2⟩ := h2
    have hfst : x.1 = y.1 := by rw [← e1, ← e2]
    have hsnd : x.2 = y.2 := by
      rw [hfst, l2] at l1
      exact (Except.ok.inj l1).symm
    have hxy : x = y := Prod.ext hfst hsnd
    rw [hxy] at s1 ⊢
    rw [Seg_det r1 r2 _ s1 s2]

theorem Seg_ne_null {cap : Nat} {m : Mem} {p r : Ptr} {ch : List (Ptr × Sb_Buffer)}
    (h : Seg cap m p ch r) : ∀ x ∈ ch, x.1 ≠ .null := by
  intro x hx e
  have := Seg_load ch p r h x hx
  rw [e] at this
  simp [load] at this

theorem Seg_nodup {cap : Nat} {m : Mem} :
    ∀ (ch : List (Ptr × Sb_Buffer)) (p : Ptr), Seg cap m p ch .null →
      (ch.map Prod.fst).Nodup
  | [], _, _ => List.nodup_nil
  | x :: rest, p, h => by
    have hrest := h.2.2
    rw [List.map_cons, List.nodup_cons]
    refine ⟨?_, Seg_nodup rest _ hrest⟩
    intro hmem
    obtain ⟨y, hy, hyx⟩ := List.mem_map.1 hmem
    obtain ⟨r1, r2, hsplit⟩ := List.append_of_mem hy
    rw [hsplit] at hrest
    obtain ⟨q, _, h2⟩ := (Seg_append r1 (y :: r2) _ _).1 hrest
    obtain ⟨_, hly, hs2⟩ := h2
    have hyb : y.2 = x.2 := by
      rw [hyx, h.2.1] at hly
      exact (Except.ok.inj hly).symm
    rw [hyb] at hs2
    have hrest2 := h.2.2
    have := Seg_det _ _ _ hs2 hrest2
    have hlen := congrArg List.length this
    rw [hsplit] at hlen
    simp at hlen
    omega

/-! ## The allocator -/

theorem load_grow {cap : Nat} (m : Mem) (r : Region) (c : Nat) (l : List Event) {q : Ptr}
    (h : q ≠ .heap m.regions.length) :
    load cap { m with regions := m.regions ++ [r], calls := c, log := l } q = load cap m q := by
  cases q with
  | null => rfl
  | mapFailed => rfl
  | first => rfl
  | heap a =>
    have hne : a ≠ m.regions.length := fun e => h (by rw [e])
    simp only [load]
    rcases Nat.lt_or_gt_of_ne hne with hlt | hgt
    · rw [List.getElem?_append_left hlt]
    · rw [List.getElem?_eq_none (by simp; omega), List.getElem?_eq_none (by omega)]

theorem load_grow_new {cap : Nat} (m : Mem) (c : Nat) (l : List Event) :
    load cap { m with regions := m.regions ++ [.fresh (sizeof_Sb_Buffer cap)], calls := c, log := l }
      (.heap m.regions.length) = .ok ⟨List.replicate cap 0, 0, .null⟩ := by
  simp [load]

theorem load_ok_ne_fresh {cap : Nat} {m : Mem} {p : Ptr} {b : Sb_Buffer}
    (h : load cap m p = .ok b) : p ≠ .heap m.regions.length := by
  intro e
  rw [e] at h
  have := load_heap_lt h
  omega

/-! ## `sb__expand` -/

theorem sb__expand_ok {cap : Nat} (env : Nat → Outcome) {m : Mem} {b : Sb_Buffer}
    (hl : load cap m m.sb.last_buffer = .ok b) (he : env m.calls = .mapped) :
    ∃ m2, sb__expand cap env m .valid = .ok (1, m2) ∧
      m2.sb.last_buffer = .heap m.regions.length ∧
      m2.sb.number_of_buffers = m.sb.number_of_buffers + 1 ∧
      m2.calls = m.calls + 1 ∧
      m2.log = m.log ++ [.acquire (sizeof_Sb_Buffer cap) (.heap m.regions.length)] ∧
      m2.regions.length = m.regions.length + 1 ∧
      load cap m2 m.sb.last_buffer = .ok { b with next := .heap m.regions.length } ∧
      load cap m2 (.heap m.regions.length) = .ok ⟨List.replicate cap 0, 0, .null⟩ ∧
      ∀ q, q ≠ m.sb.last_buffer → q ≠ .heap m.regions.length → load cap m2 q = load cap m q := by
  have hne : m.sb.last_buffer ≠ .heap m.regions.length := load_ok_ne_fresh hl
  have hne2 : Ptr.heap m.regions.length ≠ m.sb.last_buffer := fun e => hne e.symm
  -- the state after sb__malloc
  let m1 : Mem := { m with regions := m.regions ++ [.fresh (sizeof_Sb_Buffer cap)],
                           calls := m.calls + 1,
                           log := m.log ++ [.acquire (sizeof_Sb_Buffer cap) (.heap m.regions.length)] }
  have hmalloc : sb__malloc env m (sizeof_Sb_Buffer cap) = (.heap m.regions.length, m1) := by
    simp [sb__malloc, he, m1]
  have hl1 : load cap m1 m.sb.last_buffer = .ok b := by
    rw [← hl]; exact load_grow m _ _ _ hne
  let b1 : Sb_Buffer := { b with next := .heap m.regions.length }
  let m2 : Mem := put m1 m.sb.last_buffer b1
  have hl2 : load cap m2 m.sb.last_buffer = .ok b1 := load_put_same b1 hl1
  let m3 : Mem := { m2 with sb := { m2.sb with last_buffer := .heap m.regions.length } }
  have hnew1 : load cap m1 (.heap m.regions.length) = .ok ⟨List.replicate cap 0, 0, .null⟩ :=
    load_grow_new m _ _
  have hnew3 : load cap m3 (.heap m.regions.length) = .ok ⟨List.replicate cap 0, 0, .null⟩ := by
    have h3 : load cap m3 (.heap m.regions.length) = load cap m2 (.heap m.regions.length) := rfl
    rw [h3, load_put_ne m1 b1 hne2]; exact hnew1
  let z : Sb_Buffer := ⟨List.replicate cap 0, 0, .null⟩
  let m4 : Mem := put m3 (.heap m.regions.length) z
  have hnew4 : load cap m4 (.heap m.regions.length) = .ok z := load_put_same z hnew3
  let m5 : Mem := put m4 (.heap m.regions.length) z
  let m6 : Mem := { m5 with sb := { m5.sb with number_of_buffers := m5.sb.number_of_buffers + 1 } }
  have hrun : sb__expand cap env m .valid = .ok (1, m6) := by
    simp only [sb__expand, hmalloc]
    have e1 : setNext cap m1 m1.sb.last_buffer (.heap m.regions.length) = .ok m2 :=
      setNext_eq _ hl1
    rw [e1, bind_ok]
    have e2 : load cap m2 m2.sb.last_buffer = .ok b1 := by
      have : m2.sb.last_buffer = m.sb.last_buffer := by simp [m2, m1]
      rw [this]; exact hl2
    rw [e2, bind_ok]
    have e3 : ¬ (b1.next = .null) := by simp [b1]
    rw [if_neg e3, bind_ok]
    have e4 : setLength cap m3 m3.sb.last_buffer 0 = .ok m4 := setLength_eq 0 hnew3
    have e4b : setLength cap
        { m2 with sb := { m2.sb with last_buffer := b1.next } }
        ({ m2 with sb := { m2.sb with last_buffer := b1.next } } : Mem).sb.last_buffer 0
          = .ok m4 := e4
    rw [e4b, bind_ok]
    have e5 : setNext cap m4 m4.sb.last_buffer .null = .ok m5 := by
      have : m4.sb.last_buffer = .heap m.regions.length := by simp [m4, m3]
      rw [this]; exact setNext_eq .null hnew4
    rw [e5, bind_ok]
    rfl
  refine ⟨m6, hrun, ?_, ?_, ?_, ?_, ?_, ?_, ?_, ?_⟩
  · simp [m6, m5, m4, m3]
  · simp [m6, m5, m4, m3, m2, m1]
  · simp [m6, m5, m4, m3, m2, m1]
  · simp [m6, m5, m4, m3, m2, m1]
  · simp [m6, m5, m4, m3, m2, m1]
  · have h6 : load cap m6 m.sb.last_buffer = load cap m5 m.sb.last_buffer := by
      cases m.sb.last_buffer <;> rfl
    rw [h6, load_put_ne m4 z hne, load_put_ne m3 z hne]
    exact hl2
  · have h6 : load cap m6 (.heap m.regions.length) = load cap m5 (.heap m.regions.length) := rfl
    rw [h6]; exact load_put_same z hnew4
  · intro q hq1 hq2
    have h6 : load cap m6 q = load cap m5 q := by cases q <;> rfl
    have h3 : load cap m3 q = load cap m2 q := by cases q <;> rfl
    rw [h6, load_put_ne m4 z hq2, load_put_ne m3 z hq2, h3, load_put_ne m1 b1 hq1]
    exact load_grow m _ _ _ hq2

theorem sb__expand_fail {cap : Nat} (env : Nat → Outcome) {m : Mem} {b : Sb_Buffer}
    (hl : load cap m m.sb.last_buffer = .ok b) (he : env m.calls = .null) :
    ∃ m2, sb__expand cap env m .valid = .ok (0, m2) ∧
      m2.sb.last_buffer = m.sb.last_buffer ∧
      m2.sb.number_of_buffers = m.sb.number_of_buffers ∧
      m2.calls = m.calls + 1 ∧
      m2.log = m.log ++ [.acquire (sizeof_Sb_Buffer cap) .null] ∧
      m2.regions.length = m.regions.length ∧
      load cap m2 m.sb.last_buffer = .ok { b with next := .null } ∧
      ∀ q, q ≠ m.sb.last_buffer → load cap m2 q = load cap m q := by
  let m1 : Mem := { m with calls := m.calls + 1,
                           log := m.log ++ [.acquire (sizeof_Sb_Buffer cap) .null] }
  have hmalloc : sb__malloc env m (sizeof_Sb_Buffer cap) = (.null, m1) := by
    simp [sb__malloc, he, m1]
  have hsame : ∀ q, load cap m1 q = load cap m q := by intro q; cases q <;> rfl
  have hl1 : load cap m1 m.sb.last_buffer = .ok b := by rw [hsame]; exact hl
  let b1 : Sb_Buffer := { b with next := .null }
  let m2 : Mem := put m1 m.sb.last_buffer b1
  have hl2 : load cap m2 m.sb.last_buffer = .ok b1 := load_put_same b1 hl1
  have hrun : sb__expand cap env m .valid = .ok (0, m2) := by
    simp only [sb__expand, hmalloc]
    have e1 : setNext cap m1 m1.sb.last_buffer .null = .ok m2 := setNext_eq _ hl1
    rw [e1, bind_ok]
    have e2 : load cap m2 m2.sb.last_buffer = .ok b1 := by
      have : m2.sb.last_buffer = m.sb.last_buffer := by simp [m2, m1]
      rw [this]; exact hl2
    rw [e2, bind_ok]
    have e3 : b1.next = .null := rfl
    rw [if_pos e3]
    rfl
  refine ⟨m2, hrun, ?_, ?_, ?_, ?_, ?_, hl2, ?_⟩
  · simp [m2, m1]
  · simp [m2, m1]
  · simp [m2, m1]
  · simp [m2, m1]
  · simp [m2, m1]
  · intro q hq
    rw [load_put_ne m1 b1 hq]; exact hsame q

theorem sb__expand_mapFailed {cap : Nat} (env : Nat → Outcome) {m : Mem} {b : Sb_Buffer}
    (hl : load cap m m.sb.last_buffer = .ok b) (he : env m.calls = .mapFailed) :
    sb__expand cap env m .valid = .error .invalidPtr := by
  let m1 : Mem := { m with calls := m.calls + 1,
                           log := m.log ++ [.acquire (sizeof_Sb_Buffer cap) .mapFailed] }
  have hmalloc : sb__malloc env m (sizeof_Sb_Buffer cap) = (.mapFailed, m1) := by
    simp [sb__malloc, he, m1]
  have hsame : ∀ q, load cap m1 q = load cap m q := by intro q; cases q <;> rfl
  have hl1 : load cap m1 m.sb.last_buffer = .ok b := by rw [hsame]; exact hl
  let b1 : Sb_Buffer := { b with next := .mapFailed }
  let m2 : Mem := put m1 m.sb.last_buffer b1
  have hl2 : load cap m2 m.sb.last_buffer = .ok b1 := load_put_same b1 hl1
  simp only [sb__expand, hmalloc]
  have e1 : setNext cap m1 m1.sb.last_buffer .mapFailed = .ok m2 := setNext_eq _ hl1
  rw [e1, bind_ok]
  have e2 : load cap m2 m2.sb.last_buffer = .ok b1 := by
    have : m2.sb.last_buffer = m.sb.last_buffer := by simp [m2, m1]
    rw [this]; exact hl2
  rw [e2, bind_ok]
  have e3 : ¬ (b1.next = .null) := by simp [b1]
  rw [if_neg e3, bind_ok]
  rfl

/-! ## Well-formed accumulators -/

theorem WF_split {cap : Nat} {m : Mem} {init : List (Ptr × Sb_Buffer)} {p : Ptr} {b : Sb_Buffer}
    (h : WF cap m (init ++ [(p, b)])) :
    Seg cap m .first init p ∧ load cap m p = .ok b ∧ b.next = .null ∧
    m.sb.last_buffer = p ∧ (∀ x ∈ init, x.1 ≠ p) ∧
    (∀ x ∈ init, load cap m x.1 = .ok x.2) ∧
    m.sb.number_of_buffers = init.length + 1 ∧
    (∀ x ∈ init, 0 ≤ x.2.length ∧ x.2.length ≤ cap ∧ x.2.data.length = cap) ∧
    (0 ≤ b.length ∧ b.length ≤ cap ∧ b.data.length = cap) := by
  obtain ⟨⟨hseg, hb⟩, hlast, hcount⟩ := h
  obtain ⟨q, h1, h2⟩ := (Seg_append init [(p, b)] _ _).1 hseg
  obtain ⟨e, hl, hn⟩ := h2
  have hq : q = p := e
  have hnull : b.next = .null := hn
  rw [hq] at h1
  have hnd := Seg_nodup _ _ hseg
  refine ⟨h1, hl, hnull, ?_, ?_, ?_, ?_, ?_, ?_⟩
  · simp at hlast; exact hlast.symm
  · intro x hx e2
    rw [List.map_append, List.nodup_append] at hnd
    exact hnd.2.2 (List.mem_map_of_mem Prod.fst hx) (by simp [e2])
  · intro x hx
    exact Seg_load _ _ _ hseg x (List.mem_append_left _ hx)
  · rw [hcount]; simp
  · intro x hx; exact hb x (List.mem_append_left _ hx)
  · exact hb (p, b) (by simp)

theorem WF_join {cap : Nat} {m : Mem} {init tl : List (Ptr × Sb_Buffer)} {p q : Ptr}
    (h1 : Seg cap m .first init p) (h2 : Seg cap m p tl .null)
    (hlast : (tl.map Prod.fst).getLast? = some q) (hl : m.sb.last_buffer = q)
    (hcount : m.sb.number_of_buffers = init.length + tl.length)
    (hb1 : ∀ x ∈ init, 0 ≤ x.2.length ∧ x.2.length ≤ cap ∧ x.2.data.length = cap)
    (hb2 : ∀ x ∈ tl, 0 ≤ x.2.length ∧ x.2.length ≤ cap ∧ x.2.data.length = cap) :
    WF cap m (init ++ tl) := by
  refine ⟨⟨(Seg_append init tl _ _).2 ⟨p, h1, h2⟩, ?_⟩, ?_, ?_⟩
  · intro x hx
    rcases List.mem_append.1 hx with h | h
    · exact hb1 x h
    · exact hb2 x h
  · rw [List.map_append, List.getLast?_append, hlast, hl]; rfl
  · rw [hcount]; simp

theorem WF_nonempty {cap : Nat} {m : Mem} {ch : List (Ptr × Sb_Buffer)} (h : WF cap m ch) :
    ∃ init p b, ch = init ++ [(p, b)] := by
  rcases List.eq_nil_or_concat ch with e | ⟨L, x, e⟩
  · rw [e] at h
    have := h.2.1
    simp at this
  · exact ⟨L, x.1, x.2, by rw [e]; simp⟩

theorem Chain_head {cap : Nat} {m : Mem} {ch : List (Ptr × Sb_Buffer)} (h : Chain cap m ch) :
    ∃ b rest, ch = (.first, b) :: rest ∧ m.sb.first_buffer = b := by
  cases ch with
  | nil =>
    have : Ptr.first = Ptr.null := h.1
    cases this
  | cons x rest =>
    obtain ⟨e, hl, _⟩ := h.1
    refine ⟨x.2, rest, ?_, ?_⟩
    · rw [show x = (x.1, x.2) from rfl, ← e]
    · rw [← e] at hl
      exact Except.ok.inj hl

/-! ## `memcpy` -/

theorem memcpy_ok (dst : List Nat) (off : Int) (src : List Nat) (n : Int)
    (h0 : 0 ≤ off) (hn : 0 ≤ n) (hs : n.toNat ≤ src.length)
    (hd : off.toNat + n.toNat ≤ dst.length) :
    memcpy dst off src n
      = .ok (dst.take off.toNat ++ src.take n.toNat ++ dst.drop (off.toNat + n.toNat)) := by
  unfold memcpy
  rw [if_neg (by omega), if_neg (by omega)]

theorem memcpy_length (dst : List Nat) (off : Nat) (src : List Nat) (n : Nat)
    (hs : n ≤ src.length) (hd : off + n ≤ dst.length) :
    (dst.take off ++ src.take n ++ dst.drop (off + n)).length = dst.length := by
  simp only [List.length_append, List.length_take, List.length_drop]
  omega

theorem memcpy_take (dst : List Nat) (off : Nat) (src : List Nat) (n : Nat)
    (hs : n ≤ src.length) (hd : off + n ≤ dst.length) :
    (dst.take off ++ src.take n ++ dst.drop (off + n)).take (off + n)
      = dst.take off ++ src.take n := by
  apply List.take_left'
  simp only [List.length_append, List.length_take]
  omega

/-! ## One round of the loop of `sb_append_len` -/

theorem WF_put {cap : Nat} {m : Mem} {init : List (Ptr × Sb_Buffer)} {p : Ptr} {b : Sb_Buffer}
    (h : WF cap m (init ++ [(p, b)])) (bf : Sb_Buffer) (hn : bf.next = .null)
    (hb : 0 ≤ bf.length ∧ bf.length ≤ cap ∧ bf.data.length = cap) :
    WF cap (put m p bf) (init ++ [(p, bf)]) := by
  obtain ⟨h1, hl, _, hlast, hne, _, hcount, hb1, _⟩ := WF_split h
  refine WF_join (p := p) (q := p) ?_ ?_ (by simp) (by simp [hlast]) (by simp [hcount]) hb1 ?_
  · exact Seg_congr init _ _ (fun x hx => load_put_ne m bf (hne x hx)) h1
  · exact ⟨rfl, load_put_same bf hl, hn⟩
  · intro x hx
    simp at hx
    rw [hx]; exact hb

theorem WF_expand {cap : Nat} {m : Mem} (m2 : Mem) {init : List (Ptr × Sb_Buffer)} {p : Ptr}
    {b : Sb_Buffer} (h : WF cap m (init ++ [(p, b)]))
    (h1 : m2.sb.last_buffer = .heap m.regions.length)
    (h2 : m2.sb.number_of_buffers = m.sb.number_of_buffers + 1)
    (h3 : load cap m2 p = .ok { b with next := .heap m.regions.length })
    (h4 : load cap m2 (.heap m.regions.length) = .ok ⟨List.replicate cap 0, 0, .null⟩)
    (h5 : ∀ q, q ≠ p → q ≠ .heap m.regions.length → load cap m2 q = load cap m q) :
    WF cap m2 (init ++ [(p, { b with next := .heap m.regions.length }),
      (.heap m.regions.length, ⟨List.replicate cap 0, 0, .null⟩)]) := by
  obtain ⟨hs, hl, _, hlast, hne, hld, hcount, hb1, hb2⟩ := WF_split h
  refine WF_join (p := p) (q := .heap m.regions.length) ?_ ?_ (by simp) h1 ?_ hb1 ?_
  · refine Seg_congr init _ _ (fun x hx => h5 x.1 (hne x hx) ?_) hs
    exact load_ok_ne_fresh (hld x hx)
  · exact ⟨rfl, h3, rfl, h4, rfl⟩
  · rw [h2, hcount]; simp; omega
  · intro x hx
    simp at hx
    rcases hx with e | e
    · rw [e]; exact hb2
    · rw [e]; simp

theorem used_fill (b : Sb_Buffer) (cursor : List Nat) (n : Int) (h0 : 0 ≤ b.length)
    (hn : 0 ≤ n) (hs : n.toNat ≤ cursor.length)
    (hd : b.length.toNat + n.toNat ≤ b.data.length) (nx : Ptr) :
    used ⟨b.data.take b.length.toNat ++ cursor.take n.toNat
        ++ b.data.drop (b.length.toNat + n.toNat), b.length + n, nx⟩
      = used b ++ cursor.take n.toNat := by
  unfold used
  have e : (b.length + n).toNat = b.length.toNat + n.toNat := by omega
  simp only [e]
  exact memcpy_take b.data _ cursor _ hs hd

theorem append_iter_ok {cap : Nat} {env : Nat → Outcome} {m : Mem}
    {init : List (Ptr × Sb_Buffer)} {p : Ptr} {b : Sb_Buffer}
    (h : WF cap m (init ++ [(p, b)])) (fuel : Nat) (cursor : List Nat) (length rem : Int)
    (hrem : b.length = cap - rem) (hle : rem ≤ length) (hcur : length ≤ cursor.length)
    (he : env m.calls = .mapped) :
    ∃ m2 bf, append_loop cap env (fuel + 1) m cursor length rem
        = append_loop cap env fuel m2 (cursor.drop rem.toNat) (length - rem) cap ∧
      WF cap m2 (init ++ [(p, bf), (.heap m.regions.length, ⟨List.replicate cap 0, 0, .null⟩)]) ∧
      bf.length = (cap : Int) ∧ used bf = used b ++ cursor.take rem.toNat ∧
      m2.calls = m.calls + 1 ∧
      m2.log = m.log ++ [.acquire (sizeof_Sb_Buffer cap) (.heap m.regions.length)] ∧
      m2.regions.length = m.regions.length + 1 := by
  obtain ⟨_, hl, hnull, hlast, _, _, _, _, hb0, hbc, hdl⟩ := WF_split h
  have hrem0 : 0 ≤ rem := by omega
  let data2 := b.data.take b.length.toNat ++ cursor.take rem.toNat
    ++ b.data.drop (b.length.toNat + rem.toNat)
  have hcopy : memcpy b.data b.length cursor rem = .ok data2 :=
    memcpy_ok _ _ _ _ hb0 hrem0 (by omega) (by omega)
  have hlen2 : data2.length = cap := by
    rw [← hdl]; exact memcpy_length _ _ _ _ (by omega) (by omega)
  let b1 : Sb_Buffer := { b with data := data2 }
  let bf : Sb_Buffer := ⟨data2, cap, b.next⟩
  have hw1 : WF cap (put m p b1) (init ++ [(p, b1)]) :=
    WF_put h b1 hnull ⟨hb0, hbc, hlen2⟩
  have hl1 : load cap (put m p b1) p = .ok b1 := load_put_same b1 hl
  have hw2 : WF cap (put (put m p b1) p bf) (init ++ [(p, bf)]) :=
    WF_put hw1 bf hnull ⟨by simp [bf], by simp [bf], hlen2⟩
  have hl2 : load cap (put (put m p b1) p bf) p = .ok bf := load_put_same bf hl1
  have hlast2 : (put (put m p b1) p bf).sb.last_buffer = p := by simp [hlast]
  obtain ⟨m2, hrun, e1, e2, e3, e4, e5, e6, e7, e8⟩ :=
    sb__expand_ok env (by rw [hlast2]; exact hl2) (by simpa using he)
  simp only [put_regions_length, put_calls, put_log, put_number_of_buffers] at e1 e2 e3 e4 e5 e6 e7 e8
  rw [hlast2] at e6 e8
  refine ⟨m2, { bf with next := .heap m.regions.length }, ?_, ?_, rfl, ?_, e3, e4, e5⟩
  · rw [append_loop, if_pos (by omega), hlast, hl, bind_ok, hcopy, bind_ok,
      store_eq_put b1 hl, bind_ok]
    have e9 : setLength cap (put m p b1) (put m p b1).sb.last_buffer cap
        = .ok (put (put m p b1) p bf) := by
      rw [put_last_buffer, hlast]; exact setLength_eq _ hl1
    rw [e9, bind_ok, hrun, bind_ok]
    simp
  · have := WF_expand m2 hw2 (by simpa using e1) (by simpa using e2)
      (by simpa using e6) (by simpa using e7) (by simpa using e8)
    simpa using this
  · have hu := used_fill b cursor rem hb0 hrem0 (by omega) (by omega) (.heap m.regions.length)
    have e9 : b.length + rem = cap := by omega
    rw [e9] at hu
    exact hu

theorem append_iter_fail {cap : Nat} {env : Nat → Outcome} {m : Mem}
    {init : List (Ptr × Sb_Buffer)} {p : Ptr} {b : Sb_Buffer}
    (h : WF cap m (init ++ [(p, b)])) (fuel : Nat) (cursor : List Nat) (length rem : Int)
    (hrem : b.length = cap - rem) (hle : rem ≤ length) (hcur : length ≤ cursor.length)
    (he : env m.calls = .null) :
    ∃ m2 bf, append_loop cap env (fuel + 1) m cursor length rem = .ok m2 ∧
      WF cap m2 (init ++ [(p, bf)]) ∧
      bf.length = (cap : Int) ∧ used bf = used b ++ cursor.take rem.toNat ∧
      m2.calls = m.calls + 1 ∧
      m2.log = m.log ++ [.acquire (sizeof_Sb_Buffer cap) .null] ∧
      m2.regions.length = m.regions.length := by
  obtain ⟨_, hl, hnull, hlast, _, _, _, _, hb0, hbc, hdl⟩ := WF_split h
  have hrem0 : 0 ≤ rem := by omega
  let data2 := b.data.take b.length.toNat ++ cursor.take rem.toNat
    ++ b.data.drop (b.length.toNat + rem.toNat)
  have hcopy : memcpy b.data b.length cursor rem = .ok data2 :=
    memcpy_ok _ _ _ _ hb0 hrem0 (by omega) (by omega)
  have hlen2 : data2.length = cap := by
    rw [← hdl]; exact memcpy_length _ _ _ _ (by omega) (by omega)
  let b1 : Sb_Buffer := { b with data := data2 }
  let bf : Sb_Buffer := ⟨data2, cap, b.next⟩
  have hw1 : WF cap (put m p b1) (init ++ [(p, b1)]) :=
    WF_put h b1 hnull ⟨hb0, hbc, hlen2⟩
  have hl1 : load cap (put m p b1) p = .ok b1 := load_put_same b1 hl
  have hw2 : WF cap (put (put m p b1) p bf) (init ++ [(p, bf)]) :=
    WF_put hw1 bf hnull ⟨by simp [bf], by simp [bf], hlen2⟩
  have hl2 : load cap (put (put m p b1) p bf) p = .ok bf := load_put_same bf hl1
  have hlast2 : (put (put m p b1) p bf).sb.last_buffer = p := by simp [hlast]
  obtain ⟨m2, hrun, e1, e2, e3, e4, e5, e6, e7⟩ :=
    sb__expand_fail env (by rw [hlast2]; exact hl2) (by simpa using he)
  simp only [put_regions_length, put_calls, put_log, put_number_of_buffers] at e1 e2 e3 e4 e5 e6 e7
  rw [hlast2] at e1 e6 e7
  obtain ⟨hs2, _, _, _, hne2, hld2, hcount2, hbi2, _⟩ := WF_split hw2
  refine ⟨m2, bf, ?_, ?_, rfl, ?_, e3, e4, e5⟩
  · rw [append_loop, if_pos (by omega), hlast, hl, bind_ok, hcopy, bind_ok,
      store_eq_put b1 hl, bind_ok]
    have e9 : setLength cap (put m p b1) (put m p b1).sb.last_buffer cap
        = .ok (put (put m p b1) p bf) := by
      rw [put_last_buffer, hlast]; exact setLength_eq _ hl1
    rw [e9, bind_ok, hrun, bind_ok]
    rfl
  · refine WF_join (p := p) (q := p) ?_ ?_ (by simp) e1 ?_ hbi2 ?_
    · exact Seg_congr init _ _ (fun x hx => e7 x.1 (hne2 x hx)) hs2
    · refine ⟨rfl, ?_, hnull⟩
      rw [e6]
      have : ({ bf with next := .null } : Sb_Buffer) = bf := by simp [bf, hnull]
      rw [this]
    · simp only [put_number_of_buffers] at hcount2
      rw [e2, hcount2]; simp
    · intro x hx
      simp at hx
      rw [hx]; exact ⟨by simp [bf], by simp [bf], hlen2⟩
  · have hu := used_fill b cursor rem hb0 hrem0 (by omega) (by omega) b.next
    have e9 : b.length + rem = cap := by omega
    rw [e9] at hu
    exact hu

theorem append_iter_mapFailed {cap : Nat} {env : Nat → Outcome} {m : Mem}
    {init : List (Ptr × Sb_Buffer)} {p : Ptr} {b : Sb_Buffer}
    (h : WF cap m (init ++ [(p, b)])) (fuel : Nat) (cursor : List Nat) (length rem : Int)
    (hrem : b.length = cap - rem) (hle : rem ≤ length) (hcur : length ≤ cursor.length)
    (he : env m.calls = .mapFailed) :
    append_loop cap env (fuel + 1) m cursor length rem = .error .invalidPtr := by
  obtain ⟨_, hl, hnull, hlast, _, _, _, _, hb0, hbc, hdl⟩ := WF_split h
  have hrem0 : 0 ≤ rem := by omega
  let data2 := b.data.take b.length.toNat ++ cursor.take rem.toNat
    ++ b.data.drop (b.length.toNat + rem.toNat)
  have hcopy : memcpy b.data b.length cursor rem = .ok data2 :=
    memcpy_ok _ _ _ _ hb0 hrem0 (by omega) (by omega)
  let b1 : Sb_Buffer := { b with data := data2 }
  let bf : Sb_Buffer := ⟨data2, cap, b.next⟩
  have hl1 : load cap (put m p b1) p = .ok b1 := load_put_same b1 hl
  have hl2 : load cap (put (put m p b1) p bf) p = .ok bf := load_put_same bf hl1
  have hlast2 : (put (put m p b1) p bf).sb.last_buffer = p := by simp [hlast]
  have hrun := sb__expand_mapFailed env (m := put (put m p b1) p bf)
    (by rw [hlast2]; exact hl2) (by simpa using he)
  rw [append_loop, if_pos (by omega), hlast, hl, bind_ok, hcopy, bind_ok,
    store_eq_put b1 hl, bind_ok]
  have e9 : setLength cap (put m p b1) (put m p b1).sb.last_buffer cap
      = .ok (put (put m p b1) p bf) := by
    rw [put_last_buffer, hlast]; exact setLength_eq _ hl1
  rw [e9, bind_ok, hrun, bind_error]

theorem append_final {cap : Nat} (env : Nat → Outcome) {m : Mem}
    {init : List (Ptr × Sb_Buffer)} {p : Ptr} {b : Sb_Buffer}
    (h : WF cap m (init ++ [(p, b)])) (fuel : Nat) (cursor : List Nat) (length rem : Int)
    (hrem : b.length = cap - rem) (hlt : length < rem) (h0 : 0 ≤ length)
    (hcur : length ≤ cursor.length) :
    ∃ m2 bf, append_loop cap env (fuel + 1) m cursor length rem = .ok m2 ∧
      WF cap m2 (init ++ [(p, bf)]) ∧
      bf.length = b.length + length ∧ used bf = used b ++ cursor.take length.toNat ∧
      m2.calls = m.calls ∧ m2.log = m.log ∧ m2.regions.length = m.regions.length := by
  obtain ⟨_, hl, hnull, hlast, _, _, _, _, hb0, hbc, hdl⟩ := WF_split h
  let data2 := b.data.take b.length.toNat ++ cursor.take length.toNat
    ++ b.data.drop (b.length.toNat + length.toNat)
  have hcopy : memcpy b.data b.length cursor length = .ok data2 :=
    memcpy_ok _ _ _ _ hb0 h0 (by omega) (by omega)
  have hlen2 : data2.length = cap := by
    rw [← hdl]; exact memcpy_length _ _ _ _ (by omega) (by omega)
  let b1 : Sb_Buffer := { b with data := data2 }
  let bf : Sb_Buffer := ⟨data2, b.length + length, b.next⟩
  have hw1 : WF cap (put m p b1) (init ++ [(p, b1)]) :=
    WF_put h b1 hnull ⟨hb0, hbc, hlen2⟩
  have hl1 : load cap (put m p b1) p = .ok b1 := load_put_same b1 hl
  have hw2 : WF cap (put (put m p b1) p bf) (init ++ [(p, bf)]) :=
    WF_put hw1 bf hnull ⟨by simp [bf]; omega, by simp [bf]; omega, hlen2⟩
  refine ⟨put (put m p b1) p bf, bf, ?_, hw2, rfl, ?_, by simp, by simp, by simp⟩
  · rw [append_loop, if_neg (by omega), hlast, hl, bind_ok, hcopy, bind_ok,
      store_eq_put b1 hl, bind_ok]
    rw [put_last_buffer, hlast, hl1, bind_ok]
    exact setLength_eq _ hl1
  · exact used_fill b cursor length hb0 h0 (by omega) (by omega) b.next

/-! ## The loop of `sb_append_len` -/

theorem contents_append (a b : List (Ptr × Sb_Buffer)) :
    contents (a ++ b) = contents a ++ contents b := by
  simp [contents]

theorem contents_single (p : Ptr) (b : Sb_Buffer) : contents [(p, b)] = used b := by
  simp [contents]

theorem total_append (a b : List (Ptr × Sb_Buffer)) : total (a ++ b) = total a + total b := by
  simp [total]

theorem total_single (p : Ptr) (b : Sb_Buffer) : total [(p, b)] = b.length := by
  simp [total]

theorem Shape_snoc {cap : Nat} {init : List (Ptr × Sb_Buffer)} {p : Ptr} {b : Sb_Buffer} :
    Shape cap (init ++ [(p, b)]) ↔ ∀ x ∈ init, x.2.length = cap := by
  unfold Shape
  rw [List.dropLast_concat]

theorem append_loop_spec {cap : Nat} (env : Nat → Outcome) :
    ∀ (fuel : Nat) (m : Mem) (init : List (Ptr × Sb_Buffer)) (p : Ptr) (b : Sb_Buffer)
      (cursor : List Nat) (length rem : Int),
      WF cap m (init ++ [(p, b)]) → b.length = cap - rem → 0 ≤ length →
      length ≤ cursor.length → length + cap < rem + fuel * cap →
      (∃ m2 ch2, append_loop cap env fuel m cursor length rem = .ok m2 ∧
        AppendPost cap env m (init ++ [(p, b)]) cursor length rem m2 ch2) ∨
      (append_loop cap env fuel m cursor length rem = .error .invalidPtr ∧
        AppendCrash cap env m length rem) := by
  intro fuel
  induction fuel with
  | zero =>
    intro m init p b cursor length rem h hrem h0 _ hfuel
    obtain ⟨_, _, _, _, _, _, _, _, hb0, _, _⟩ := WF_split h
    simp at hfuel
    omega
  | succ fuel ih =>
    intro m init p b cursor length rem h hrem h0 hcur hfuel
    obtain ⟨_, _, _, _, _, _, _, _, hb0, hbc, _⟩ := WF_split h
    by_cases hlt : length < rem
    · left
      obtain ⟨m2, bf, hrun, hw, hlen, hused, hc, _, _⟩ :=
        append_final env h fuel cursor length rem hrem hlt h0 hcur
      refine ⟨m2, init ++ [(p, bf)], hrun, hw, ?_, ⟨[], by simp⟩,
        length, 0, init, p, bf, rfl, h0, le_refl _, ?_, ?_, by simp, by simp, Or.inl ?_⟩
      · intro hs; rw [Shape_snoc] at hs ⊢; exact hs
      · rw [contents_append, contents_append, contents_single, contents_single, hused,
          List.append_assoc]
      · rw [total_append, total_append, total_single, total_single, hlen]; omega
      · refine ⟨by simp [hc], rfl, by omega, ?_⟩
        rw [hlen, hrem]; simp
    · have hle : rem ≤ length := by omega
      cases he : env m.calls with
      | mapFailed =>
        right
        refine ⟨append_iter_mapFailed h fuel cursor length rem hrem hle hcur he,
          0, by simp, by simpa using he, by simpa using hle⟩
      | null =>
        left
        obtain ⟨m2, bf, hrun, hw, hlen, hused, hc, _, _⟩ :=
          append_iter_fail h fuel cursor length rem hrem hle hcur he
        refine ⟨m2, init ++ [(p, bf)], hrun, hw, ?_, ⟨[], by simp⟩,
          rem, 0, init, p, bf, rfl, by omega, hle, ?_, ?_, by simp, by simp, Or.inr ?_⟩
        · intro hs; rw [Shape_snoc] at hs ⊢; exact hs
        · rw [contents_append, contents_append, contents_single, contents_single, hused,
            List.append_assoc]
        · rw [total_append, total_append, total_single, total_single, hlen]; omega
        · exact ⟨by simp [hc], by simpa using he, by simp, hlen⟩
      | mapped =>
        obtain ⟨m1, bf, hrun, hw, hlen, hused, hc, _, _⟩ :=
          append_iter_ok h fuel cursor length rem hrem hle hcur he
        have hw1 : WF cap m1 ((init ++ [(p, bf)]) ++
            [(.heap m.regions.length, ⟨List.replicate cap 0, 0, .null⟩)]) := by
          simpa using hw
        have hfuel1 : length - rem + cap < cap + fuel * cap := by
          push_cast at hfuel
          have : ((fuel : Int) + 1) * cap = fuel * cap + cap := by ring
          omega
        have hcur1 : length - rem ≤ (cursor.drop rem.toNat).length := by
          simp only [List.length_drop]
          omega
        rcases ih m1 (init ++ [(p, bf)]) (.heap m.regions.length)
            ⟨List.replicate cap 0, 0, .null⟩ (cursor.drop rem.toNat) (length - rem) cap hw1
            (by simp) (by omega) hcur1 hfuel1 with
          ⟨m2, ch2, hrun2, hw2, hshape, ⟨extra, hextra⟩, k, n, init2, p2, b2, hch2, hk0,
            hkl, hcont, htot, hlen2, henv, hcases⟩ | ⟨hrun2, n, henv, hfail, hreach⟩
        · left
          have hused0 : used ⟨List.replicate cap 0, 0, .null⟩ = [] := by simp [used]
          refine ⟨m2, ch2, by rw [hrun]; exact hrun2, hw2, ?_, ?_,
            rem + k, n + 1, init2, p2, b2, hch2, by omega, by omega, ?_, ?_, ?_, ?_, ?_⟩
          · intro hs
            apply hshape
            rw [Shape_snoc] at hs ⊢
            intro x hx
            rcases List.mem_append.1 hx with hx1 | hx1
            · exact hs x hx1
            · simp at hx1; rw [hx1]; exact hlen
          · refine ⟨.heap m.regions.length :: extra, ?_⟩
            rw [hextra]; simp
          · rw [hcont, contents_append, contents_append, contents_single, contents_single,
              contents_append, contents_single, hused, hused0]
            have e : (rem + k).toNat = rem.toNat + k.toNat := by omega
            rw [e, List.take_add]
            simp
          · rw [htot, total_append, total_append, total_single, total_single, total_append,
              total_single, hlen]
            simp; omega
          · rw [hlen2]; simp; omega
          · intro i hi
            cases i with
            | zero => simpa using he
            | succ j =>
              have := henv j (by omega)
              rw [hc] at this
              rw [← this]; congr 1; omega
          · rcases hcases with ⟨c1, c2, c3, c4⟩ | ⟨c1, c2, c3, c4⟩
            · refine Or.inl ⟨by rw [c1, hc]; omega, by omega, c3, ?_⟩
              rw [c4]; push_cast; ring
            · refine Or.inr ⟨by rw [c1, hc]; omega, ?_, ?_, c4⟩
              · rw [hc] at c2
                rw [← c2]; congr 1; omega
              · rw [c3]; push_cast; ring
        · right
          refine ⟨by rw [hrun]; exact hrun2, n + 1, ?_, ?_, ?_⟩
          · intro i hi
            cases i with
            | zero => simpa using he
            | succ j =>
              have := henv j (by omega)
              rw [hc] at this
              rw [← this]; congr 1; omega
          · rw [hc] at hfail
            rw [← hfail]; congr 1; omega
          · push_cast
            have : ((n : Int) + 1) * cap = n * cap + cap := by ring
            omega

/-! ## `sb_append_len` and `sb_init` -/

theorem fuel_enough {cap : Nat} (hcap : 0 < cap) {length blen : Int} {fuel : Nat}
    (h0 : 0 ≤ length) (hf : length + 2 ≤ fuel) (hb : blen ≤ cap) :
    length + cap < (cap - blen) + fuel * cap := by
  have h1 : (length + 2) * (cap : Int) ≤ fuel * cap :=
    mul_le_mul_of_nonneg_right hf (by omega)
  have h2 : length * 1 ≤ length * (cap : Int) :=
    mul_le_mul_of_nonneg_left (by omega) h0
  have h3 : (length + 2) * (cap : Int) = length * cap + 2 * cap := by ring
  omega

/-- A call of `sb_append_len` with enough fuel either returns a state
described by `AppendPost`, or faults because the allocator returned
`MAP_FAILED`. -/
theorem sb_append_len_cases {cap : Nat} (env : Nat → Outcome) (hcap : 0 < cap) {m : Mem}
    {init : List (Ptr × Sb_Buffer)} {p : Ptr} {b : Sb_Buffer}
    (h : WF cap m (init ++ [(p, b)])) (string : List Nat) (length : Int) (h0 : 0 ≤ length)
    (hs : length ≤ string.length) (fuel : Nat) (hf : length + 2 ≤ fuel) :
    (∃ m2 ch2, sb_append_len cap env fuel m .valid string length = .ok m2 ∧
      AppendPost cap env m (init ++ [(p, b)]) string length (cap - b.length) m2 ch2) ∨
    (sb_append_len cap env fuel m .valid string length = .error .invalidPtr ∧
      AppendCrash cap env m length (cap - b.length)) := by
  obtain ⟨_, hl, _, hlast, _, _, _, _, hb0, hbc, _⟩ := WF_split h
  have hrun : sb_append_len cap env fuel m .valid string length
      = append_loop cap env fuel m string length (cap - b.length) := by
    simp only [sb_append_len]
    rw [hlast, hl, bind_ok]
  rw [hrun]
  exact append_loop_spec env fuel m init p b string length (cap - b.length) h (by omega)
    h0 hs (fuel_enough hcap h0 hf hbc)

/-- With an allocator that reports failure as NULL (or does not fail) a call
of `sb_append_len` with enough fuel returns. -/
theorem sb_append_len_spec {cap : Nat} (env : Nat → Outcome) (hcap : 0 < cap) {m : Mem}
    {init : List (Ptr × Sb_Buffer)} {p : Ptr} {b : Sb_Buffer}
    (h : WF cap m (init ++ [(p, b)])) (string : List Nat) (length : Int) (h0 : 0 ≤ length)
    (hs : length ≤ string.length) (fuel : Nat) (hf : length + 2 ≤ fuel)
    (hnf : ∀ i, env i ≠ .mapFailed) :
    ∃ m2 ch2, sb_append_len cap env fuel m .valid string length = .ok m2 ∧
      AppendPost cap env m (init ++ [(p, b)]) string length (cap - b.length) m2 ch2 := by
  rcases sb_append_len_cases env hcap h string length h0 hs fuel hf with h1 | ⟨_, n, _, h2, _⟩
  · exact h1
  · exact absurd h2 (hnf _)

theorem sb_init_spec {cap : Nat} (m : Mem) (hd : m.sb.first_buffer.data.length = cap) :
    ∃ m1, sb_init cap m .valid = .ok m1 ∧
      WF cap m1 [(.first, ⟨m.sb.first_buffer.data, 0, .null⟩)] ∧
      m1.sb.number_of_buffers = 1 ∧ m1.sb.last_buffer = .first ∧
      m1.calls = m.calls ∧ m1.log = m.log ∧ m1.regions = m.regions := by
  refine ⟨_, rfl, ⟨⟨⟨rfl, rfl, rfl⟩, ?_⟩, rfl, rfl⟩, rfl, rfl, rfl, rfl, rfl⟩
  intro x hx
  simp at hx
  rw [hx]
  exact ⟨le_refl _, by simp, hd⟩

/-! ## `sb_to_string` -/

theorem wrap32_id {x : Int} (h0 : -2147483648 ≤ x) (h1 : x ≤ 2147483647) : wrap32 x = x := by
  unfold wrap32; omega

theorem to_size_t_id {x : Int} (h0 : 0 ≤ x) (h1 : x < 18446744073709551616) :
    to_size_t x = x.toNat := by
  unfold to_size_t
  rw [Int.emod_eq_of_lt h0 h1]

theorem total_nonneg {ch : List (Ptr × Sb_Buffer)} (h : ∀ x ∈ ch, 0 ≤ x.2.length) :
    0 ≤ total ch := by
  induction ch with
  | nil => simp [total]
  | cons x rest ih =>
    have h1 := h x (List.mem_cons_self _ _)
    have h2 := ih (fun y hy => h y (List.mem_cons_of_mem _ hy))
    simp only [total, List.map_cons, List.sum_cons] at h2 ⊢
    omega

theorem contents_length {cap : Nat} {ch : List (Ptr × Sb_Buffer)}
    (h : ∀ x ∈ ch, 0 ≤ x.2.length ∧ x.2.length ≤ cap ∧ x.2.data.length = cap) :
    ((contents ch).length : Int) = total ch := by
  induction ch with
  | nil => simp [total, contents]
  | cons x rest ih =>
    have h1 := h x (List.mem_cons_self _ _)
    have h2 := ih (fun y hy => h y (List.mem_cons_of_mem _ hy))
    simp only [total, contents, List.map_cons, List.sum_cons, List.flatten_cons,
      List.length_append] at h2 ⊢
    push_cast
    rw [h2]
    simp only [used, List.length_take]
    omega

theorem sum_loop_spec {cap : Nat} {m : Mem} :
    ∀ (rest : List (Ptr × Sb_Buffer)) (x : Ptr × Sb_Buffer) (p : Ptr) (acc : Int) (fuel : Nat),
      Seg cap m p (x :: rest) .null → rest.length < fuel →
      (∀ y ∈ rest, 0 ≤ y.2.length) → 0 ≤ acc → acc + total rest ≤ INT_MAX →
      sum_loop cap fuel m p acc = .ok (acc + total rest)
  | [], x, p, acc, fuel, hseg, hfuel, _, _, _ => by
    obtain ⟨e, hl, hn⟩ := hseg
    have hnull : x.2.next = .null := hn
    cases fuel with
    | zero => simp at hfuel
    | succ fuel =>
      rw [sum_loop, e, hl, bind_ok, if_neg (by simp [hnull])]
      simp [total]; rfl
  | y :: rest, x, p, acc, fuel, hseg, hfuel, hpos, hacc, hmax => by
    obtain ⟨e, hl, hrest⟩ := hseg
    have hy : x.2.next = y.1 := hrest.1
    have hly : load cap m y.1 = .ok y.2 := hrest.2.1
    have hne : x.2.next ≠ .null := by
      intro e2
      rw [hy] at e2
      rw [e2] at hly
      simp [load] at hly
    have hy0 := hpos y (List.mem_cons_self _ _)
    have hr0 : 0 ≤ total rest := total_nonneg (fun z hz => hpos z (List.mem_cons_of_mem _ hz))
    have htot : total (y :: rest) = y.2.length + total rest := by simp [total]
    rw [htot] at hmax
    unfold INT_MAX at hmax
    cases fuel with
    | zero => simp at hfuel
    | succ fuel =>
      rw [sum_loop, e, hl, bind_ok, if_pos hne, hy]
      dsimp only
      rw [hly, bind_ok, wrap32_id (by omega) (by omega)]
      rw [sum_loop_spec rest y y.1 (acc + y.2.length) fuel (hy ▸ hrest)
        (by simp at hfuel; omega) (fun z hz => hpos z (List.mem_cons_of_mem _ hz))
        (by omega) (by unfold INT_MAX; omega)]
      rw [htot]; congr 1; omega

theorem load_putBytes {cap : Nat} (m : Mem) (a : Nat) (l : List Nat) {q : Ptr}
    (h : q ≠ .heap a) : load cap (putBytes m a l) q = load cap m q := by
  cases q with
  | null => rfl
  | mapFailed => rfl
  | first => rfl
  | heap c =>
    have hne : a ≠ c := fun e => h (by rw [e])
    simp [load, putBytes, List.getElem?_set, hne]

theorem load_bytes_putBytes (m : Mem) (a : Nat) (l : List Nat) (h : a < m.regions.length) :
    load_bytes (putBytes m a l) (.heap a) = .ok l := by
  simp [load_bytes, putBytes, List.getElem?_set, h]

theorem putBytes_putBytes (m : Mem) (a : Nat) (l1 l2 : List Nat) :
    putBytes (putBytes m a l1) a l2 = putBytes m a l2 := by
  simp [putBytes]

theorem write_bytes_spec (m : Mem) (a : Nat) (l : List Nat) (off : Int) (src : List Nat)
    (n : Nat) (hl : load_bytes m (.heap a) = .ok l) (h0 : 0 ≤ off)
    (hs : n ≤ src.length) (hd : off.toNat + n ≤ l.length) :
    write_bytes m (.heap a) off src n
      = .ok (putBytes m a (l.take off.toNat ++ src.take n ++ l.drop (off.toNat + n))) := by
  unfold write_bytes
  rw [hl, bind_ok, memcpy_ok l off src n h0 (by omega) (by simpa using hs) (by simpa using hd),
    bind_ok]
  simp [putBytes]
  rfl

theorem contents_cons (x : Ptr × Sb_Buffer) (rest : List (Ptr × Sb_Buffer)) :
    contents (x :: rest) = used x.2 ++ contents rest := by
  simp [contents]

theorem splice (pre gap d : List Nat) (n : Nat) :
    (pre ++ gap).take pre.length ++ d ++ (pre ++ gap).drop (pre.length + n)
      = pre ++ d ++ gap.drop n := by
  rw [List.take_left' rfl, List.drop_append]

theorem replicate_poke (size t : Nat) (h : t < size) :
    (List.replicate size 0).take t ++ [0].take 1 ++ (List.replicate size 0).drop (t + 1)
      = List.replicate size 0 := by
  rw [List.eq_replicate_iff]
  constructor
  · simp; omega
  · intro c hc
    simp only [List.mem_append, List.take_replicate, List.drop_replicate,
      List.mem_replicate] at hc
    rcases hc with (hc | hc) | hc
    · exact hc.2
    · simp at hc; exact hc
    · exact hc.2

theorem le_total {ch : List (Ptr × Sb_Buffer)} (h : ∀ x ∈ ch, 0 ≤ x.2.length) :
    ∀ y ∈ ch, y.2.length ≤ total ch := by
  induction ch with
  | nil => intro y hy; cases hy
  | cons w tl ih =>
    intro y hy
    have hw0 := h w (List.mem_cons_self _ _)
    have ht0 : 0 ≤ total tl := total_nonneg (fun z hz => h z (List.mem_cons_of_mem _ hz))
    have htw : total (w :: tl) = w.2.length + total tl := by simp [total]
    rcases List.mem_cons.1 hy with e | hmem
    · rw [e, htw]; omega
    · have := ih (fun z hz => h z (List.mem_cons_of_mem _ hz)) y hmem
      rw [htw]; omega

theorem copy_loop_spec (cap : Nat) (a : Nat) :
    ∀ (rest : List (Ptr × Sb_Buffer)) (x : Ptr × Sb_Buffer) (p : Ptr) (m : Mem)
      (pre gap : List Nat) (off : Int) (fuel : Nat),
      Seg cap m p (x :: rest) .null → (∀ y ∈ x :: rest, y.1 ≠ .heap a) →
      load_bytes m (.heap a) = .ok (pre ++ gap) → a < m.regions.length →
      off = pre.length →
      (∀ y ∈ x :: rest, 0 ≤ y.2.length ∧ y.2.length ≤ cap ∧ y.2.data.length = cap ∧
        y.2.length < 18446744073709551616) →
      (contents (x :: rest)).length ≤ gap.length → rest.length < fuel →
      copy_loop cap fuel m (.heap a) off p
        = .ok (putBytes m a (pre ++ contents (x :: rest)
            ++ gap.drop (contents (x :: rest)).length)) := by
  intro rest
  induction rest with
  | nil =>
    intro x p m pre gap off fuel hseg _ hlb ha hoff hb hlen hfuel
    obtain ⟨e, hl, hn⟩ := hseg
    have hnull : x.2.next = .null := hn
    obtain ⟨hx0, hxc, hxd, hxs⟩ := hb x (List.mem_cons_self _ _)
    have hul : (used x.2).length = x.2.length.toNat := by
      simp only [used, List.length_take]; omega
    rw [contents_cons] at hlen ⊢
    simp only [contents, List.map_nil, List.flatten_nil, List.append_nil] at hlen ⊢
    cases fuel with
    | zero => simp at hfuel
    | succ fuel =>
      rw [copy_loop, e, hl, bind_ok, to_size_t_id hx0 hxs,
        write_bytes_spec m a (pre ++ gap) off x.2.data x.2.length.toNat hlb (by omega)
          (by omega) (by simp only [List.length_append]; omega), bind_ok]
      simp only [hnull, ne_eq, not_true_eq_false, if_false]
      have e1 : off.toNat = pre.length := by omega
      rw [e1, splice, hul]
      rfl
  | cons y rest ih =>
    intro x p m pre gap off fuel hseg hne hlb ha hoff hb hlen hfuel
    obtain ⟨e, hl, hrest⟩ := hseg
    have hy : x.2.next = y.1 := hrest.1
    have hnn : x.2.next ≠ .null := by
      intro e2
      have := hrest.2.1
      rw [← hy, e2] at this
      simp [load] at this
    obtain ⟨hx0, hxc, hxd, hxs⟩ := hb x (List.mem_cons_self _ _)
    have hul : (used x.2).length = x.2.length.toNat := by
      simp only [used, List.length_take]; omega
    rw [contents_cons] at hlen ⊢
    simp only [List.length_append] at hlen
    cases fuel with
    | zero => simp at hfuel
    | succ fuel =>
      rw [copy_loop, e, hl, bind_ok, to_size_t_id hx0 hxs,
        write_bytes_spec m a (pre ++ gap) off x.2.data x.2.length.toNat hlb (by omega)
          (by omega) (by simp only [List.length_append]; omega), bind_ok]
      dsimp only
      rw [if_pos hnn]
      have e1 : off.toNat = pre.length := by omega
      have hl1 : List.take off.toNat (pre ++ gap) ++ List.take x.2.length.toNat x.2.data
          ++ List.drop (off.toNat + x.2.length.toNat) (pre ++ gap)
          = (pre ++ used x.2) ++ gap.drop x.2.length.toNat := by
        rw [e1, splice]
        rfl
      rw [hl1]
      rw [ih y x.2.next (putBytes m a ((pre ++ used x.2) ++ gap.drop x.2.length.toNat))
        (pre ++ used x.2) (gap.drop x.2.length.toNat) (off + x.2.length) fuel
        (Seg_congr _ _ _ (fun z hz => load_putBytes m a _ (hne z (List.mem_cons_of_mem _ hz)))
          hrest)
        (fun z hz => hne z (List.mem_cons_of_mem _ hz))
        (load_bytes_putBytes m a _ ha) (by simpa [putBytes] using ha)
        (by simp only [List.length_append, hul]; omega)
        (fun z hz => hb z (List.mem_cons_of_mem _ hz))
        (by simp only [List.length_drop]; omega)
        (by simp at hfuel; omega)]
      rw [putBytes_putBytes]
      simp [List.drop_drop, hul, add_comm]

theorem Chain_ne_fresh {cap : Nat} {m : Mem} {ch : List (Ptr × Sb_Buffer)} {p : Ptr}
    (h : Seg cap m p ch .null) : ∀ y ∈ ch, y.1 ≠ .heap m.regions.length :=
  fun y hy => load_ok_ne_fresh (Seg_load _ _ _ h y hy)

theorem sb_to_string_spec {cap : Nat} (env : Nat → Outcome) {m : Mem}
    {ch : List (Ptr × Sb_Buffer)} (h : Chain cap m ch) (htot : total ch ≤ INT_MAX)
    (he : env m.calls = .mapped) (fuel : Nat) (hfuel : ch.length ≤ fuel) :
    sb_to_string cap env fuel m .valid
      = .ok (total ch, .heap m.regions.length,
          { m with
            regions := m.regions ++ [.bytes (contents ch ++
              List.replicate (to_size_t (wrap32 (total ch + 1)) - (total ch).toNat) 0)],
            calls := m.calls + 1,
            log := m.log ++ [.acquire (to_size_t (wrap32 (total ch + 1)))
              (.heap m.regions.length)] }) := by
  obtain ⟨b, rest, hch, hfirst⟩ := Chain_head h
  obtain ⟨hseg, hb⟩ := h
  rw [hch] at hseg hb htot hfuel
  have hpos : ∀ y ∈ rest, 0 ≤ y.2.length := fun y hy => (hb y (List.mem_cons_of_mem _ hy)).1
  have hb0 : 0 ≤ b.length := (hb (.first, b) (List.mem_cons_self _ _)).1
  have hr0 := total_nonneg hpos
  have htc : total ((Ptr.first, b) :: rest) = b.length + total rest := by simp [total]
  have hall0 : 0 ≤ total ((Ptr.first, b) :: rest) := by rw [htc]; omega
  have hsum := sum_loop_spec rest (.first, b) .first b.length fuel hseg
    (by simp at hfuel; omega) hpos hb0 (by rw [← htc]; exact htot)
  rw [← htc] at hsum
  have hclen := contents_length hb
  unfold INT_MAX at htot
  -- the size requested from the allocator
  have hsize : (total ((Ptr.first, b) :: rest)).toNat
      < to_size_t (wrap32 (total ((Ptr.first, b) :: rest) + 1)) := by
    unfold to_size_t wrap32
    omega
  rw [hch]
  generalize htdef : total ((Ptr.first, b) :: rest) = t at *
  generalize hsdef : to_size_t (wrap32 (t + 1)) = size at *
  let m1 : Mem := { m with regions := m.regions ++ [.fresh size], calls := m.calls + 1,
                           log := m.log ++ [.acquire size (.heap m.regions.length)] }
  have hmalloc : sb__malloc env m size = (.heap m.regions.length, m1) := by
    simp [sb__malloc, he, m1]
  have hlb1 : load_bytes m1 (.heap m.regions.length) = .ok (List.replicate size 0) := by
    simp [load_bytes, m1]
  have hw1 : write_bytes m1 (.heap m.regions.length) t [0] 1
      = .ok (putBytes m1 m.regions.length (List.replicate size 0)) := by
    rw [write_bytes_spec m1 m.regions.length _ t [0] 1 hlb1 hall0 (by simp)
      (by simp only [List.length_replicate]; omega)]
    rw [replicate_poke size t.toNat hsize]
  have hseg1 : Seg cap (putBytes m1 m.regions.length (List.replicate size 0)) .first
      ((Ptr.first, b) :: rest) .null := by
    refine Seg_congr _ _ _ (fun z hz => ?_) hseg
    have hz1 := Chain_ne_fresh hseg z hz
    rw [load_putBytes _ _ _ hz1]
    exact load_grow m _ _ _ hz1
  have hcopy := copy_loop_spec cap m.regions.length rest (.first, b) .first
    (putBytes m1 m.regions.length (List.replicate size 0)) [] (List.replicate size 0) 0 fuel
    hseg1 (Chain_ne_fresh hseg)
    (by rw [List.nil_append]; exact load_bytes_putBytes m1 _ _ (by simp [m1]))
    (by simp [putBytes, m1]) (by simp)
    (fun y hy => by
      obtain ⟨y0, y1, y2⟩ := hb y hy
      refine ⟨y0, y1, y2, ?_⟩
      have : y.2.length ≤ t := by
        rw [← htdef]
        exact le_total (fun z hz => (hb z hz).1) y hy
      omega)
    (by simp only [List.length_replicate]; omega) (by simp at hfuel; omega)
  simp only [sb_to_string, hfirst, hsum, bind_ok, hsdef, hmalloc, hw1]
  rw [hcopy, bind_ok, putBytes_putBytes]
  simp only [putBytes, m1, List.nil_append, List.drop_replicate]
  have hset : (m.regions ++ [Region.fresh size]).set m.regions.length
      (.bytes (contents ((Ptr.first, b) :: rest)
        ++ List.replicate (size - (contents ((Ptr.first, b) :: rest)).length) 0))
      = m.regions ++ [.bytes (contents ((Ptr.first, b) :: rest)
        ++ List.replicate (size - (contents ((Ptr.first, b) :: rest)).length) 0)] := by
    simp
  rw [hset]
  have hcl : (contents ((Ptr.first, b) :: rest)).length = t.toNat := by omega
  rw [hcl]
  rfl

/-- At a total of exactly `INT_MAX` the sum is still returned, but
`total_length+1` no longer fits the `int` it is computed in: the request is
for `(size_t) INT_MIN` bytes, not for `total + 1`. -/
theorem to_string_at_INT_MAX {cap : Nat} (env : Nat → Outcome) {m : Mem}
    {ch : List (Ptr × Sb_Buffer)} (h : Chain cap m ch) (ht : total ch = INT_MAX)
    (he : env m.calls = .mapped) (fuel : Nat) (hfuel : ch.length ≤ fuel) :
    ∃ m3, sb_to_string cap env fuel m .valid = .ok (INT_MAX, .heap m.regions.length, m3) ∧
      m3.log = m.log ++ [.acquire 18446744071562067968 (.heap m.regions.length)] := by
  have hts := sb_to_string_spec env h (le_of_eq ht) he fuel hfuel
  rw [ht] at hts
  have hsize : to_size_t (wrap32 (INT_MAX + 1)) = 18446744071562067968 := by decide
  rw [hsize] at hts
  exact ⟨_, hts, rfl⟩

/-! ## Fuel -/

theorem bind_eq_ok {α β : Type} {x : Except Err α} {f : α → Except Err β} {r : β} :
    (x >>= f) = .ok r ↔ ∃ a, x = .ok a ∧ f a = .ok r := by
  cases x with
  | error e => simp [bind_error]
  | ok a => simp [bind_ok]

theorem append_loop_succ {cap : Nat} {env : Nat → Outcome} :
    ∀ (fuel : Nat) (m : Mem) (cursor : List Nat) (length rem : Int) (r : Mem),
      append_loop cap env fuel m cursor length rem = .ok r →
      append_loop cap env (fuel + 1) m cursor length rem = .ok r := by
  intro fuel
  induction fuel with
  | zero => intro m cursor length rem r h; simp [append_loop] at h
  | succ n ih =>
    intro m cursor length rem r h
    rw [append_loop] at h ⊢
    by_cases hc : rem - length ≤ 0
    · rw [if_pos hc] at h ⊢
      obtain ⟨last, h1, h⟩ := bind_eq_ok.1 h
      obtain ⟨data, h2, h⟩ := bind_eq_ok.1 h
      obtain ⟨m1, h3, h⟩ := bind_eq_ok.1 h
      obtain ⟨m2, h4, h⟩ := bind_eq_ok.1 h
      obtain ⟨r1, h5, h⟩ := bind_eq_ok.1 h
      rw [h1, bind_ok, h2, bind_ok, h3, bind_ok]
      dsimp only
      rw [h4, bind_ok, h5, bind_ok]
      by_cases h6 : r1.1 = 0
      · rw [if_pos h6] at h ⊢; exact h
      · rw [if_neg h6] at h ⊢; exact ih _ _ _ _ _ h
    · rw [if_neg hc] at h ⊢; exact h

theorem append_loop_mono {cap : Nat} {env : Nat → Outcome} {fuel fuel2 : Nat} (hle : fuel ≤ fuel2)
    {m : Mem} {cursor : List Nat} {length rem : Int} {r : Mem}
    (h : append_loop cap env fuel m cursor length rem = .ok r) :
    append_loop cap env fuel2 m cursor length rem = .ok r := by
  induction hle with
  | refl => exact h
  | step _ ih => exact append_loop_succ _ _ _ _ _ _ ih

theorem sb_append_len_mono {cap : Nat} {env : Nat → Outcome} {fuel fuel2 : Nat} (hle : fuel ≤ fuel2)
    {m : Mem} {string : List Nat} {length : Int} {r : Mem}
    (h : sb_append_len cap env fuel m .valid string length = .ok r) :
    sb_append_len cap env fuel2 m .valid string length = .ok r := by
  simp only [sb_append_len] at h ⊢
  obtain ⟨last, h1, h⟩ := bind_eq_ok.1 h
  rw [h1, bind_ok]
  exact append_loop_mono hle h

/-- Whatever fuel made a call of `sb_append_len` return, the state it
returned is the one described by `AppendPost`. -/
theorem sb_append_len_post {cap : Nat} {env : Nat → Outcome} (hcap : 0 < cap) {m : Mem}
    {init : List (Ptr × Sb_Buffer)} {p : Ptr} {b : Sb_Buffer}
    (h : WF cap m (init ++ [(p, b)])) {string : List Nat} {length : Int} (h0 : 0 ≤ length)
    (hs : length ≤ string.length) {fuel : Nat} {m2 : Mem}
    (hrun : sb_append_len cap env fuel m .valid string length = .ok m2) :
    ∃ ch2, AppendPost cap env m (init ++ [(p, b)]) string length (cap - b.length) m2 ch2 := by
  have hrun2 := sb_append_len_mono (le_max_left fuel (length.toNat + 2)) hrun
  rcases sb_append_len_cases env hcap h string length h0 hs (max fuel (length.toNat + 2))
      (by
        have : (length.toNat + 2 : Nat) ≤ max fuel (length.toNat + 2) := le_max_right _ _
        omega) with ⟨m3, ch2, hrun3, hpost⟩ | ⟨hrun3, _⟩
  · rw [hrun2] at hrun3
    have e : m2 = m3 := Except.ok.inj hrun3
    rw [e]
    exact ⟨ch2, hpost⟩
  · rw [hrun2] at hrun3
    cases hrun3

/-! ## Sequences of appends with a succeeding allocator -/

theorem AppendPost_ok {cap : Nat} {env : Nat → Outcome} (henv : ∀ i, env i = .mapped) {m m2 : Mem}
    {ch ch2 : List (Ptr × Sb_Buffer)} {cursor : List Nat} {length rem : Int}
    (h : AppendPost cap env m ch cursor length rem m2 ch2) :
    WF cap m2 ch2 ∧ (Shape cap ch → Shape cap ch2) ∧ Spare cap ch2 ∧
    contents ch2 = contents ch ++ cursor.take length.toNat ∧
    total ch2 = total ch + length ∧
    ∃ n : Nat, ch2.length = ch.length + n ∧ m2.calls = m.calls + n ∧
      ∃ init2 p2 b2, ch2 = init2 ++ [(p2, b2)] ∧ b2.length = cap - rem + length - n * cap := by
  obtain ⟨hw, hshape, _, k, n, init2, p2, b2, hch2, _, _, hcont, htot, hlen, _, hcases⟩ := h
  rcases hcases with ⟨c1, c2, c3, c4⟩ | ⟨_, c2, _, _⟩
  · refine ⟨hw, hshape, ?_, by rw [hcont, c2], by rw [htot, c2], n, hlen, c1, init2, p2, b2,
      hch2, c4⟩
    intro x hx
    rw [hch2] at hx
    simp at hx
    rw [← hx]; exact c3
  · rw [henv] at c2; cases c2

theorem sb_append_all_spec {cap : Nat} {env : Nat → Outcome} (hcap : 0 < cap)
    (henv : ∀ i, env i = .mapped) (fuel : Nat) :
    ∀ (strings : List (List Nat)) (m : Mem) (ch : List (Ptr × Sb_Buffer)),
      WF cap m ch → Shape cap ch → Spare cap ch → (∀ s ∈ strings, s.length + 2 ≤ fuel) →
      ∃ m2 ch2, sb_append_all cap env fuel m strings = .ok m2 ∧ WF cap m2 ch2 ∧
        Shape cap ch2 ∧ Spare cap ch2 ∧
        contents ch2 = contents ch ++ strings.flatten ∧
        total ch2 = total ch + appended strings
  | [], m, ch, hw, hs, hsp, _ => ⟨m, ch, rfl, hw, hs, hsp, by simp, by simp [appended]⟩
  | s :: rest, m, ch, hw, hs, hsp, hf => by
    obtain ⟨init, p, b, hch⟩ := WF_nonempty hw
    rw [hch] at hw
    obtain ⟨m1, ch1, hrun, hpost⟩ :=
      sb_append_len_spec env hcap hw s s.length (by omega) (le_refl _) fuel
        (by have := hf s (List.mem_cons_self _ _); omega)
        (fun i hi => by rw [henv i] at hi; cases hi)
    obtain ⟨hw1, hs1, hsp1, hc1, ht1, _⟩ := AppendPost_ok henv hpost
    obtain ⟨m2, ch2, hrun2, hw2, hs2, hsp2, hc2, ht2⟩ :=
      sb_append_all_spec hcap henv fuel rest m1 ch1 hw1 (hs1 (hch ▸ hs)) hsp1
        (fun t ht => hf t (List.mem_cons_of_mem _ ht))
    refine ⟨m2, ch2, ?_, hw2, hs2, hsp2, ?_, ?_⟩
    · rw [sb_append_all, hrun, bind_ok]; exact hrun2
    · rw [hc2, hc1, hch]; simp
    · rw [ht2, ht1, hch]; simp [appended]; omega

theorem total_full {cap : Nat} {init : List (Ptr × Sb_Buffer)}
    (h : ∀ x ∈ init, x.2.length = cap) : total init = init.length * cap := by
  induction init with
  | nil => simp [total]
  | cons x rest ih =>
    have h1 := h x (List.mem_cons_self _ _)
    have h2 := ih (fun y hy => h y (List.mem_cons_of_mem _ hy))
    simp only [total, List.map_cons, List.sum_cons, List.length_cons] at h2 ⊢
    rw [h1, h2]; push_cast; ring

/-- In a well-formed chain of full buffers followed by a buffer with room
left, the number of buffers is the total length divided by the capacity, plus one. -/
theorem count_formula {cap : Nat} {m : Mem} {ch : List (Ptr × Sb_Buffer)} (hw : WF cap m ch)
    (hs : Shape cap ch) (hsp : Spare cap ch) :
    0 ≤ total ch ∧ ch.length = (total ch).toNat / cap + 1 := by
  obtain ⟨init, p, b, hch⟩ := WF_nonempty hw
  rw [hch] at hw hs hsp ⊢
  obtain ⟨_, _, _, _, _, _, _, _, hb0, _, _⟩ := WF_split hw
  have hb1 : b.length < cap := hsp (p, b) (by simp)
  have hfull := total_full (Shape_snoc.1 hs)
  rw [total_append, total_single, hfull]
  have hcap : 0 < cap := by omega
  have hnn : (0 : Int) ≤ init.length * cap := by positivity
  refine ⟨by omega, ?_⟩
  have e : ((init.length : Int) * cap + b.length).toNat = b.length.toNat + cap * init.length := by
    have : ((init.length * cap : Nat) : Int) = (init.length : Int) * cap := by push_cast; rfl
    have h2 := Nat.mul_comm cap init.length
    omega
  rw [e, Nat.add_mul_div_left _ _ hcap, Nat.div_eq_of_lt (by omega)]
  simp

theorem init_chain {cap : Nat} (m0 : Mem) (hd : m0.sb.first_buffer.data.length = cap)
    (hcap : 0 < cap) :
    ∃ m1, sb_init cap m0 .valid = .ok m1 ∧
      WF cap m1 [(.first, ⟨m0.sb.first_buffer.data, 0, .null⟩)] ∧
      Shape cap [(.first, ⟨m0.sb.first_buffer.data, 0, .null⟩)] ∧
      Spare cap [(.first, ⟨m0.sb.first_buffer.data, 0, .null⟩)] ∧
      m1.calls = m0.calls ∧ m1.log = m0.log ∧ m1.regions = m0.regions := by
  obtain ⟨m1, h1, h2, _, _, h3, h4, h5⟩ := sb_init_spec m0 hd
  refine ⟨m1, h1, h2, ?_, ?_, h3, h4, h5⟩
  · intro x hx; simp at hx
  · intro x hx
    simp at hx
    rw [← hx]; simpa using hcap

/-- The ceiling of `T / cap`, written `(T + cap - 1) / cap`, is `T / cap + 1`
unless `cap` divides `T`. -/
theorem ceil_div_formula (cap T : Nat) (hcap : 0 < cap) :
    (T % cap ≠ 0 → (T + cap - 1) / cap = T / cap + 1) ∧
    (T % cap = 0 → (T + cap - 1) / cap = T / cap) := by
  have h1 := Nat.div_add_mod T cap
  have h2 := Nat.mod_lt T hcap
  constructor
  · intro hmod
    have e : T + cap - 1 = (T % cap - 1) + cap * (T / cap + 1) := by
      rw [Nat.mul_succ]
      generalize cap * (T / cap) = cq at *
      omega
    rw [e, Nat.add_mul_div_left _ _ hcap, Nat.div_eq_of_lt (by omega)]
    omega
  · intro hmod
    have e : T + cap - 1 = (cap - 1) + cap * (T / cap) := by
      generalize cap * (T / cap) = cq at *
      omega
    rw [e, Nat.add_mul_div_left _ _ hcap, Nat.div_eq_of_lt (by omega)]
    omega

/-! ## Claims -/

/-- C1: after `sb_init`, appending the strings `s1 .. sn` (each with its true
length, the total within the `int` range) with a succeeding allocator and
then calling `sb_to_string` returns the sum of the lengths and a buffer whose
first bytes are `s1 ++ ... ++ sn`, whatever the capacity of a buffer. -/
theorem C1_to_string_concat (cap : Nat) (env : Nat → Outcome) (fuel : Nat) (m0 : Mem)
    (strings : List (List Nat)) (hcap : 0 < cap)
    (hdata : m0.sb.first_buffer.data.length = cap) (henv : ∀ i, env i = .mapped)
    (htot : (appended strings : Int) ≤ INT_MAX) (hfuel : appended strings + 2 ≤ fuel) :
    ∃ m1 m2 m3 a buf, sb_init cap m0 .valid = .ok m1 ∧
      sb_append_all cap env fuel m1 strings = .ok m2 ∧
      sb_to_string cap env fuel m2 .valid = .ok ((appended strings : Int), .heap a, m3) ∧
      m3.regions[a]? = some (.bytes buf) ∧
      buf.take (appended strings) = strings.flatten := by
  obtain ⟨m1, hinit, hw1, hs1, hsp1, _⟩ := init_chain m0 hdata hcap
  have hfs : ∀ s ∈ strings, s.length + 2 ≤ fuel := by
    intro s hs
    have : s.length ≤ appended strings := List.single_le_sum (by simp) _
      (List.mem_map_of_mem _ hs)
    omega
  obtain ⟨m2, ch2, hrun, hw2, hs2, hsp2, hc2, ht2⟩ :=
    sb_append_all_spec hcap henv fuel strings m1 _ hw1 hs1 hsp1 hfs
  have ht : total ch2 = appended strings := by rw [ht2]; simp [total]
  have hc : contents ch2 = strings.flatten := by rw [hc2]; simp [contents, used]
  obtain ⟨_, hcount⟩ := count_formula hw2 hs2 hsp2
  have hlen : ch2.length ≤ fuel := by
    rw [hcount, ht]
    have : (appended strings : Int).toNat / cap ≤ appended strings := by
      simp only [Int.toNat_ofNat]
      exact Nat.div_le_self _ _
    omega
  have hts := sb_to_string_spec env hw2.1 (by rw [ht]; exact htot) (henv _) fuel hlen
  rw [ht] at hts
  refine ⟨m1, m2, _, m2.regions.length, contents ch2 ++ List.replicate
    (to_size_t (wrap32 ((appended strings : Int) + 1)) - appended strings) 0,
    hinit, hrun, hts, by simp, ?_⟩
  rw [hc]
  have hl : (strings.flatten).length = appended strings := by
    have := contents_length hw2.1.2
    rw [hc, ht] at this
    exact_mod_cast this
  rw [List.take_left' hl]

/-- C1, the example of the specification with 4-byte buffers: "hello", " ",
"world" give "hello world" and the length 11. -/
theorem C1_to_string_concat_witness :
    (appended helloWorld = 11 ∧ helloWorld.flatten
        = [104, 101, 108, 108, 111, 32, 119, 111, 114, 108, 100]) ∧
    ∃ m1 m2 m3 a buf, sb_init 4 mem4 .valid = .ok m1 ∧
      sb_append_all 4 allOk 13 m1 helloWorld = .ok m2 ∧
      sb_to_string 4 allOk 13 m2 .valid = .ok ((appended helloWorld : Int), .heap a, m3) ∧
      m3.regions[a]? = some (.bytes buf) ∧
      buf.take (appended helloWorld) = helloWorld.flatten :=
  ⟨by decide, C1_to_string_concat 4 allOk 13 mem4 helloWorld (by decide) (by decide)
    (fun _ => rfl) (by decide) (by decide)⟩

/-- C4: after `sb_init` and appends of total length `T` with a succeeding
allocator (in particular when `T` exceeds the capacity), `number_of_buffers`
and the number of linked buffers are `ceil(T / cap)` when `T` is not a
multiple of `cap`, and one more than that when it is. -/
theorem C4_buffer_count (cap : Nat) (env : Nat → Outcome) (fuel : Nat) (m0 : Mem)
    (strings : List (List Nat)) (hcap : 0 < cap)
    (hdata : m0.sb.first_buffer.data.length = cap) (henv : ∀ i, env i = .mapped)
    (hfuel : ∀ s ∈ strings, s.length + 2 ≤ fuel) :
    ∃ m1 m2 ch, sb_init cap m0 .valid = .ok m1 ∧
      sb_append_all cap env fuel m1 strings = .ok m2 ∧ WF cap m2 ch ∧
      m2.sb.number_of_buffers = ch.length ∧
      (appended strings % cap ≠ 0 → ch.length = (appended strings + cap - 1) / cap) ∧
      (appended strings % cap = 0 → ch.length = (appended strings + cap - 1) / cap + 1) := by
  obtain ⟨m1, hinit, hw1, hs1, hsp1, _⟩ := init_chain m0 hdata hcap
  obtain ⟨m2, ch2, hrun, hw2, hs2, hsp2, _, ht2⟩ :=
    sb_append_all_spec hcap henv fuel strings m1 _ hw1 hs1 hsp1 hfuel
  have ht : total ch2 = appended strings := by rw [ht2]; simp [total]
  obtain ⟨_, hcount⟩ := count_formula hw2 hs2 hsp2
  rw [ht, Int.toNat_ofNat] at hcount
  obtain ⟨hc1, hc2⟩ := ceil_div_formula cap (appended strings) hcap
  refine ⟨m1, m2, ch2, hinit, hrun, hw2, hw2.2.2, ?_, ?_⟩
  · intro hmod
    rw [hcount, hc1 hmod]
  · intro hmod
    rw [hcount, hc2 hmod]

/-- C4 with 4-byte buffers: the 11 bytes of "hello", " ", "world" occupy 3
buffers. -/
theorem C4_buffer_count_witness :
    (4 < appended helloWorld ∧ appended helloWorld % 4 ≠ 0 ∧
      (appended helloWorld + 4 - 1) / 4 = 3) ∧
    ∃ m1 m2 ch, sb_init 4 mem4 .valid = .ok m1 ∧
      sb_append_all 4 allOk 13 m1 helloWorld = .ok m2 ∧ WF 4 m2 ch ∧
      m2.sb.number_of_buffers = ch.length ∧
      (appended helloWorld % 4 ≠ 0 → ch.length = (appended helloWorld + 4 - 1) / 4) ∧
      (appended helloWorld % 4 = 0 → ch.length = (appended helloWorld + 4 - 1) / 4 + 1) :=
  ⟨by decide, C4_buffer_count 4 allOk 13 mem4 helloWorld (by decide) (by decide)
    (fun _ => rfl) (by decide)⟩

/-- The slab shape where the allocator succeeds or reports failure as NULL:
`sb_init` establishes the slab shape (every buffer of the chain has
`0 ≤ length ≤ cap`, every buffer but the last is full); on a well-formed
accumulator of that shape every call of `sb_append_len` with `0 ≤ length`
that returns leaves such an accumulator; and the call does return when no
allocation answers `MAP_FAILED`. -/
theorem shape_preserved (cap : Nat) (env : Nat → Outcome) (m0 m : Mem)
    (ch : List (Ptr × Sb_Buffer)) (string : List Nat) (length : Int) (fuel : Nat)
    (hcap : 0 < cap) (hd0 : m0.sb.first_buffer.data.length = cap) (hw : WF cap m ch)
    (hs : Shape cap ch) (h0 : 0 ≤ length) (hl : length ≤ string.length)
    (hf : length + 2 ≤ fuel) :
    (∃ m1 ch1, sb_init cap m0 .valid = .ok m1 ∧ WF cap m1 ch1 ∧ Shape cap ch1) ∧
    (∀ fuel2 m2, sb_append_len cap env fuel2 m .valid string length = .ok m2 →
      ∃ ch2, WF cap m2 ch2 ∧ Shape cap ch2) ∧
    ((∀ i, env i ≠ .mapFailed) →
      ∃ m2 ch2, sb_append_len cap env fuel m .valid string length = .ok m2 ∧
        WF cap m2 ch2 ∧ Shape cap ch2) := by
  obtain ⟨init, p, b, hch⟩ := WF_nonempty hw
  rw [hch] at hw hs
  refine ⟨?_, ?_, ?_⟩
  · obtain ⟨m1, h1, h2, h3, _⟩ := init_chain m0 hd0 hcap
    exact ⟨m1, _, h1, h2, h3⟩
  · intro fuel2 m2 hrun
    obtain ⟨ch2, hw2, hs2, _⟩ := sb_append_len_post hcap hw h0 hl hrun
    exact ⟨ch2, hw2, hs2 hs⟩
  · intro hnf
    obtain ⟨m2, ch2, hrun, hw2, hs2, _⟩ :=
      sb_append_len_spec env hcap hw string length h0 hl fuel hf hnf
    exact ⟨m2, ch2, hrun, hw2, hs2 hs⟩

/-- An instance with 4-byte buffers and an allocator that succeeds once and
then fails with NULL: appending 9 bytes to a fresh accumulator. -/
theorem shape_preserved_example :
    (∃ m1 ch1, sb_init 4 mem4 .valid = .ok m1 ∧ WF 4 m1 ch1 ∧ Shape 4 ch1) ∧
    (∀ fuel2 m2, sb_append_len 4 (fun n => if n < 1 then .mapped else .null) fuel2
        ⟨⟨⟨[7, 7, 7, 7], 0, .null⟩, .first, 1⟩, [], 0, []⟩ .valid
        [1, 2, 3, 4, 5, 6, 7, 8, 9] 9 = .ok m2 →
      ∃ ch2, WF 4 m2 ch2 ∧ Shape 4 ch2) ∧
    ((∀ i, (fun n => if n < 1 then Outcome.mapped else Outcome.null) i ≠ .mapFailed) →
      ∃ m2 ch2, sb_append_len 4 (fun n => if n < 1 then .mapped else .null) 11
          ⟨⟨⟨[7, 7, 7, 7], 0, .null⟩, .first, 1⟩, [], 0, []⟩ .valid
          [1, 2, 3, 4, 5, 6, 7, 8, 9] 9 = .ok m2 ∧
        WF 4 m2 ch2 ∧ Shape 4 ch2) :=
  shape_preserved 4 (fun n => if n < 1 then .mapped else .null) mem4
    ⟨⟨⟨[7, 7, 7, 7], 0, .null⟩, .first, 1⟩, [], 0, []⟩
    [(.first, ⟨[7, 7, 7, 7], 0, .null⟩)] [1, 2, 3, 4, 5, 6, 7, 8, 9] 9 11
    (by decide) (by decide) (by decide) (by decide) (by decide) (by decide) (by decide)

/-- Every reachable state is a well-formed accumulator of the slab shape, and
its chain is empty exactly when only zero-length appends were made. -/
theorem Reached_inv {cap : Nat} {env : Nat → Outcome} (hcap : 0 < cap) {m : Mem} {T : Int}
    (h : Reached cap env m T) :
    0 ≤ T ∧ ∃ ch, WF cap m ch ∧ Shape cap ch ∧ (T = 0 ↔ total ch = 0) := by
  induction h with
  | init m0 m hd hrun =>
    obtain ⟨m1, h1, h2, h3, _⟩ := init_chain m0 hd hcap
    rw [h1] at hrun
    have e : m1 = m := Except.ok.inj hrun
    rw [← e]
    exact ⟨le_refl _, _, h2, h3, by simp [total]⟩
  | append m m2 T fuel string length _ h0 hl hrun ih =>
    obtain ⟨hT, ch, hw, hs, hiff⟩ := ih
    obtain ⟨init, p, b, hch⟩ := WF_nonempty hw
    rw [hch] at hw hs hiff
    obtain ⟨ch2, hw2, hs2, _, k, n, init2, p2, b2, _, hk0, hkl, _, htot, _, _, hcases⟩ :=
      sb_append_len_post hcap hw h0 hl hrun
    obtain ⟨_, _, _, _, _, _, _, hbi, hb0, _, _⟩ := WF_split hw
    have hpos : ∀ x ∈ init ++ [(p, b)], 0 ≤ x.2.length := fun x hx => (hw.1.2 x hx).1
    have ht0 := total_nonneg hpos
    have hbt : b.length ≤ total (init ++ [(p, b)]) := le_total hpos (p, b) (by simp)
    refine ⟨by omega, ch2, hw2, hs2 hs, ?_⟩
    rw [htot]
    constructor
    · intro hz
      have hT0 : T = 0 := by omega
      have := hiff.1 hT0
      omega
    · intro hz
      have ht : total (init ++ [(p, b)]) = 0 := by omega
      have hT0 : T = 0 := hiff.2 ht
      have hk : k = 0 := by omega
      rcases hcases with ⟨_, c2, _, _⟩ | ⟨_, _, c3, _⟩
      · omega
      · have hn : (0 : Int) ≤ (n : Int) * cap := by positivity
        have hcap2 : (0 : Int) < cap := by exact_mod_cast hcap
        omega

/-- In a well-formed accumulator of the slab shape the first buffer is empty
exactly when the whole chain is. -/
theorem first_empty_iff {cap : Nat} (hcap : 0 < cap) {m : Mem} {ch : List (Ptr × Sb_Buffer)}
    (hw : WF cap m ch) (hs : Shape cap ch) : m.sb.first_buffer.length = 0 ↔ total ch = 0 := by
  obtain ⟨b, rest, hch, hfirst⟩ := Chain_head hw.1
  have hpos : ∀ x ∈ ch, 0 ≤ x.2.length := fun x hx => (hw.1.2 x hx).1
  have ht0 := total_nonneg hpos
  have hbt : b.length ≤ total ch := le_total hpos (.first, b) (by rw [hch]; simp)
  have hb0 : 0 ≤ b.length := hpos (.first, b) (by rw [hch]; simp)
  rw [hfirst]
  constructor
  · intro hz
    cases rest with
    | nil => rw [hch]; simp [total, hz]
    | cons y tl =>
      have hmem : (Ptr.first, b) ∈ ch.dropLast := by rw [hch]; simp
      have := hs _ hmem
      simp only at this
      omega
  · intro hz; omega

/-- C3: in a state reached from `sb_init` by `sb_append_len` calls with
lengths `≥ 0` whose sum is `T`, `sb_is_empty` returns true iff `T = 0` (and
false iff `T ≠ 0`), which is the case iff `sb_to_string` returns the length
0; no buffer of the chain is non-empty while the first buffer is empty. -/
theorem C3_is_empty_iff (cap : Nat) (env : Nat → Outcome) (m : Mem) (T : Int) (hcap : 0 < cap)
    (h : Reached cap env m T) :
    (sb_is_empty m .valid = .ok 1 ↔ T = 0) ∧ (sb_is_empty m .valid = .ok 0 ↔ T ≠ 0) ∧
    ∃ ch, WF cap m ch ∧
      (∀ fuel, ch.length ≤ fuel → env m.calls = .mapped → total ch ≤ INT_MAX →
        ∃ n p m3, sb_to_string cap env fuel m .valid = .ok (n, p, m3) ∧
          (n = 0 ↔ sb_is_empty m .valid = .ok 1)) ∧
      ¬ (m.sb.first_buffer.length = 0 ∧ ∃ x ∈ ch, 0 < x.2.length) := by
  obtain ⟨_, ch, hw, hs, hiff⟩ := Reached_inv hcap h
  have hfe := first_empty_iff hcap hw hs
  have h1 : sb_is_empty m .valid = .ok 1 ↔ T = 0 := by
    rw [hiff, ← hfe]
    by_cases hz : m.sb.first_buffer.length = 0 <;> simp [sb_is_empty, hz]
  have h2 : sb_is_empty m .valid = .ok 0 ↔ T ≠ 0 := by
    rw [ne_eq, hiff, ← hfe]
    by_cases hz : m.sb.first_buffer.length = 0 <;> simp [sb_is_empty, hz]
  refine ⟨h1, h2, ch, hw, ?_, ?_⟩
  · intro fuel hfuel he htot
    refine ⟨_, _, _, sb_to_string_spec env hw.1 htot he fuel hfuel, ?_⟩
    rw [h1, hiff]
  · rintro ⟨hz, x, hx, hpos⟩
    have ht := hfe.1 hz
    have := le_total (fun y hy => (hw.1.2 y hy).1) x hx
    omega

/-- C3 with 4-byte buffers: after `sb_init`, a zero-length append and an
append of "hello" the accumulator is not empty. -/
theorem C3_is_empty_iff_witness :
    (sb_is_empty ⟨⟨⟨[104, 101, 108, 108], 4, .heap 0⟩, .heap 0, 2⟩,
        [.slab ⟨[111, 0, 0, 0], 1, .null⟩], 1,
        [.acquire 16 (.heap 0)]⟩ .valid = .ok 1 ↔ (0 + 0 + 5 : Int) = 0) ∧
    (sb_is_empty ⟨⟨⟨[104, 101, 108, 108], 4, .heap 0⟩, .heap 0, 2⟩,
        [.slab ⟨[111, 0, 0, 0], 1, .null⟩], 1,
        [.acquire 16 (.heap 0)]⟩ .valid = .ok 0 ↔ (0 + 0 + 5 : Int) ≠ 0) ∧
    ∃ ch, WF 4 ⟨⟨⟨[104, 101, 108, 108], 4, .heap 0⟩, .heap 0, 2⟩,
        [.slab ⟨[111, 0, 0, 0], 1, .null⟩], 1, [.acquire 16 (.heap 0)]⟩ ch ∧
      (∀ fuel, ch.length ≤ fuel → allOk 1 = .mapped → total ch ≤ INT_MAX →
        ∃ n p m3, sb_to_string 4 allOk fuel ⟨⟨⟨[104, 101, 108, 108], 4, .heap 0⟩, .heap 0, 2⟩,
            [.slab ⟨[111, 0, 0, 0], 1, .null⟩], 1, [.acquire 16 (.heap 0)]⟩ .valid
            = .ok (n, p, m3) ∧
          (n = 0 ↔ sb_is_empty ⟨⟨⟨[104, 101, 108, 108], 4, .heap 0⟩, .heap 0, 2⟩,
            [.slab ⟨[111, 0, 0, 0], 1, .null⟩], 1, [.acquire 16 (.heap 0)]⟩ .valid = .ok 1)) ∧
      ¬ ((⟨[104, 101, 108, 108], 4, .heap 0⟩ : Sb_Buffer).length = 0 ∧ ∃ x ∈ ch, 0 < x.2.length) :=
  C3_is_empty_iff 4 allOk _ _ (by decide)
    (Reached.append _ _ _ 7 [104, 101, 108, 108, 111] 5
      (Reached.append _ _ _ 2 [] 0
        (Reached.init mem4 ⟨⟨⟨[7, 7, 7, 7], 0, .null⟩, .first, 1⟩, [], 0, []⟩
          (by decide) (by decide))
        (by decide) (by decide)
        (show sb_append_len 4 allOk 2 ⟨⟨⟨[7, 7, 7, 7], 0, .null⟩, .first, 1⟩, [], 0, []⟩
          .valid [] 0 = .ok ⟨⟨⟨[7, 7, 7, 7], 0, .null⟩, .first, 1⟩, [], 0, []⟩ by decide))
      (by decide) (by decide) (by decide))

/-- With an allocator that reports failure as NULL (`VirtualAlloc`) the
failure is handled: on a well-formed accumulator, when the first `j`
allocations of a call of `sb_append_len` succeed, allocation `j` returns
NULL, and the input is long enough for the loop to get there, the call
returns right after the failed allocation: the chain holds the old bytes followed by the first
`(cap - last.length) + j * cap` bytes of the input, `last_buffer` points to a
full buffer of the chain whose `next` is NULL, `number_of_buffers` is the
number of linked buffers, and `sb_to_string` yields the old bytes followed by
that part of the input. -/
theorem append_failure_null (cap : Nat) (env : Nat → Outcome) (m : Mem)
    (init : List (Ptr × Sb_Buffer)) (p : Ptr) (b : Sb_Buffer) (string : List Nat)
    (length : Int) (j fuel : Nat) (hcap : 0 < cap) (hw : WF cap m (init ++ [(p, b)]))
    (h0 : 0 ≤ length) (hl : length ≤ string.length)
    (hok : ∀ i, i < j → env (m.calls + i) = .mapped) (hfail : env (m.calls + j) = .null)
    (hreach : cap - b.length + j * cap ≤ length) (hf : length + 2 ≤ fuel) :
    ∃ m2 ch2 bl, sb_append_len cap env fuel m .valid string length = .ok m2 ∧
      WF cap m2 ch2 ∧ m2.calls = m.calls + j + 1 ∧
      contents ch2 = contents (init ++ [(p, b)])
        ++ string.take (cap - b.length + j * cap).toNat ∧
      (∃ extra, ch2.map Prod.fst = (init ++ [(p, b)]).map Prod.fst ++ extra) ∧
      load cap m2 m2.sb.last_buffer = .ok bl ∧ bl.next = .null ∧ bl.length = cap ∧
      m2.sb.number_of_buffers = ch2.length ∧ ch2.length = init.length + 1 + j ∧
      (∀ fuel2, ch2.length ≤ fuel2 → env m2.calls = .mapped → total ch2 ≤ INT_MAX →
        ∃ a m3 buf, sb_to_string cap env fuel2 m2 .valid = .ok (total ch2, .heap a, m3) ∧
          m3.regions[a]? = some (.bytes buf) ∧
          buf.take (total ch2).toNat = contents (init ++ [(p, b)])
            ++ string.take (cap - b.length + j * cap).toNat) := by
  have hcap2 : (0 : Int) < cap := by exact_mod_cast hcap
  rcases sb_append_len_cases env hcap hw string length h0 hl fuel hf with
    ⟨m2, ch2, hrun, hw2, _, hextra, k, n, init2, p2, b2, hch2, _, _, hcont, _, hlen,
      henv, hcases⟩ | ⟨_, n, henv, hmf, _⟩
  swap
  · -- a MAP_FAILED before allocation j contradicts the hypotheses on the allocator
    exfalso
    rcases Nat.lt_trichotomy n j with hlt | heq | hgt
    · have := hok n hlt
      rw [hmf] at this
      cases this
    · rw [heq, hfail] at hmf
      cases hmf
    · have := henv j hgt
      rw [hfail] at this
      cases this
  rcases hcases with ⟨_, _, c3, c4⟩ | ⟨c1, c2, c3, c4⟩
  · -- every allocation made succeeded: the loop cannot have passed allocation j
    exfalso
    have hnj : n ≤ j := by
      by_contra hlt
      have := henv j (by omega)
      rw [hfail] at this
      cases this
    have hmul : (n : Int) * cap ≤ j * cap :=
      mul_le_mul_of_nonneg_right (by exact_mod_cast hnj) (by omega)
    omega
  · have hnj : n = j := by
      rcases Nat.lt_trichotomy n j with hlt | heq | hgt
      · have := hok n hlt
        rw [c2] at this
        cases this
      · exact heq
      · have := henv j hgt
        rw [hfail] at this
        cases this
    rw [hnj] at c1 c3 hlen
    rw [c3] at hcont
    rw [hch2] at hw2
    obtain ⟨_, hl2, hn2, hlast2, _⟩ := WF_split hw2
    rw [← hch2] at hw2
    refine ⟨m2, ch2, b2, hrun, hw2, c1, hcont, hextra, by rw [hlast2]; exact hl2, hn2, c4,
      hw2.2.2, by rw [hlen]; simp, ?_⟩
    intro fuel2 hfuel2 he2 htot
    have hts := sb_to_string_spec env hw2.1 htot he2 fuel2 hfuel2
    refine ⟨m2.regions.length, _, contents ch2 ++ List.replicate
      (to_size_t (wrap32 (total ch2 + 1)) - (total ch2).toNat) 0, hts, by simp, ?_⟩
    have hl3 : (contents ch2).length = (total ch2).toNat := by
      have := contents_length hw2.1.2
      omega
    rw [List.take_left' hl3, hcont]

/-- An instance with 4-byte buffers: appending 9 bytes to a fresh accumulator
when the first allocation succeeds and the second returns NULL stores 8 of
them. -/
theorem append_failure_null_example :
    ∃ m2 ch2 bl, sb_append_len 4 (fun n => if n < 1 then .mapped else .null) 11
        ⟨⟨⟨[7, 7, 7, 7], 0, .null⟩, .first, 1⟩, [], 0, []⟩ .valid
        [1, 2, 3, 4, 5, 6, 7, 8, 9] 9 = .ok m2 ∧
      WF 4 m2 ch2 ∧ m2.calls = 0 + 1 + 1 ∧
      contents ch2 = contents ([] ++ [(Ptr.first, (⟨[7, 7, 7, 7], 0, .null⟩ : Sb_Buffer))])
        ++ [1, 2, 3, 4, 5, 6, 7, 8, 9].take ((4 : Nat) - (0 : Int) + (1 : Nat) * (4 : Nat)).toNat ∧
      (∃ extra, ch2.map Prod.fst
        = ([] ++ [(Ptr.first, (⟨[7, 7, 7, 7], 0, .null⟩ : Sb_Buffer))]).map Prod.fst ++ extra) ∧
      load 4 m2 m2.sb.last_buffer = .ok bl ∧ bl.next = .null ∧ bl.length = (4 : Nat) ∧
      m2.sb.number_of_buffers = ch2.length ∧ ch2.length = ([] : List (Ptr × Sb_Buffer)).length + 1 + 1 ∧
      (∀ fuel2, ch2.length ≤ fuel2 →
        (fun n => if n < 1 then Outcome.mapped else Outcome.null) m2.calls = .mapped →
        total ch2 ≤ INT_MAX →
        ∃ a m3 buf, sb_to_string 4 (fun n => if n < 1 then .mapped else .null) fuel2 m2 .valid
            = .ok (total ch2, .heap a, m3) ∧
          m3.regions[a]? = some (.bytes buf) ∧
          buf.take (total ch2).toNat
            = contents ([] ++ [(Ptr.first, (⟨[7, 7, 7, 7], 0, .null⟩ : Sb_Buffer))])
              ++ [1, 2, 3, 4, 5, 6, 7, 8, 9].take
                ((4 : Nat) - (0 : Int) + (1 : Nat) * (4 : Nat)).toNat) :=
  append_failure_null 4 (fun n => if n < 1 then .mapped else .null)
    ⟨⟨⟨[7, 7, 7, 7], 0, .null⟩, .first, 1⟩, [], 0, []⟩ [] .first ⟨[7, 7, 7, 7], 0, .null⟩
    [1, 2, 3, 4, 5, 6, 7, 8, 9] 9 1 11 (by decide) (by decide) (by decide) (by decide)
    (by decide) (by decide) (by decide) (by decide)

/-- C2, amended: for a well-formed chain whose `length` fields sum to less
than `INT_MAX`, when the allocation succeeds, `sb_to_string` returns that
sum `total`, requests `total + 1` bytes once, and the buffer it hands out is
the used regions of the buffers in chain order followed by one zero byte;
the accumulator is left as it was. -/
theorem C2_to_string (cap : Nat) (env : Nat → Outcome) (m : Mem) (ch : List (Ptr × Sb_Buffer))
    (fuel : Nat) (hch : Chain cap m ch) (htot : total ch < INT_MAX)
    (he : env m.calls = .mapped) (hfuel : ch.length ≤ fuel) :
    ∃ m3 buf, sb_to_string cap env fuel m .valid
        = .ok (total ch, .heap m.regions.length, m3) ∧
      m3.log = m.log ++ [.acquire ((total ch).toNat + 1) (.heap m.regions.length)] ∧
      m3.regions[m.regions.length]? = some (.bytes buf) ∧
      buf = contents ch ++ [0] ∧ buf.length = (total ch).toNat + 1 ∧
      buf.take (total ch).toNat = contents ch ∧ buf[(total ch).toNat]? = some 0 ∧
      m3.sb = m.sb ∧ m3.regions.take m.regions.length = m.regions := by
  have hts := sb_to_string_spec env hch (le_of_lt htot) he fuel hfuel
  have h0 : 0 ≤ total ch := total_nonneg (fun x hx => (hch.2 x hx).1)
  have hcl : (contents ch).length = (total ch).toNat := by
    have := contents_length hch.2
    omega
  have hsize : to_size_t (wrap32 (total ch + 1)) = (total ch).toNat + 1 := by
    unfold INT_MAX at htot
    unfold to_size_t wrap32
    omega
  rw [hsize] at hts
  have hrep : List.replicate ((total ch).toNat + 1 - (total ch).toNat) 0 = [0] := by
    have : (total ch).toNat + 1 - (total ch).toNat = 1 := by omega
    rw [this]; rfl
  rw [hrep] at hts
  refine ⟨_, contents ch ++ [0], hts, rfl, by simp, rfl, by simp [hcl], ?_, ?_, rfl, by simp⟩
  · rw [List.take_left' hcl]
  · rw [← hcl]; simp

/-- C2, amended, with 4-byte buffers: a chain of two buffers holding
"hell" and "o". -/
theorem C2_to_string_witness :
    ∃ m3 buf, sb_to_string 4 allOk 2
        ⟨⟨⟨[104, 101, 108, 108], 4, .heap 0⟩, .heap 0, 2⟩,
          [.slab ⟨[111, 0, 0, 0], 1, .null⟩], 1, [.acquire 16 (.heap 0)]⟩ .valid
        = .ok (total [(.first, ⟨[104, 101, 108, 108], 4, .heap 0⟩),
            (.heap 0, ⟨[111, 0, 0, 0], 1, .null⟩)], .heap 1, m3) ∧
      m3.log = [.acquire 16 (.heap 0)] ++ [.acquire ((total
          [(.first, ⟨[104, 101, 108, 108], 4, .heap 0⟩),
            (.heap 0, ⟨[111, 0, 0, 0], 1, .null⟩)]).toNat + 1) (.heap 1)] ∧
      m3.regions[1]? = some (.bytes buf) ∧
      buf = contents [(.first, ⟨[104, 101, 108, 108], 4, .heap 0⟩),
            (.heap 0, ⟨[111, 0, 0, 0], 1, .null⟩)] ++ [0] ∧
      buf.length = (total [(.first, ⟨[104, 101, 108, 108], 4, .heap 0⟩),
            (.heap 0, ⟨[111, 0, 0, 0], 1, .null⟩)]).toNat + 1 ∧
      buf.take (total [(.first, ⟨[104, 101, 108, 108], 4, .heap 0⟩),
            (.heap 0, ⟨[111, 0, 0, 0], 1, .null⟩)]).toNat
        = contents [(.first, ⟨[104, 101, 108, 108], 4, .heap 0⟩),
            (.heap 0, ⟨[111, 0, 0, 0], 1, .null⟩)] ∧
      buf[(total [(.first, ⟨[104, 101, 108, 108], 4, .heap 0⟩),
            (.heap 0, ⟨[111, 0, 0, 0], 1, .null⟩)]).toNat]? = some 0 ∧
      m3.sb = ⟨⟨[104, 101, 108, 108], 4, .heap 0⟩, .heap 0, 2⟩ ∧
      m3.regions.take 1 = [.slab ⟨[111, 0, 0, 0], 1, .null⟩] :=
  C2_to_string 4 allOk
    ⟨⟨⟨[104, 101, 108, 108], 4, .heap 0⟩, .heap 0, 2⟩,
      [.slab ⟨[111, 0, 0, 0], 1, .null⟩], 1, [.acquire 16 (.heap 0)]⟩
    [(.first, ⟨[104, 101, 108, 108], 4, .heap 0⟩), (.heap 0, ⟨[111, 0, 0, 0], 1, .null⟩)] 2
    (by decide) (by decide) (by decide) (by decide)

/-- The accumulator `bigMem d` is well formed when `d` has 2^30 bytes. -/
theorem bigChain_wf (d : List Nat) (hd : d.length = 1073741824) :
    WF 1073741824 (bigMem d) (bigChain d) := by
  have hseg : Seg 1073741824 (bigMem d) .first (bigChain d) .null := by
    unfold bigChain
    exact ⟨rfl, rfl, rfl, rfl, rfl, rfl, rfl, rfl, rfl⟩
  refine ⟨⟨hseg, ?_⟩, rfl, rfl⟩
  intro x hx
  simp only [bigChain, List.mem_cons, List.mem_singleton, List.not_mem_nil, or_false] at hx
  have h0 : (0 : Int) ≤ 1073741824 := by decide
  have h1 : (1073741824 : Int) ≤ (1073741824 : Nat) := by decide
  rcases hx with e | e | e | e <;> rw [e] <;> exact ⟨h0, h1, hd⟩

theorem big_total (d : List Nat) : total (bigChain d) = 4294967296 := by
  simp [total, bigChain]

/-- Whenever the first loop of `sb_to_string` returns on `bigMem d`, it
returns 0: the sum 2^32 does not fit an `int`. -/
theorem big_sum (cap : Nat) (d : List Nat) (fuel : Nat) (t : Int)
    (h : sum_loop cap fuel (bigMem d) .first 1073741824 = .ok t) : t = 0 := by
  match fuel with
  | 0 => simp [sum_loop] at h
  | 1 => simp [sum_loop, load, bigMem, bind_ok] at h
  | 2 => simp [sum_loop, load, bigMem, bind_ok] at h
  | 3 => simp [sum_loop, load, bigMem, bind_ok] at h
  | k + 4 =>
    simp [sum_loop, load, bigMem, bind_ok, wrap32] at h
    exact h.symm

theorem big_sum_ok (cap : Nat) (d : List Nat) :
    sum_loop cap 5 (bigMem d) .first 1073741824 = .ok 0 := by
  simp [sum_loop, load, bigMem, bind_ok, wrap32]

theorem big_memcpy (d : List Nat) :
    memcpy [0] 0 d ((to_size_t 1073741824 : Nat) : Int) = .error .outOfBounds := by
  have e : to_size_t 1073741824 = 1073741824 := by decide
  rw [e]
  unfold memcpy
  rw [if_neg (by omega), if_pos (by right; simp)]

/-- On `bigMem d` the function `sb_to_string` requests 1 byte and then
copies the first buffer into it. -/
theorem big_run (cap : Nat) (d : List Nat) :
    sb_to_string cap allOk 5 (bigMem d) .valid = .error .outOfBounds := by
  have h1 : (bigMem d).sb.first_buffer.length = 1073741824 := rfl
  have h2 : to_size_t (wrap32 (0 + 1)) = 1 := by decide
  obtain ⟨m1, hm1⟩ : ∃ m1 : Mem, m1 = ⟨(bigMem d).sb, (bigMem d).regions ++ [.fresh 1], 4,
      (bigMem d).log ++ [.acquire 1 (.heap 3)]⟩ := ⟨_, rfl⟩
  have h3 : sb__malloc allOk (bigMem d) 1 = (.heap 3, m1) := by rw [hm1]; rfl
  simp only [sb_to_string, h1, big_sum_ok, bind_ok, h2, h3]
  have h4 : write_bytes m1 (.heap 3) 0 [0] 1 = .ok (putBytes m1 3 [0]) := by rw [hm1]; rfl
  rw [h4, bind_ok, copy_loop]
  have h5 : load cap (putBytes m1 3 [0]) .first = .ok ⟨d, 1073741824, .heap 0⟩ := by
    rw [hm1]; rfl
  rw [h5, bind_ok]
  have h6 : load_bytes (putBytes m1 3 [0]) (.heap 3) = .ok [0] := by rw [hm1]; rfl
  simp only [write_bytes, h6, bind_ok, big_memcpy d, bind_error]

/-- C2 as stated fails: a well-formed accumulator built with
`SB_BUFFER_CAPACITY` 2^30 holds four full buffers, 2^32 bytes in all; the
allocation succeeds, but `sb_to_string` sums the lengths to 0 in its `int`,
requests 1 byte, and leaves that buffer when copying the first slab; for no
fuel does it return the sum of the lengths. -/
theorem C2_counterexample :
    WF 1073741824 (bigMem bigData) (bigChain bigData) ∧
    allOk (bigMem bigData).calls = .mapped ∧
    total (bigChain bigData) = 4294967296 ∧
    sb_to_string 1073741824 allOk 5 (bigMem bigData) .valid = .error .outOfBounds ∧
    ¬ ∃ fuel p m3, sb_to_string 1073741824 allOk fuel (bigMem bigData) .valid
        = .ok (total (bigChain bigData), p, m3) := by
  refine ⟨bigChain_wf bigData (List.length_replicate _ _), rfl, big_total _, big_run _ _, ?_⟩
  rintro ⟨fuel, p, m3, h⟩
  simp only [sb_to_string] at h
  obtain ⟨t, ht, h⟩ := bind_eq_ok.1 h
  obtain ⟨m4, _, h⟩ := bind_eq_ok.1 h
  obtain ⟨m5, _, h⟩ := bind_eq_ok.1 h
  have ht0 := big_sum _ _ _ _ ht
  have e : t = total (bigChain bigData) := congrArg Prod.fst (Except.ok.inj h)
  rw [big_total, ht0] at e
  omega

/-! ## `sb_free` -/

theorem load_free {cap : Nat} (m : Mem) (a : Nat) (size : Nat) {q : Ptr} (h : q ≠ .heap a) :
    load cap (sb__free m (.heap a) size) q = load cap m q := by
  cases q with
  | null => rfl
  | mapFailed => rfl
  | first => rfl
  | heap c =>
    have hne : a ≠ c := fun e => h (by rw [e])
    simp [load, sb__free, List.getElem?_set, hne]

theorem load_count {cap : Nat} (m : Mem) (n : Int) (q : Ptr) :
    load cap { m with sb := { m.sb with number_of_buffers := n } } q = load cap m q := by
  cases q <;> rfl

theorem load_last {cap : Nat} (m : Mem) (p : Ptr) (q : Ptr) :
    load cap { m with sb := { m.sb with last_buffer := p } } q = load cap m q := by
  cases q <;> rfl

theorem Seg_next_mem {cap : Nat} {m : Mem} :
    ∀ (pre : List (Ptr × Sb_Buffer)) (s r : Ptr), Seg cap m s pre r →
      ∀ x ∈ pre, x.2.next ∈ pre.map Prod.fst ∨ x.2.next = r
  | [], _, _, _, x, hx => by cases hx
  | y :: rest, s, r, h, x, hx => by
    obtain ⟨_, _, hrest⟩ := h
    rcases List.mem_cons.1 hx with e | hmem
    · rw [e]
      cases rest with
      | nil => right; exact hrest
      | cons z tl =>
        left
        have : y.2.next = z.1 := hrest.1
        rw [this]; simp
    · rcases Seg_next_mem rest _ r hrest x hmem with h1 | h1
      · left; rw [List.map_cons]; exact List.mem_cons_of_mem _ h1
      · right; exact h1

theorem free_seek_spec {cap : Nat} {m : Mem} :
    ∀ (pre : List (Ptr × Sb_Buffer)) (s q : Ptr) (bq : Sb_Buffer) (fuel : Nat),
      Seg cap m s pre q → load cap m q = .ok bq → bq.next = m.sb.last_buffer →
      (∀ x ∈ pre, x.2.next ≠ m.sb.last_buffer) → pre.length < fuel →
      free_seek cap fuel m s = .ok q
  | [], s, q, bq, fuel, hseg, hl, hn, _, hfuel => by
    have e : s = q := hseg
    cases fuel with
    | zero => simp at hfuel
    | succ fuel =>
      rw [free_seek, e, hl, bind_ok, if_neg (by simp [hn])]
      rfl
  | x :: rest, s, q, bq, fuel, hseg, hl, hn, hne, hfuel => by
    obtain ⟨e, hlx, hrest⟩ := hseg
    cases fuel with
    | zero => simp at hfuel
    | succ fuel =>
      rw [free_seek, e, hlx, bind_ok, if_pos (hne x (List.mem_cons_self _ _))]
      exact free_seek_spec rest _ q bq fuel hrest hl hn
        (fun y hy => hne y (List.mem_cons_of_mem _ hy)) (by simp at hfuel; omega)

theorem releases_snoc (cap : Nat) (init : List (Ptr × Sb_Buffer)) (x y : Ptr × Sb_Buffer)
    (z : Ptr × Sb_Buffer) (hz : z.1 = x.1) :
    releases cap (init ++ [x] ++ [y])
      = Event.release y.1 (sizeof_Sb_Buffer cap) :: releases cap (init ++ [z]) := by
  unfold releases
  have h1 : (init ++ [x] ++ [y]).tail = (init ++ [x]).tail ++ [y] :=
    List.tail_append_of_ne_nil (by simp)
  rw [h1]
  have h2 : (init ++ [x]).tail.map Prod.fst = (init ++ [z]).tail.map Prod.fst := by
    cases init with
    | nil => rfl
    | cons w tl => simp [hz]
  simp [h2]

theorem free_loop_spec {cap : Nat} :
    ∀ (k fuel : Nat) (m : Mem) (init : List (Ptr × Sb_Buffer)) (p : Ptr) (b : Sb_Buffer),
      init.length = k → k < fuel → WF cap m (init ++ [(p, b)]) →
      ∃ m2, free_loop cap fuel m = .ok m2 ∧
        m2.log = m.log ++ releases cap (init ++ [(p, b)]) ∧
        m2.sb.last_buffer = .first ∧ m2.sb.number_of_buffers = 0 ∧
        m2.sb.first_buffer = { m.sb.first_buffer with next := .null } ∧
        m2.calls = m.calls := by
  intro k
  induction k with
  | zero =>
    intro fuel m init p b hk hfuel hw
    have hinit : init = [] := List.length_eq_zero.1 hk
    rw [hinit] at hw ⊢
    obtain ⟨_, hl, hnull, hlast, _, _, hcount, _⟩ := WF_split hw
    obtain ⟨b0, rest, hch, hfirst⟩ := Chain_head hw.1
    simp only [List.nil_append, List.cons.injEq, Prod.mk.injEq] at hch
    obtain ⟨⟨hp, hb⟩, _⟩ := hch
    cases fuel with
    | zero => omega
    | succ fuel =>
      refine ⟨{ m with sb := { m.sb with number_of_buffers := m.sb.number_of_buffers - 1 } },
        ?_, by simp [releases], by simp [hlast, hp], by simp [hcount], ?_, rfl⟩
      · rw [free_loop]
        simp only
        rw [if_neg (by rw [hcount]; simp)]
        rfl
      · show m.sb.first_buffer = { m.sb.first_buffer with next := .null }
        rw [hfirst, ← hb]
        cases b
        simp only at hnull
        rw [hnull]
  | succ k ih =>
    intro fuel m init p b hk hfuel hw
    obtain ⟨hs, hl, hnull, hlast, hne, hld, hcount, hbi, hbb⟩ := WF_split hw
    -- the chain is  pre ++ [(q, bq)] ++ [(p, b)]
    obtain ⟨pre, x, hinit⟩ : ∃ pre x, init = pre ++ [x] := by
      rcases List.eq_nil_or_concat init with e | ⟨L, x, e⟩
      · rw [e] at hk; simp at hk
      · exact ⟨L, x, by rw [e]; simp⟩
    obtain ⟨q, bq⟩ := x
    rw [hinit] at hs hne hld hbi hk hw hcount ⊢
    obtain ⟨q2, hspre, hq2, hlq, hbqn⟩ := (Seg_append pre [(q, bq)] _ _).1 hs
    have hq2e : q2 = q := hq2
    have hbqp : bq.next = p := hbqn
    rw [hq2e] at hspre
    have hnd := Seg_nodup _ _ hw.1.1
    have hpq : ∀ x ∈ pre, x.1 ≠ q := by
      intro x hx e2
      simp only [List.map_append, List.map_cons, List.map_nil, List.append_assoc] at hnd
      rw [List.nodup_append] at hnd
      exact hnd.2.2 (List.mem_map_of_mem Prod.fst hx) (by simp [e2])
    have hqp : q ≠ p := hne (q, bq) (by simp)
    have hprep : ∀ x ∈ pre, x.1 ≠ p := fun x hx => hne x (List.mem_append_left _ hx)
    -- the first buffer is not the last one
    obtain ⟨b0, rest, hch, hfirst⟩ := Chain_head hw.1
    have hfp : Ptr.first ≠ p := by
      cases pre with
      | nil =>
        simp only [List.nil_append, List.cons_append, List.cons.injEq, Prod.mk.injEq] at hch
        rw [← hch.1.1]; exact hqp
      | cons w tl =>
        simp only [List.cons_append, List.cons.injEq] at hch
        have := hprep w (List.mem_cons_self _ _)
        rw [hch.1] at this
        exact this
    obtain ⟨a, hpa⟩ : ∃ a, p = .heap a := by
      cases p with
      | null => simp [load] at hl
      | mapFailed => simp [load] at hl
      | first => exact absurd rfl hfp
      | heap a => exact ⟨a, rfl⟩
    subst hpa
    cases fuel with
    | zero => omega
    | succ fuel =>
      obtain ⟨ma, hma⟩ : ∃ ma : Mem, ma =
        { m with sb := { m.sb with number_of_buffers := m.sb.number_of_buffers - 1 } } :=
        ⟨_, rfl⟩
      have hla : ∀ z, load cap ma z = load cap m z := by
        intro z; rw [hma]; exact load_count m _ z
      have hseek : free_seek cap (fuel + 1) ma .first = .ok q := by
        refine free_seek_spec pre .first q bq (fuel + 1)
          (Seg_congr _ _ _ (fun z _ => hla z.1) hspre) (by rw [hla]; exact hlq)
          (by rw [hma]; simp [hlast, hbqp]) ?_ (by simp at hk; omega)
        intro z hz
        have hlb : ma.sb.last_buffer = .heap a := by rw [hma]; exact hlast
        rw [hlb]
        rcases Seg_next_mem pre _ _ hspre z hz with h1 | h1
        · obtain ⟨w, hw1, hw2⟩ := List.mem_map.1 h1
          rw [← hw2]; exact hprep w hw1
        · rw [h1]; exact hqp
      obtain ⟨mb, hmb⟩ : ∃ mb : Mem, mb = sb__free ma (.heap a) (sizeof_Sb_Buffer cap) :=
        ⟨_, rfl⟩
      have hlb : ∀ z, z ≠ .heap a → load cap mb z = load cap m z := by
        intro z hz
        rw [hmb, load_free ma a _ hz]
        exact hla z
      let bq2 : Sb_Buffer := { bq with next := .null }
      obtain ⟨md, hmd⟩ : ∃ md : Mem, md =
        { put mb q bq2 with sb := { (put mb q bq2).sb with last_buffer := q } } := ⟨_, rfl⟩
      have hlmbq : load cap mb q = .ok bq := by rw [hlb q hqp]; exact hlq
      have hld1 : ∀ z, load cap md z = load cap (put mb q bq2) z := by
        intro z; rw [hmd]; exact load_last _ _ z
      have hstep : free_loop cap (fuel + 1) m = free_loop cap fuel md := by
        rw [free_loop]
        simp only
        rw [if_pos (by rw [hcount]; simp), ← hma, hseek, bind_ok]
        rw [hlast, ← hmb, setNext_eq .null hlmbq, bind_ok, hmd]
      have hwd : WF cap md (pre ++ [(q, bq2)]) := by
        refine WF_join (p := q) (q := q) ?_ ?_ (by simp) (by rw [hmd]) ?_
          (fun z hz => hbi z (List.mem_append_left _ hz)) ?_
        · refine Seg_congr _ _ _ (fun z hz => ?_) hspre
          rw [hld1, load_put_ne mb bq2 (hpq z hz)]
          exact hlb z.1 (hprep z hz)
        · exact ⟨rfl, by rw [hld1]; exact load_put_same bq2 hlmbq, rfl⟩
        · rw [hmd]
          simp only [put_number_of_buffers]
          rw [hmb, hma]
          simp only [sb__free]
          rw [hcount]
          simp
        · intro z hz
          simp at hz
          rw [hz]
          exact hbi (q, bq) (by simp)
      obtain ⟨m2, hrun, hlog, hlb2, hcnt, hfb, hcalls⟩ :=
        ih fuel md pre q bq2 (by simp at hk; omega) (by omega) hwd
      refine ⟨m2, by rw [hstep]; exact hrun, ?_, hlb2, hcnt, ?_, ?_⟩
      · rw [hlog, releases_snoc cap pre (q, bq) (.heap a, b) (q, bq2) rfl]
        have : md.log = m.log ++ [Event.release (.heap a) (sizeof_Sb_Buffer cap)] := by
          rw [hmd]
          simp only [put_log]
          rw [hmb, hma]
          rfl
        rw [this]; simp
      · rw [hfb]
        have hf1 : load cap md .first = .ok md.sb.first_buffer := rfl
        have hf2 : load cap m .first = .ok m.sb.first_buffer := rfl
        by_cases hqf : q = .first
        · have h3 : load cap md .first = .ok bq2 := by
            rw [hld1, ← hqf]; exact load_put_same bq2 hlmbq
          rw [hf1] at h3
          have h4 : bq = m.sb.first_buffer := by
            rw [hqf, hf2] at hlq
            exact (Except.ok.inj hlq).symm
          rw [Except.ok.inj h3, ← h4]
        · have h3 : load cap md .first = load cap m .first := by
            rw [hld1, load_put_ne mb bq2 (fun e => hqf e.symm)]
            exact hlb .first hfp
          rw [hf1, hf2] at h3
          rw [Except.ok.inj h3]
      · rw [hcalls, hmd]
        simp only [put_calls]
        rw [hmb, hma]
        rfl

/-- C7: on a well-formed accumulator with `n ≥ 1` buffers `sb_free` returns;
it calls `sb__free` exactly for the `n - 1` buffers after the first, each
once, from the last backwards, with `sizeof(Sb_Buffer)` (the size
`sb__expand` acquires them with), never for the embedded first buffer; it
leaves a chain of one buffer: `first_buffer.next` is NULL, `last_buffer`
points to `first_buffer`, whose `data` and `length` are unchanged, so that
`sb_is_empty` answers as before. -/
theorem C7_free (cap : Nat) (m : Mem) (ch : List (Ptr × Sb_Buffer)) (fuel : Nat)
    (hw : WF cap m ch) (hfuel : ch.length ≤ fuel) :
    ∃ m2, sb_free cap fuel m .valid = .ok m2 ∧
      m2.log = m.log ++ releases cap ch ∧
      (releases cap ch).length = ch.length - 1 ∧
      (ch.tail.map Prod.fst).Nodup ∧
      (∀ q ∈ ch.tail.map Prod.fst, q ≠ .first ∧ q ≠ .null) ∧
      Seg cap m2 .first [(.first, m2.sb.first_buffer)] .null ∧
      m2.sb.first_buffer.next = .null ∧ m2.sb.last_buffer = .first ∧
      m2.sb.first_buffer.data = m.sb.first_buffer.data ∧
      m2.sb.first_buffer.length = m.sb.first_buffer.length ∧
      sb_is_empty m2 .valid = sb_is_empty m .valid := by
  obtain ⟨init, p, b, hch⟩ := WF_nonempty hw
  obtain ⟨b0, rest, hhead, _⟩ := Chain_head hw.1
  have hnd := Seg_nodup _ _ hw.1.1
  have hnn := Seg_ne_null hw.1.1
  rw [hch] at hw hfuel
  obtain ⟨m2, hrun, hlog, hlast, _, hfb, _⟩ :=
    free_loop_spec init.length fuel m init p b rfl (by simp at hfuel; omega) hw
  rw [← hch] at hlog
  rw [hhead] at hnd hnn
  simp only [List.map_cons, List.nodup_cons] at hnd
  refine ⟨m2, hrun, hlog, by simp [releases], by rw [hhead]; exact hnd.2, ?_, ?_,
    by rw [hfb], hlast, by rw [hfb], by rw [hfb], ?_⟩
  · intro q hq
    rw [hhead] at hq
    simp only [List.tail_cons] at hq
    constructor
    · intro e
      rw [e] at hq
      exact hnd.1 hq
    · obtain ⟨x, hx, hxq⟩ := List.mem_map.1 hq
      rw [← hxq]
      exact hnn x (List.mem_cons_of_mem _ hx)
  · refine ⟨rfl, rfl, ?_⟩
    show m2.sb.first_buffer.next = .null
    rw [hfb]
  · simp only [sb_is_empty]
    rw [hfb]

/-- C7 on the three-buffer accumulator holding "hello world": the two
allocated buffers are released, the second one first. -/
theorem C7_free_witness :
    releases 4 chain4hw = [.release (.heap 1) 16, .release (.heap 0) 16] ∧
    ∃ m2, sb_free 4 3 mem4hw .valid = .ok m2 ∧
      m2.log = mem4hw.log ++ releases 4 chain4hw ∧
      (releases 4 chain4hw).length = chain4hw.length - 1 ∧
      (chain4hw.tail.map Prod.fst).Nodup ∧
      (∀ q ∈ chain4hw.tail.map Prod.fst, q ≠ .first ∧ q ≠ .null) ∧
      Seg 4 m2 .first [(.first, m2.sb.first_buffer)] .null ∧
      m2.sb.first_buffer.next = .null ∧ m2.sb.last_buffer = .first ∧
      m2.sb.first_buffer.data = mem4hw.sb.first_buffer.data ∧
      m2.sb.first_buffer.length = mem4hw.sb.first_buffer.length ∧
      sb_is_empty m2 .valid = sb_is_empty mem4hw .valid :=
  ⟨by decide, C7_free 4 mem4hw chain4hw 3 (by decide) (by decide)⟩

/-- C5 fails on the code: `sb_init` followed by `sb_free` leaves
`number_of_buffers = 0` although the chain still has its one embedded
buffer.  The count stays one short afterwards: after a following append of
5 bytes the chain has two buffers and the count is 1, and a second `sb_free`
releases nothing. -/
theorem C5_count_after_free :
    sb_init 4 mem4 .valid = .ok ⟨⟨⟨[7, 7, 7, 7], 0, .null⟩, .first, 1⟩, [], 0, []⟩ ∧
    sb_free 4 2 ⟨⟨⟨[7, 7, 7, 7], 0, .null⟩, .first, 1⟩, [], 0, []⟩ .valid
      = .ok ⟨⟨⟨[7, 7, 7, 7], 0, .null⟩, .first, 0⟩, [], 0, []⟩ ∧
    Seg 4 ⟨⟨⟨[7, 7, 7, 7], 0, .null⟩, .first, 0⟩, [], 0, []⟩ .first
      [(.first, ⟨[7, 7, 7, 7], 0, .null⟩)] .null ∧
    sb_append_len 4 allOk 7 ⟨⟨⟨[7, 7, 7, 7], 0, .null⟩, .first, 0⟩, [], 0, []⟩ .valid
        [104, 101, 108, 108, 111] 5
      = .ok ⟨⟨⟨[104, 101, 108, 108], 4, .heap 0⟩, .heap 0, 1⟩,
          [.slab ⟨[111, 0, 0, 0], 1, .null⟩], 1, [.acquire 16 (.heap 0)]⟩ ∧
    sb_free 4 3 ⟨⟨⟨[104, 101, 108, 108], 4, .heap 0⟩, .heap 0, 1⟩,
          [.slab ⟨[111, 0, 0, 0], 1, .null⟩], 1, [.acquire 16 (.heap 0)]⟩ .valid
      = .ok ⟨⟨⟨[104, 101, 108, 108], 4, .heap 0⟩, .heap 0, 0⟩,
          [.slab ⟨[111, 0, 0, 0], 1, .null⟩], 1, [.acquire 16 (.heap 0)]⟩ := by
  decide

/-- C8 on the code.  The examples of the specification hold: "%d-%s" with
42 and "x" appends "42-x", and "100%%" appends "100%".  A template that ends
in literal text fails: for "abc" the code appends "abc" and then reads the
byte after the terminating zero, outside the template; if the bytes "%c"
follow the template in memory, it appends "abc%c". -/
theorem C8_vappendf_examples :
    (sb_vappendf 16 allOk 10 mem16 .valid [37, 100, 45, 37, 115, 0] [.int 42, .str [120, 0]]).map
        (fun r => (used r.1.sb.first_buffer, r.2)) = .ok ([52, 50, 45, 120], []) ∧
    (sb_vappendf 16 allOk 10 mem16 .valid [49, 48, 48, 37, 37, 0] []).map
        (fun r => (used r.1.sb.first_buffer, r.2)) = .ok ([49, 48, 48, 37], []) ∧
    sb_vappendf 16 allOk 10 mem16 .valid [97, 98, 99, 0] [] = .error .outOfBounds ∧
    (sb_vappendf 16 allOk 10 mem16 .valid [97, 98, 99, 0, 37, 99, 0, 0, 0] []).map
        (fun r => (used r.1.sb.first_buffer, r.2)) = .ok ([97, 98, 99, 37, 99], []) := by
  decide

/-- C9 fails on the code: with the template object being exactly the
template and its terminating zero byte, a template that ends in literal text
("x") and a template that ends with a lone '%' both make `sb_vappendf` read a
position after the terminator, whereas the unrecognized directive "%q" alone
does not. -/
theorem C9_reads_past_terminator :
    sb_vappendf 16 allOk 10 mem16 .valid [120, 0] [] = .error .outOfBounds ∧
    sb_vappendf 16 allOk 10 mem16 .valid [37, 0] [] = .error .outOfBounds ∧
    sb_vappendf 16 allOk 10 mem16 .valid [37, 113, 0] [] = .ok (mem16, []) := by
  decide

/-- C10 fails on the variant of `sb__malloc` built on `mmap`: a failed `mmap`
returns `MAP_FAILED`, which `sb__expand` compares with NULL and then uses as
the new last buffer, so `sb_append_len` of "hello" into a fresh accumulator
with 4-byte buffers faults at the write of the new buffer's `length` instead
of stopping.  When the failure is reported as NULL (`VirtualAlloc`) the call
stops as claimed, with "hell" stored. -/
theorem C10_map_failed :
    sb__malloc (fun _ => .mapFailed) ⟨⟨⟨[104, 101, 108, 108], 4, .null⟩, .first, 1⟩, [], 0, []⟩ 16
      = (.mapFailed, ⟨⟨⟨[104, 101, 108, 108], 4, .null⟩, .first, 1⟩, [], 1,
          [.acquire 16 .mapFailed]⟩) ∧
    sb__expand 4 (fun _ => .mapFailed)
      ⟨⟨⟨[104, 101, 108, 108], 4, .null⟩, .first, 1⟩, [], 0, []⟩ .valid
      = .error .invalidPtr ∧
    sb_append_len 4 (fun _ => .mapFailed) 7 ⟨⟨⟨[7, 7, 7, 7], 0, .null⟩, .first, 1⟩, [], 0, []⟩
      .valid [104, 101, 108, 108, 111] 5 = .error .invalidPtr ∧
    sb_append_len 4 (fun _ => .null) 7 ⟨⟨⟨[7, 7, 7, 7], 0, .null⟩, .first, 1⟩, [], 0, []⟩
      .valid [104, 101, 108, 108, 111] 5
      = .ok ⟨⟨⟨[104, 101, 108, 108], 4, .null⟩, .first, 1⟩, [], 1, [.acquire 16 .null]⟩ := by
  decide

/-- C6 fails on the variant of `sb__malloc` built on `mmap`, where a failed
allocation is `MAP_FAILED`.  With 4-byte buffers, after `sb_init` and the
append of 4 bytes (a well-formed accumulator of the slab shape), the append
of 5 more bytes whose allocation fails does not return: `sb__expand` stores
`MAP_FAILED` in the `next` of the last buffer, which passes the test against
NULL, and the accumulator in which the call then faults has no chain of
buffers ending in an absent `next` at all. -/
theorem C6_map_failed :
    sb_append_len 4 (fun n => if n < 1 then .mapped else .mapFailed) 11
        ⟨⟨⟨[7, 7, 7, 7], 0, .null⟩, .first, 1⟩, [], 0, []⟩ .valid [1, 2, 3, 4] 4
      = .ok ⟨⟨⟨[1, 2, 3, 4], 4, .heap 0⟩, .heap 0, 2⟩, [.slab ⟨[0, 0, 0, 0], 0, .null⟩], 1,
          [.acquire 16 (.heap 0)]⟩ ∧
    WF 4 ⟨⟨⟨[1, 2, 3, 4], 4, .heap 0⟩, .heap 0, 2⟩, [.slab ⟨[0, 0, 0, 0], 0, .null⟩], 1,
        [.acquire 16 (.heap 0)]⟩
      [(.first, ⟨[1, 2, 3, 4], 4, .heap 0⟩), (.heap 0, ⟨[0, 0, 0, 0], 0, .null⟩)] ∧
    Shape 4 [(.first, ⟨[1, 2, 3, 4], 4, .heap 0⟩), (.heap 0, ⟨[0, 0, 0, 0], 0, .null⟩)] ∧
    sb_append_len 4 (fun n => if n < 1 then .mapped else .mapFailed) 11
        ⟨⟨⟨[1, 2, 3, 4], 4, .heap 0⟩, .heap 0, 2⟩, [.slab ⟨[0, 0, 0, 0], 0, .null⟩], 1,
          [.acquire 16 (.heap 0)]⟩ .valid [5, 6, 7, 8, 9] 5
      = .error .invalidPtr ∧
    setNext 4
        (sb__malloc (fun n => if n < 1 then .mapped else .mapFailed)
          ⟨⟨⟨[1, 2, 3, 4], 4, .heap 0⟩, .heap 0, 2⟩, [.slab ⟨[5, 6, 7, 8], 4, .null⟩], 1,
            [.acquire 16 (.heap 0)]⟩ 16).2
        (.heap 0)
        (sb__malloc (fun n => if n < 1 then .mapped else .mapFailed)
          ⟨⟨⟨[1, 2, 3, 4], 4, .heap 0⟩, .heap 0, 2⟩, [.slab ⟨[5, 6, 7, 8], 4, .null⟩], 1,
            [.acquire 16 (.heap 0)]⟩ 16).1
      = .ok ⟨⟨⟨[1, 2, 3, 4], 4, .heap 0⟩, .heap 0, 2⟩, [.slab ⟨[5, 6, 7, 8], 4, .mapFailed⟩], 2,
          [.acquire 16 (.heap 0), .acquire 16 .mapFailed]⟩ ∧
    ¬ ∃ ch, Chain 4 ⟨⟨⟨[1, 2, 3, 4], 4, .heap 0⟩, .heap 0, 2⟩,
        [.slab ⟨[5, 6, 7, 8], 4, .mapFailed⟩], 2,
        [.acquire 16 (.heap 0), .acquire 16 .mapFailed]⟩ ch := by
  refine ⟨by decide, by decide, by decide, by decide, by decide, ?_⟩
  rintro ⟨ch, hseg, _⟩
  cases ch with
  | nil => cases hseg
  | cons x rest =>
    obtain ⟨e1, l1, s1⟩ := hseg
    rw [← e1] at l1
    have hx : x.2 = ⟨[1, 2, 3, 4], 4, .heap 0⟩ := (Except.ok.inj l1).symm
    rw [hx] at s1
    cases rest with
    | nil => cases s1
    | cons y rest2 =>
      obtain ⟨e2, l2, s2⟩ := s1
      rw [← e2] at l2
      have hy : y.2 = ⟨[5, 6, 7, 8], 4, .mapFailed⟩ := (Except.ok.inj l2).symm
      rw [hy] at s2
      cases rest2 with
      | nil => cases s2
      | cons z rest3 =>
        obtain ⟨e3, l3, _⟩ := s2
        rw [← e3] at l3
        cases l3

/-! ## The text of an `int` -/

theorem decimal_digits_length :
    ∀ (k fuel n : Nat), n < 10 ^ (k + 1) → (decimal_digits fuel n).length ≤ k + 1 := by
  intro k
  induction k with
  | zero =>
    intro fuel n hn
    cases fuel with
    | zero => simp [decimal_digits]
    | succ fuel =>
      have h10 : n < 10 := by simpa using hn
      simp [decimal_digits, h10]
  | succ k ih =>
    intro fuel n hn
    cases fuel with
    | zero => simp [decimal_digits]
    | succ fuel =>
      by_cases h10 : n < 10
      · simp [decimal_digits, h10]
      · have hdiv : n / 10 < 10 ^ (k + 1) := by
          rw [Nat.div_lt_iff_lt_mul (by decide)]
          rw [pow_succ] at hn
          exact hn
        have := ih fuel (n / 10) hdiv
        simp only [decimal_digits, h10, if_false, List.length_append, List.length_singleton]
        omega

/-- C19: for every value of a 32-bit `int` the decimal text that `itoa`
produces for the directive `d`, with its sign and its terminating zero byte,
takes at most 12 bytes, so that it fits the 20 bytes of `val` and
`sb_vappendf` never writes outside that array. -/
theorem C19_itoa_width (v : Int) (hlo : -2147483648 ≤ v) (hhi : v ≤ INT_MAX) :
    (itoa v ++ [0]).length ≤ 12 ∧ ¬ (20 < (itoa v).length + 1) := by
  unfold INT_MAX at hhi
  have habs : v.natAbs < 10 ^ (9 + 1) := by
    have : v.natAbs ≤ 2147483648 := by omega
    have h2 : (2147483648 : Nat) < 10 ^ (9 + 1) := by norm_num
    omega
  have hlen := decimal_digits_length 9 (v.natAbs + 1) v.natAbs habs
  have hit : (itoa v).length ≤ 11 := by
    unfold itoa
    split
    · simp only [List.length_cons]; omega
    · omega
  constructor
  · simp only [List.length_append, List.length_singleton]; omega
  · omega

/-- C19 at the minimum value: "-2147483648" and its terminator take exactly
12 bytes. -/
theorem C19_itoa_width_witness :
    itoa (-2147483648) = [45, 50, 49, 52, 55, 52, 56, 51, 54, 52, 56] ∧
    (itoa (-2147483648) ++ [0]).length ≤ 12 ∧ ¬ (20 < (itoa (-2147483648)).length + 1) :=
  ⟨by decide, C19_itoa_width (-2147483648) (by decide) (by decide)⟩

/-! ## The null accumulator -/

/-- C13: on a null accumulator `sb_free`, `sb_append_len`, `sb_append`,
`sb_vappendf` and `sb_to_string` return without an effect on the memory, but
`sb_init` and `sb_is_empty` have no test of `sb`: `sb_init` writes
`sb->last_buffer` and `sb_is_empty` reads `sb->first_buffer.length` through
the null pointer. -/
theorem C13_null_accumulator (cap : Nat) (env : Nat → Outcome) (fuel : Nat) (m : Mem)
    (string : List Nat) (length : Int) :
    sb_init cap m .null = .error .nullDeref ∧
    sb_is_empty m .null = .error .nullDeref ∧
    sb_free cap fuel m .null = .ok m ∧
    sb_append_len cap env fuel m .null string length = .ok m ∧
    sb_append cap env fuel m .null [104, 105, 0] = .ok m ∧
    sb_vappendf cap env 2 m .null [37, 100, 0] [.int 5] = .ok (m, []) ∧
    sb_to_string cap env fuel m .null = .ok (-1, .null, m) :=
  ⟨rfl, rfl, rfl, rfl, rfl, rfl, rfl⟩

/-! ## Allocation failure -/

/-- C11, the claim fails: `sb_append_len` has the return type `void`, so a
call in which the allocation fails (9 bytes offered to 4-byte buffers, 4 of
them stored) hands back to its caller what a call in which it succeeds hands
back, nothing; and `sb_to_string` does not test what `sb__malloc` returned:
with a failing allocator it writes the terminating zero byte through the
pointer returned, NULL or `MAP_FAILED`. -/
theorem C11_counterexample :
    (∃ mf ms,
      sb_append_len 4 (fun _ => .null) 11 ⟨⟨⟨[7, 7, 7, 7], 0, .null⟩, .first, 1⟩, [], 0, []⟩
        .valid [1, 2, 3, 4, 5, 6, 7, 8, 9] 9 = .ok mf ∧
      sb_append_len 4 allOk 11 ⟨⟨⟨[7, 7, 7, 7], 0, .null⟩, .first, 1⟩, [], 0, []⟩
        .valid [1, 2, 3, 4, 5, 6, 7, 8, 9] 9 = .ok ms ∧
      mf.log = [.acquire 16 .null] ∧ mf.sb.first_buffer = ⟨[1, 2, 3, 4], 4, .null⟩ ∧
      mf.sb.number_of_buffers = 1 ∧ ms.sb.number_of_buffers = 3) ∧
    Except.map (fun _ => ())
      (sb_append_len 4 (fun _ => .null) 11 ⟨⟨⟨[7, 7, 7, 7], 0, .null⟩, .first, 1⟩, [], 0, []⟩
        .valid [1, 2, 3, 4, 5, 6, 7, 8, 9] 9)
      = Except.map (fun _ => ())
        (sb_append_len 4 allOk 11 ⟨⟨⟨[7, 7, 7, 7], 0, .null⟩, .first, 1⟩, [], 0, []⟩
          .valid [1, 2, 3, 4, 5, 6, 7, 8, 9] 9) ∧
    sb_to_string 4 (fun _ => .null) 3 mem4hw .valid = .error .nullDeref ∧
    sb_to_string 4 (fun _ => .mapFailed) 3 mem4hw .valid = .error .invalidPtr := by
  refine ⟨⟨_, _, rfl, rfl, ?_, ?_, ?_, ?_⟩, ?_, ?_, ?_⟩ <;> decide

/-- C11, amended: `sb_append_len` returns no value.  With an allocator that
reports failure as NULL, a call on a well-formed accumulator with
`0 ≤ length` returns in both cases, and what tells them apart is the
accumulator afterwards: when every allocation of the call succeeded, the
whole input is stored and the last buffer has room left; when an allocation
returned NULL, the call stopped there, with the first
`(cap - last.length) + n * cap` bytes of the input stored (`n` buffers
acquired before the failure) and a last buffer that is full. -/
theorem C11_append_failure (cap : Nat) (env : Nat → Outcome) (m : Mem)
    (init : List (Ptr × Sb_Buffer)) (p : Ptr) (b : Sb_Buffer) (string : List Nat)
    (length : Int) (fuel : Nat) (hcap : 0 < cap) (hw : WF cap m (init ++ [(p, b)]))
    (h0 : 0 ≤ length) (hl : length ≤ string.length) (hf : length + 2 ≤ fuel)
    (hnf : ∀ i, env i ≠ .mapFailed) :
    ∃ m2 ch2 bl n, sb_append_len cap env fuel m .valid string length = .ok m2 ∧
      WF cap m2 ch2 ∧ load cap m2 m2.sb.last_buffer = .ok bl ∧
      ch2.length = init.length + 1 + n ∧
      (∀ i, i < n → env (m.calls + i) = .mapped) ∧
      ((m2.calls = m.calls + n ∧ bl.length < cap ∧
          contents ch2 = contents (init ++ [(p, b)]) ++ string.take length.toNat) ∨
       (env (m.calls + n) = .null ∧ m2.calls = m.calls + n + 1 ∧ bl.length = cap ∧
          cap - b.length + n * cap ≤ length ∧
          contents ch2 = contents (init ++ [(p, b)])
            ++ string.take (cap - b.length + n * cap).toNat)) := by
  obtain ⟨m2, ch2, hrun, hw2, _, _, k, n, init2, p2, b2, hch2, _, hkl, hcont, _, hlen, henv,
    hcases⟩ := sb_append_len_spec env hcap hw string length h0 hl fuel hf hnf
  rw [hch2] at hw2
  obtain ⟨_, hl2, _, hlast2, _⟩ := WF_split hw2
  rw [← hch2] at hw2
  refine ⟨m2, ch2, b2, n, hrun, hw2, by rw [hlast2]; exact hl2, by rw [hlen]; simp, henv, ?_⟩
  rcases hcases with ⟨c1, c2, c3, _⟩ | ⟨c1, c2, c3, c4⟩
  · left
    rw [c2] at hcont
    exact ⟨c1, c3, hcont⟩
  · right
    rw [c3] at hcont hkl
    exact ⟨c2, c1, c4, hkl, hcont⟩

/-- C11, amended, with 4-byte buffers: 9 bytes are appended to an empty
accumulator while the first allocation succeeds and the second returns NULL. -/
theorem C11_append_failure_witness :
    ∃ m2 ch2 bl n, sb_append_len 4 (fun i => if i < 1 then .mapped else .null) 11
        ⟨⟨⟨[7, 7, 7, 7], 0, .null⟩, .first, 1⟩, [], 0, []⟩ .valid
        [1, 2, 3, 4, 5, 6, 7, 8, 9] 9 = .ok m2 ∧
      WF 4 m2 ch2 ∧ load 4 m2 m2.sb.last_buffer = .ok bl ∧
      ch2.length = ([] : List (Ptr × Sb_Buffer)).length + 1 + n ∧
      (∀ i, i < n → (fun i => if i < 1 then Outcome.mapped else Outcome.null) (0 + i) = .mapped) ∧
      ((m2.calls = 0 + n ∧ bl.length < (4 : Nat) ∧
          contents ch2 = contents ([] ++ [(Ptr.first, (⟨[7, 7, 7, 7], 0, .null⟩ : Sb_Buffer))])
            ++ [1, 2, 3, 4, 5, 6, 7, 8, 9].take (9 : Int).toNat) ∨
       ((fun i => if i < 1 then Outcome.mapped else Outcome.null) (0 + n) = .null ∧
          m2.calls = 0 + n + 1 ∧ bl.length = (4 : Nat) ∧
          (4 : Nat) - (0 : Int) + n * (4 : Nat) ≤ 9 ∧
          contents ch2 = contents ([] ++ [(Ptr.first, (⟨[7, 7, 7, 7], 0, .null⟩ : Sb_Buffer))])
            ++ [1, 2, 3, 4, 5, 6, 7, 8, 9].take ((4 : Nat) - (0 : Int) + n * (4 : Nat)).toNat)) :=
  C11_append_failure 4 (fun i => if i < 1 then .mapped else .null)
    ⟨⟨⟨[7, 7, 7, 7], 0, .null⟩, .first, 1⟩, [], 0, []⟩ [] .first ⟨[7, 7, 7, 7], 0, .null⟩
    [1, 2, 3, 4, 5, 6, 7, 8, 9] 9 11 (by decide) (by decide) (by decide) (by decide)
    (by decide) (by intro i; dsimp only; split <;> simp)

/-! ## Appends and the slab boundary -/

/-- C14: on a well-formed accumulator whose last buffer has `r = cap -
last.length > 0` bytes left, `sb_append_len` with `length = r`, the allocation
succeeding, fills the old last buffer up to `cap` with the `r` bytes, links
one new buffer behind it (`number_of_buffers` grows by exactly 1, one call of
the allocator) and leaves that new buffer, of length 0, as the last one. -/
theorem C14_exact_fit (cap : Nat) (env : Nat → Outcome) (m : Mem)
    (init : List (Ptr × Sb_Buffer)) (p : Ptr) (b : Sb_Buffer) (string : List Nat) (fuel : Nat)
    (hw : WF cap m (init ++ [(p, b)])) (hr : 0 < cap - b.length)
    (hs : cap - b.length ≤ string.length) (he : env m.calls = .mapped) (hf : 2 ≤ fuel) :
    ∃ m2 bf bn, sb_append_len cap env fuel m .valid string (cap - b.length) = .ok m2 ∧
      WF cap m2 (init ++ [(p, bf), (.heap m.regions.length, bn)]) ∧
      bf.length = (cap : Int) ∧ used bf = used b ++ string.take (cap - b.length).toNat ∧
      bn.length = 0 ∧ used bn = [] ∧
      m2.sb.last_buffer = .heap m.regions.length ∧
      load cap m2 m2.sb.last_buffer = .ok bn ∧
      m2.sb.number_of_buffers = m.sb.number_of_buffers + 1 ∧
      m2.calls = m.calls + 1 := by
  obtain ⟨_, hl, _, hlast, _, _, hcount, _, hb0, hbc, _⟩ := WF_split hw
  obtain ⟨f, hfe⟩ : ∃ f, fuel = f + 2 := ⟨fuel - 2, by omega⟩
  have hrun : sb_append_len cap env fuel m .valid string (cap - b.length)
      = append_loop cap env fuel m string (cap - b.length) (cap - b.length) := by
    simp only [sb_append_len]
    rw [hlast, hl, bind_ok]
  obtain ⟨m1, bf, hstep, hw1, hbf, hused, hcalls, _, _⟩ :=
    append_iter_ok hw (f + 1) string (cap - b.length) (cap - b.length) (by omega)
      (le_refl _) hs he
  have hw1b : WF cap m1 ((init ++ [(p, bf)])
      ++ [(.heap m.regions.length, ⟨List.replicate cap 0, 0, .null⟩)]) := by
    simpa using hw1
  obtain ⟨m2, bn, hfin, hw2, hbn, hun, hcalls2, _, _⟩ :=
    append_final env hw1b f (string.drop (cap - b.length).toNat) 0 cap (by simp) (by omega)
      (le_refl _) (by omega)
  have hw2b : WF cap m2 (init ++ [(p, bf), (.heap m.regions.length, bn)]) := by
    simpa using hw2
  have hz : cap - b.length - (cap - b.length) = (0 : Int) := by omega
  rw [hz] at hstep
  obtain ⟨_, hl2, _, hlast2, _, _, hcount2, _⟩ := WF_split hw2
  refine ⟨m2, bf, bn, ?_, hw2b, hbf, hused, by simpa using hbn, ?_, hlast2, ?_, ?_, ?_⟩
  · rw [hrun, hfe, hstep]; exact hfin
  · have e : bn.length = 0 := by simpa using hbn
    simp [used, e]
  · rw [hlast2]; exact hl2
  · rw [hcount2, hcount]; simp
  · rw [hcalls2, hcalls]

/-- C14 with 4-byte buffers: the accumulator holds "he" and "ll" is appended. -/
theorem C14_exact_fit_witness :
    ∃ m2 bf bn, sb_append_len 4 allOk 2 ⟨⟨⟨[104, 101, 7, 7], 2, .null⟩, .first, 1⟩, [], 0, []⟩
        .valid [108, 108] ((4 : Nat) - (2 : Int)) = .ok m2 ∧
      WF 4 m2 ([] ++ [(.first, bf), (.heap 0, bn)]) ∧
      bf.length = ((4 : Nat) : Int) ∧
      used bf = used ⟨[104, 101, 7, 7], 2, .null⟩ ++ [108, 108].take ((4 : Nat) - (2 : Int)).toNat ∧
      bn.length = 0 ∧ used bn = [] ∧
      m2.sb.last_buffer = .heap 0 ∧
      load 4 m2 m2.sb.last_buffer = .ok bn ∧
      m2.sb.number_of_buffers = 1 + 1 ∧
      m2.calls = 0 + 1 :=
  C14_exact_fit 4 allOk ⟨⟨⟨[104, 101, 7, 7], 2, .null⟩, .first, 1⟩, [], 0, []⟩ [] .first
    ⟨[104, 101, 7, 7], 2, .null⟩ [108, 108] 2 (by decide) (by decide) (by decide) (by decide)
    (by decide)

/-- C15: on a well-formed accumulator whose last buffer has length `u`, with
`0 ≤ L`, a capacity `> 0` and an allocator that always succeeds,
`sb_append_len` returns after exactly `⌊(u + L) / cap⌋` calls of the
allocator, each adding one buffer to the chain, and the last buffer then has
length `(u + L) mod cap`. -/
theorem C15_acquisitions (cap : Nat) (env : Nat → Outcome) (m : Mem)
    (init : List (Ptr × Sb_Buffer)) (p : Ptr) (b : Sb_Buffer) (string : List Nat)
    (length : Int) (fuel : Nat) (hcap : 0 < cap) (hw : WF cap m (init ++ [(p, b)]))
    (h0 : 0 ≤ length) (hl : length ≤ string.length) (hf : length + 2 ≤ fuel)
    (henv : ∀ i, env i = .mapped) :
    ∃ m2 ch2 bl, sb_append_len cap env fuel m .valid string length = .ok m2 ∧
      WF cap m2 ch2 ∧ load cap m2 m2.sb.last_buffer = .ok bl ∧
      m2.calls = m.calls + ((b.length + length) / cap).toNat ∧
      m2.sb.number_of_buffers = m.sb.number_of_buffers + (b.length + length) / cap ∧
      bl.length = (b.length + length) % cap := by
  obtain ⟨m2, ch2, hrun, hpost⟩ := sb_append_len_spec env hcap hw string length h0 hl fuel hf
    (fun i hi => by rw [henv i] at hi; cases hi)
  obtain ⟨hw2, _, hsp, _, _, n, hlen, hcalls, init2, p2, b2, hch2, hb2⟩ := AppendPost_ok henv hpost
  rw [hch2] at hw2 hsp
  obtain ⟨_, hl2, _, hlast2, _, _, hcount2, _, hb20, _, _⟩ := WF_split hw2
  obtain ⟨_, _, _, _, _, _, hcount, _⟩ := WF_split hw
  have hlt : b2.length < cap := hsp (p2, b2) (by simp)
  have hcap2 : (cap : Int) ≠ 0 := by omega
  have e : b.length + length = b2.length + n * cap := by omega
  have hdiv : (b.length + length) / cap = n := by
    rw [e, Int.add_mul_ediv_right _ _ hcap2, Int.ediv_eq_zero_of_lt hb20 hlt]
    simp
  have hmod : (b.length + length) % cap = b2.length := by
    rw [e, Int.add_mul_emod_self, Int.emod_eq_of_lt hb20 hlt]
  have hn : init2.length = init.length + n := by
    rw [hch2] at hlen
    simp at hlen
    omega
  rw [← hch2] at hw2
  refine ⟨m2, ch2, b2, hrun, hw2, by rw [hlast2]; exact hl2, ?_, ?_, hmod.symm⟩
  · rw [hdiv, hcalls]; simp
  · rw [hdiv, hcount2, hcount, hn]; push_cast; ring

/-- C15 with 4-byte buffers: the last buffer holds 3 bytes and 9 are appended,
which takes `(3 + 9) / 4 = 3` buffers and leaves a last buffer of length 0. -/
theorem C15_acquisitions_witness :
    ∃ m2 ch2 bl, sb_append_len 4 allOk 11 mem4hw .valid [1, 2, 3, 4, 5, 6, 7, 8, 9] 9 = .ok m2 ∧
      WF 4 m2 ch2 ∧ load 4 m2 m2.sb.last_buffer = .ok bl ∧
      m2.calls = mem4hw.calls + (((⟨[114, 108, 100, 0], 3, .null⟩ : Sb_Buffer).length + 9)
        / (4 : Nat)).toNat ∧
      m2.sb.number_of_buffers = mem4hw.sb.number_of_buffers
        + ((⟨[114, 108, 100, 0], 3, .null⟩ : Sb_Buffer).length + 9) / (4 : Nat) ∧
      bl.length = ((⟨[114, 108, 100, 0], 3, .null⟩ : Sb_Buffer).length + 9) % (4 : Nat) :=
  C15_acquisitions 4 allOk mem4hw
    [(.first, ⟨[104, 101, 108, 108], 4, .heap 0⟩), (.heap 0, ⟨[111, 32, 119, 111], 4, .heap 1⟩)]
    (.heap 1) ⟨[114, 108, 100, 0], 3, .null⟩ [1, 2, 3, 4, 5, 6, 7, 8, 9] 9 11
    (by decide) (by decide) (by decide) (by decide) (by decide) (fun _ => rfl)

/-! ## Spare capacity -/

theorem put_put_sb {cap : Nat} {m : Mem} {p : Ptr} {b : Sb_Buffer}
    (hl : load cap m p = .ok b) : (put (put m p b) p b).sb = m.sb := by
  cases p with
  | null => rfl
  | mapFailed => rfl
  | first =>
    have e : m.sb.first_buffer = b := Except.ok.inj hl
    rw [← e]
    rfl
  | heap a => rfl

theorem load_put_put {cap : Nat} {m : Mem} {p : Ptr} {b : Sb_Buffer}
    (hl : load cap m p = .ok b) (q : Ptr) :
    load cap (put (put m p b) p b) q = load cap m q := by
  by_cases hq : q = p
  · rw [hq, load_put_same b (load_put_same b hl), hl]
  · rw [load_put_ne _ b hq, load_put_ne _ b hq]

/-- A zero-length append to a well-formed accumulator whose last buffer has
room left copies nothing, adds 0 to the length and calls no allocator. -/
theorem append_zero {cap : Nat} (env : Nat → Outcome) {m : Mem}
    {init : List (Ptr × Sb_Buffer)} {p : Ptr} {b : Sb_Buffer}
    (h : WF cap m (init ++ [(p, b)])) (hlt : b.length < cap) (fuel : Nat) (hf : 0 < fuel)
    (string : List Nat) :
    ∃ m2, sb_append_len cap env fuel m .valid string 0 = .ok m2 ∧ Unchanged cap m m2 ∧
      WF cap m2 (init ++ [(p, b)]) := by
  obtain ⟨_, hl, hnull, hlast, _, _, _, _, hb0, hbc, hdl⟩ := WF_split h
  obtain ⟨f, hfe⟩ : ∃ f, fuel = f + 1 := ⟨fuel - 1, by omega⟩
  have hcopy : memcpy b.data b.length string 0 = .ok b.data := by
    rw [memcpy_ok _ _ _ _ hb0 (le_refl _) (by simp) (by simp; omega)]
    simp
  have hb1 : ({ b with data := b.data } : Sb_Buffer) = b := rfl
  have hl1 : load cap (put m p b) p = .ok b := load_put_same b hl
  have hb2 : ({ b with length := b.length + 0 } : Sb_Buffer) = b := by simp
  have hrun : sb_append_len cap env fuel m .valid string 0 = .ok (put (put m p b) p b) := by
    simp only [sb_append_len]
    rw [hlast, hl, bind_ok, hfe, append_loop, if_neg (by omega), hlast, hl, bind_ok, hcopy,
      bind_ok, hb1, store_eq_put b hl, bind_ok, put_last_buffer, hlast, hl1, bind_ok,
      setLength_eq _ hl1, hb2]
  refine ⟨_, hrun, ⟨put_put_sb hl, load_put_put hl, by simp, by simp, by simp⟩, ?_⟩
  have hw1 : WF cap (put m p b) (init ++ [(p, b)]) := WF_put h b hnull ⟨hb0, hbc, hdl⟩
  exact WF_put hw1 b hnull ⟨hb0, hbc, hdl⟩

/-- C18: `sb_init` leaves a last buffer of length `0 < cap`, and every call
of `sb_append_len` with `0 ≤ length` on a well-formed accumulator, the
allocator always succeeding, returns and leaves a last buffer with
`length < cap`; a zero-length append made in either state returns with the
accumulator object and every buffer as they were, and without a call of the
allocator. -/
theorem C18_spare_capacity (cap : Nat) (env : Nat → Outcome) (m0 m : Mem)
    (init : List (Ptr × Sb_Buffer)) (p : Ptr) (b : Sb_Buffer) (string : List Nat)
    (length : Int) (fuel : Nat) (hcap : 0 < cap) (hd : m0.sb.first_buffer.data.length = cap)
    (hw : WF cap m (init ++ [(p, b)])) (h0 : 0 ≤ length) (hl : length ≤ string.length)
    (hf : length + 2 ≤ fuel) (henv : ∀ i, env i = .mapped) :
    (∃ m1 bl, sb_init cap m0 .valid = .ok m1 ∧
      load cap m1 m1.sb.last_buffer = .ok bl ∧ bl.length = 0 ∧ bl.length < cap ∧
      ∀ (fuel2 : Nat) (s : List Nat), 0 < fuel2 →
        ∃ m3, sb_append_len cap env fuel2 m1 .valid s 0 = .ok m3 ∧ Unchanged cap m1 m3) ∧
    (∃ m2 ch2 bl, sb_append_len cap env fuel m .valid string length = .ok m2 ∧
      WF cap m2 ch2 ∧ load cap m2 m2.sb.last_buffer = .ok bl ∧ bl.length < cap ∧
      ∀ (fuel2 : Nat) (s : List Nat), 0 < fuel2 →
        ∃ m3, sb_append_len cap env fuel2 m2 .valid s 0 = .ok m3 ∧ Unchanged cap m2 m3 ∧
          WF cap m3 ch2) := by
  constructor
  · obtain ⟨m1, h1, hw1, _, hlast1, _⟩ := sb_init_spec m0 hd
    have hw1b : WF cap m1 ([] ++ [(.first, ⟨m0.sb.first_buffer.data, 0, .null⟩)]) := hw1
    obtain ⟨_, hl1, _⟩ := WF_split hw1b
    refine ⟨m1, _, h1, by rw [hlast1]; exact hl1, rfl, by simpa using hcap, ?_⟩
    intro fuel2 s hf2
    obtain ⟨m3, hrun, hun, _⟩ := append_zero env hw1b (by simpa using hcap) fuel2 hf2 s
    exact ⟨m3, hrun, hun⟩
  · obtain ⟨m2, ch2, hrun, hpost⟩ := sb_append_len_spec env hcap hw string length h0 hl fuel hf
      (fun i hi => by rw [henv i] at hi; cases hi)
    obtain ⟨hw2, _, hsp, _, _, n, _, _, init2, p2, b2, hch2, _⟩ := AppendPost_ok henv hpost
    rw [hch2] at hw2 hsp
    obtain ⟨_, hl2, _, hlast2, _⟩ := WF_split hw2
    have hlt : b2.length < cap := hsp (p2, b2) (by simp)
    refine ⟨m2, ch2, b2, hrun, hch2 ▸ hw2, by rw [hlast2]; exact hl2, hlt, ?_⟩
    intro fuel2 s hf2
    obtain ⟨m3, hrun3, hun, hw3⟩ := append_zero env hw2 hlt fuel2 hf2 s
    exact ⟨m3, hrun3, hun, hch2 ▸ hw3⟩

/-- C18 with 4-byte buffers: "abcde" is appended to the accumulator holding
"hello world", whose last buffer holds 3 bytes; a zero-length append to the
result returns the very same state. -/
theorem C18_spare_capacity_witness :
    ((∃ m1 bl, sb_init 4 mem4 .valid = .ok m1 ∧
      load 4 m1 m1.sb.last_buffer = .ok bl ∧ bl.length = 0 ∧ bl.length < (4 : Nat) ∧
      ∀ (fuel2 : Nat) (s : List Nat), 0 < fuel2 →
        ∃ m3, sb_append_len 4 allOk fuel2 m1 .valid s 0 = .ok m3 ∧ Unchanged 4 m1 m3) ∧
    (∃ m2 ch2 bl, sb_append_len 4 allOk 7 mem4hw .valid [97, 98, 99, 100, 101] 5 = .ok m2 ∧
      WF 4 m2 ch2 ∧ load 4 m2 m2.sb.last_buffer = .ok bl ∧ bl.length < (4 : Nat) ∧
      ∀ (fuel2 : Nat) (s : List Nat), 0 < fuel2 →
        ∃ m3, sb_append_len 4 allOk fuel2 m2 .valid s 0 = .ok m3 ∧ Unchanged 4 m2 m3 ∧
          WF 4 m3 ch2)) ∧
    (sb_append_len 4 allOk 7 mem4hw .valid [97, 98, 99, 100, 101] 5).bind
        (fun m2 => sb_append_len 4 allOk 1 m2 .valid [120] 0)
      = sb_append_len 4 allOk 7 mem4hw .valid [97, 98, 99, 100, 101] 5 :=
  ⟨C18_spare_capacity 4 allOk mem4 mem4hw
    [(.first, ⟨[104, 101, 108, 108], 4, .heap 0⟩), (.heap 0, ⟨[111, 32, 119, 111], 4, .heap 1⟩)]
    (.heap 1) ⟨[114, 108, 100, 0], 3, .null⟩ [97, 98, 99, 100, 101] 5 7
    (by decide) (by decide) (by decide) (by decide) (by decide) (by decide) (fun _ => rfl),
   by decide⟩

/-! ## Unrecognized directives -/

/-- The scan for the next directive stops at the first percent sign when the
bytes before it are neither a percent sign nor the terminator. -/
theorem scan_loop_literal (p rest : List Nat) (hp : ∀ c ∈ p, c ≠ 37 ∧ c ≠ 0) :
    ∀ (fuel pos : Nat), pos ≤ p.length → p.length - pos < fuel →
      scan_loop (p ++ 37 :: rest) fuel pos = .ok p.length := by
  intro fuel
  induction fuel with
  | zero => intro pos _ h; omega
  | succ fuel ih =>
    intro pos hle hfuel
    rw [scan_loop]
    rcases Nat.lt_or_ge pos p.length with hlt | hge
    · have hget : (p ++ 37 :: rest)[pos]? = some p[pos] := by
        rw [List.getElem?_append_left hlt, List.getElem?_eq_getElem hlt]
      have hc := hp p[pos] (List.getElem_mem hlt)
      rw [hget]
      simp only [hc.1, hc.2, ne_eq, not_false_eq_true, and_self, if_true]
      exact ih (pos + 1) hlt (by omega)
    · have hpos : pos = p.length := by omega
      have hget : (p ++ 37 :: rest)[pos]? = some 37 := by
        rw [hpos, List.getElem?_append_right (le_refl _)]
        simp
      rw [hget, hpos]
      simp

/-- C16: for a character `x` other than s, d, c and the percent sign, and a
template `p ++ "%" ++ [x] ++ q` whose part `p` has neither a percent sign nor
a terminator, `sb_vappendf` appends the literal `p` (the first `p.length`
bytes of the template), steps over the two characters `%x` without an append
and without taking an argument, and goes on with `q` and the same arguments:
the call does what the append of `p` followed by the formatting of `q` does. -/
theorem C16_unknown_directive (cap : Nat) (env : Nat → Outcome) (fuel : Nat) (m : Mem)
    (sb : SbRef) (p q : List Nat) (x : Nat) (va : List Arg)
    (hp : ∀ c ∈ p, c ≠ 37 ∧ c ≠ 0)
    (hx : x ≠ 115 ∧ x ≠ 100 ∧ x ≠ 99 ∧ x ≠ 37) (hfuel : p.length ≤ fuel) :
    sb_vappendf cap env (fuel + 1) m sb (p ++ 37 :: x :: q) va
      = (sb_append_len cap env (fuel + 1) m sb (p ++ 37 :: x :: q) p.length >>=
          fun m2 => sb_vappendf cap env fuel m2 sb q va) := by
  obtain ⟨c0, hhead, hc0⟩ : ∃ c0, (p ++ 37 :: x :: q).head? = some c0 ∧ c0 ≠ 0 := by
    cases p with
    | nil => exact ⟨37, rfl, by decide⟩
    | cons c p2 => exact ⟨c, rfl, (hp c (List.mem_cons_self _ _)).2⟩
  have hscan := scan_loop_literal p (x :: q) hp (fuel + 1) 0 (Nat.zero_le _) (by omega)
  have hdrop : (p ++ 37 :: x :: q).drop (p.length + 1) = x :: q := by
    rw [show p ++ 37 :: x :: q = (p ++ [37]) ++ x :: q by simp]
    exact List.drop_left' (by simp)
  rw [sb_vappendf, hhead]
  simp only [hc0, if_false, hscan, bind_ok, hdrop, List.head?_cons, List.drop_succ_cons,
    List.drop_zero]
  cases hrun : sb_append_len cap env (fuel + 1) m sb (p ++ 37 :: x :: q) p.length with
  | error e => rfl
  | ok m2 =>
    simp only [bind_ok]
    obtain ⟨h1, h2, h3, h4⟩ := hx
    split <;> first | rfl | (rename_i heq; simp [h1, h2, h3, h4] at heq)

/-- C16 on the template "ab%q%d" with the argument 42 and 4-byte buffers: the
two characters `%q` add nothing and take no argument, and "ab42" is stored. -/
theorem C16_unknown_directive_witness :
    sb_vappendf 4 allOk (6 + 1) ⟨⟨⟨[7, 7, 7, 7], 0, .null⟩, .first, 1⟩, [], 0, []⟩ .valid
        ([97, 98] ++ 37 :: 113 :: [37, 100, 0]) [.int 42]
      = (sb_append_len 4 allOk (6 + 1) ⟨⟨⟨[7, 7, 7, 7], 0, .null⟩, .first, 1⟩, [], 0, []⟩ .valid
          ([97, 98] ++ 37 :: 113 :: [37, 100, 0]) ([97, 98] : List Nat).length >>=
          fun m2 => sb_vappendf 4 allOk 6 m2 .valid [37, 100, 0] [.int 42]) ∧
    sb_vappendf 4 allOk (6 + 1) ⟨⟨⟨[7, 7, 7, 7], 0, .null⟩, .first, 1⟩, [], 0, []⟩ .valid
        ([97, 98] ++ 37 :: 113 :: [37, 100, 0]) [.int 42]
      = .ok (⟨⟨⟨[97, 98, 52, 50], 4, .heap 0⟩, .heap 0, 2⟩,
          [.slab ⟨[0, 0, 0, 0], 0, .null⟩], 1, [.acquire 16 (.heap 0)]⟩, []) :=
  ⟨C16_unknown_directive 4 allOk 6 ⟨⟨⟨[7, 7, 7, 7], 0, .null⟩, .first, 1⟩, [], 0, []⟩ .valid
    [97, 98] [37, 100, 0] 113 [.int 42] (by decide) (by decide) (by decide), by decide⟩

/-! ## Independence of the split into calls -/

/-- The buffers a call of the loop of `sb_append_len` adds to the chain, the
allocator always succeeding, are the regions mapped during the call, in the
order of their addresses. -/
theorem append_loop_ptrs {cap : Nat} {env : Nat → Outcome} (henv : ∀ i, env i = .mapped) :
    ∀ (fuel : Nat) (m : Mem) (init : List (Ptr × Sb_Buffer)) (p : Ptr) (b : Sb_Buffer)
      (cursor : List Nat) (length rem : Int) (m2 : Mem),
      WF cap m (init ++ [(p, b)]) → b.length = cap - rem → 0 ≤ length →
      length ≤ cursor.length → append_loop cap env fuel m cursor length rem = .ok m2 →
      ∃ (n : Nat) (ch2 : List (Ptr × Sb_Buffer)), WF cap m2 ch2 ∧
        ch2.map Prod.fst = (init ++ [(p, b)]).map Prod.fst
          ++ (List.range n).map (fun i => Ptr.heap (m.regions.length + i)) ∧
        m2.regions.length = m.regions.length + n := by
  intro fuel
  induction fuel with
  | zero =>
    intro m init p b cursor length rem m2 _ _ _ _ hrun
    simp [append_loop] at hrun
  | succ fuel ih =>
    intro m init p b cursor length rem m2 hw hrem h0 hcur hrun
    obtain ⟨_, _, _, _, _, _, _, _, hb0, hbc, _⟩ := WF_split hw
    by_cases hc : rem ≤ length
    · obtain ⟨m1, bf, hstep, hw1, _, _, _, _, hreg⟩ :=
        append_iter_ok hw fuel cursor length rem hrem hc hcur (henv _)
      rw [hstep] at hrun
      have hw1b : WF cap m1 ((init ++ [(p, bf)])
          ++ [(.heap m.regions.length, ⟨List.replicate cap 0, 0, .null⟩)]) := by
        simpa using hw1
      obtain ⟨n, ch2, hw2, hptr, hreg2⟩ :=
        ih m1 _ _ _ (cursor.drop rem.toNat) (length - rem) cap m2 hw1b (by simp) (by omega)
          (by simp only [List.length_drop]; omega) hrun
      refine ⟨n + 1, ch2, hw2, ?_, by rw [hreg2, hreg]; omega⟩
      rw [hptr, hreg, List.range_succ_eq_map]
      simp only [List.map_append, List.map_cons, List.map_nil, List.map_map, List.append_assoc,
        List.singleton_append, Nat.add_zero, List.cons_append, List.nil_append]
      congr 3
      apply List.map_congr_left
      intro i _
      simp only [Function.comp]
      congr 1
      omega
    · obtain ⟨m3, bf, hfin, hw3, _, _, _, _, hreg⟩ :=
        append_final env hw fuel cursor length rem hrem (by omega) h0 hcur
      rw [hfin] at hrun
      have e := Except.ok.inj hrun
      rw [← e]
      exact ⟨0, _, hw3, by simp, by simpa using hreg⟩

/-- Lists of byte strings with the same lengths and the same concatenation are equal. -/
theorem flatten_inj : ∀ (l1 l2 : List (List Nat)),
    l1.map List.length = l2.map List.length → l1.flatten = l2.flatten → l1 = l2
  | [], [], _, _ => rfl
  | [], y :: l2, h, _ => by simp at h
  | x :: l1, [], h, _ => by simp at h
  | x :: l1, y :: l2, h, hf => by
    simp only [List.map_cons, List.cons.injEq] at h
    simp only [List.flatten_cons] at hf
    obtain ⟨e1, e2⟩ := List.append_inj hf h.1
    rw [e1, flatten_inj l1 l2 h.2 e2]

theorem map_triple {α β γ δ : Type} (f : α → β) (g : α → γ) (h : α → δ) :
    ∀ (l1 l2 : List α), l1.map f = l2.map f → l1.map g = l2.map g → l1.map h = l2.map h →
      l1.map (fun x => (f x, g x, h x)) = l2.map (fun x => (f x, g x, h x))
  | [], [], _, _, _ => rfl
  | [], y :: l2, e, _, _ => by simp at e
  | x :: l1, [], e, _, _ => by simp at e
  | x :: l1, y :: l2, e1, e2, e3 => by
    simp only [List.map_cons, List.cons.injEq] at e1 e2 e3 ⊢
    exact ⟨by rw [e1.1, e2.1, e3.1], map_triple f g h l1 l2 e1.2 e2.2 e3.2⟩

/-- Two well-formed chains of full buffers followed by a buffer with room
left that hold the same bytes have the same lengths and the same used
regions, buffer by buffer. -/
theorem same_content_same_chain {cap : Nat} {m2 m3 : Mem} {ch2 ch3 : List (Ptr × Sb_Buffer)}
    (hw2 : WF cap m2 ch2) (hs2 : Shape cap ch2) (hsp2 : Spare cap ch2)
    (hw3 : WF cap m3 ch3) (hs3 : Shape cap ch3) (hsp3 : Spare cap ch3)
    (hc : contents ch2 = contents ch3) :
    ch2.length = ch3.length ∧
    ch2.map (fun x => x.2.length) = ch3.map (fun x => x.2.length) ∧
    ch2.map (fun x => used x.2) = ch3.map (fun x => used x.2) := by
  have ht : total ch2 = total ch3 := by
    rw [← contents_length hw2.1.2, ← contents_length hw3.1.2, hc]
  obtain ⟨_, hn2⟩ := count_formula hw2 hs2 hsp2
  obtain ⟨_, hn3⟩ := count_formula hw3 hs3 hsp3
  have hlen : ch2.length = ch3.length := by rw [hn2, hn3, ht]
  obtain ⟨init2, p2, b2, e2⟩ := WF_nonempty hw2
  obtain ⟨init3, p3, b3, e3⟩ := WF_nonempty hw3
  have hf2 := Shape_snoc.1 (e2 ▸ hs2)
  have hf3 := Shape_snoc.1 (e3 ▸ hs3)
  have hi : init2.length = init3.length := by
    rw [e2, e3] at hlen
    simpa using hlen
  have hb : b2.length = b3.length := by
    have t2 := total_full hf2
    have t3 := total_full hf3
    rw [e2, e3, total_append, total_append, total_single, total_single, t2, t3, hi] at ht
    omega
  have hmap : ch2.map (fun x => x.2.length) = ch3.map (fun x => x.2.length) := by
    have r2 : init2.map (fun x => x.2.length) = List.replicate init2.length (cap : Int) := by
      rw [List.eq_replicate_iff]
      refine ⟨by simp, ?_⟩
      intro v hv
      obtain ⟨x, hx, hxv⟩ := List.mem_map.1 hv
      rw [← hxv]; exact hf2 x hx
    have r3 : init3.map (fun x => x.2.length) = List.replicate init3.length (cap : Int) := by
      rw [List.eq_replicate_iff]
      refine ⟨by simp, ?_⟩
      intro v hv
      obtain ⟨x, hx, hxv⟩ := List.mem_map.1 hv
      rw [← hxv]; exact hf3 x hx
    rw [e2, e3, List.map_append, List.map_append, r2, r3, hi]
    simp [hb]
  refine ⟨hlen, hmap, ?_⟩
  apply flatten_inj
  · have hu : ∀ (m : Mem) (ch : List (Ptr × Sb_Buffer)), WF cap m ch →
        (ch.map (fun x => used x.2)).map List.length
          = (ch.map (fun x => x.2.length)).map Int.toNat := by
      intro m ch hw
      rw [List.map_map, List.map_map]
      apply List.map_congr_left
      intro x hx
      obtain ⟨x0, x1, x2⟩ := hw.1.2 x hx
      simp only [Function.comp, used, List.length_take]
      omega
    rw [hu m2 ch2 hw2, hu m3 ch3 hw3, hmap]
  · exact hc

/-- A call of `sb_append_len` with an allocator that always succeeds: the
result of `sb_append_len_spec` together with the addresses of the buffers
added to the chain. -/
theorem sb_append_len_full {cap : Nat} {env : Nat → Outcome} (hcap : 0 < cap)
    (henv : ∀ i, env i = .mapped) {m : Mem} {init : List (Ptr × Sb_Buffer)} {p : Ptr}
    {b : Sb_Buffer} (hw : WF cap m (init ++ [(p, b)])) (string : List Nat) (length : Int)
    (h0 : 0 ≤ length) (hl : length ≤ string.length) (fuel : Nat) (hf : length + 2 ≤ fuel) :
    ∃ (m2 : Mem) (ch2 : List (Ptr × Sb_Buffer)) (n : Nat),
      sb_append_len cap env fuel m .valid string length = .ok m2 ∧
      WF cap m2 ch2 ∧ (Shape cap (init ++ [(p, b)]) → Shape cap ch2) ∧ Spare cap ch2 ∧
      contents ch2 = contents (init ++ [(p, b)]) ++ string.take length.toNat ∧
      ch2.map Prod.fst = (init ++ [(p, b)]).map Prod.fst
        ++ (List.range n).map (fun i => Ptr.heap (m.regions.length + i)) ∧
      m2.regions.length = m.regions.length + n ∧ m2.calls = m.calls + n := by
  obtain ⟨m2, ch2, hrun, hpost⟩ := sb_append_len_spec env hcap hw string length h0 hl fuel hf
    (fun i hi => by rw [henv i] at hi; cases hi)
  obtain ⟨hw2, hs2, hsp2, hc2, _, n1, hlen1, hcalls, _⟩ := AppendPost_ok henv hpost
  obtain ⟨_, hld, _, hlast, _, _, _, _, _, _, _⟩ := WF_split hw
  have hrun2 : append_loop cap env fuel m string length (cap - b.length) = .ok m2 := by
    rw [← hrun]
    simp only [sb_append_len]
    rw [hlast, hld, bind_ok]
  obtain ⟨n, ch2b, hw2b, hptr, hreg⟩ :=
    append_loop_ptrs henv fuel m init p b string length (cap - b.length) m2 hw (by omega) h0 hl
      hrun2
  have e : ch2b = ch2 := Seg_det _ _ _ hw2b.1.1 hw2.1.1
  rw [e] at hptr
  have hn : n1 = n := by
    have := congrArg List.length hptr
    simp only [List.length_map, List.length_append, List.length_range] at this
    rw [hlen1] at this
    simp only [List.length_append] at this
    omega
  rw [hn] at hcalls
  exact ⟨m2, ch2, n, hrun, hw2, hs2, hsp2, hc2, hptr, hreg, hcalls⟩

/-- C17: in a state reached from `sb_init` by calls of `sb_append_len`, the
allocator always succeeding, the appends of `a` and then of `b` and the
single append of `a ++ b` all return, and the two resulting accumulators
agree in `number_of_buffers`, in `last_buffer`, in the number of allocator
calls, and buffer by buffer along the chain in the address, the `length` and
the used bytes `data[0..length)`. -/
theorem C17_split_independent (cap : Nat) (env : Nat → Outcome) (m : Mem) (T : Int)
    (a b : List Nat) (fuel : Nat) (hcap : 0 < cap) (henv : ∀ i, env i = .mapped)
    (hreach : Reached cap env m T) (hf : a.length + b.length + 2 ≤ fuel) :
    ∃ (m1 m2 m3 : Mem) (ch2 ch3 : List (Ptr × Sb_Buffer)),
      sb_append_len cap env fuel m .valid a a.length = .ok m1 ∧
      sb_append_len cap env fuel m1 .valid b b.length = .ok m2 ∧
      sb_append_len cap env fuel m .valid (a ++ b) (a ++ b).length = .ok m3 ∧
      WF cap m2 ch2 ∧ WF cap m3 ch3 ∧
      m2.sb.number_of_buffers = m3.sb.number_of_buffers ∧
      m2.sb.last_buffer = m3.sb.last_buffer ∧ m2.calls = m3.calls ∧
      ch2.map (fun x => (x.1, x.2.length, used x.2))
        = ch3.map (fun x => (x.1, x.2.length, used x.2)) := by
  obtain ⟨_, ch, hw, hs, _⟩ := Reached_inv hcap hreach
  obtain ⟨init, p, bl, hch⟩ := WF_nonempty hw
  rw [hch] at hw hs
  obtain ⟨m1, ch1, n1, hrun1, hw1, hs1, hsp1, hc1, hp1, hr1, hcalls1⟩ :=
    sb_append_len_full hcap henv hw a a.length (by omega) (le_refl _) fuel (by omega)
  obtain ⟨init1, p1, bl1, hch1⟩ := WF_nonempty hw1
  rw [hch1] at hw1
  obtain ⟨m2, ch2, n2, hrun2, hw2, hs2, hsp2, hc2, hp2, hr2, hcalls2⟩ :=
    sb_append_len_full hcap henv hw1 b b.length (by omega) (le_refl _) fuel (by omega)
  obtain ⟨m3, ch3, n3, hrun3, hw3, hs3, hsp3, hc3, hp3, hr3, hcalls3⟩ :=
    sb_append_len_full hcap henv hw (a ++ b) (a ++ b).length (by omega) (le_refl _) fuel
      (by simp only [List.length_append]; omega)
  rw [← hch1] at hw1 hs2 hc2 hp2
  have hcont : contents ch2 = contents ch3 := by
    rw [hc2, hc1, hc3]
    simp
    omega
  obtain ⟨hlen, hmap, hused⟩ :=
    same_content_same_chain hw2 (hs2 (hs1 hs)) hsp2 hw3 (hs3 hs) hsp3 hcont
  have hn : n1 + n2 = n3 := by
    have l2 := congrArg List.length hp2
    have l1 := congrArg List.length hp1
    have l3 := congrArg List.length hp3
    simp only [List.length_map, List.length_append, List.length_range] at l1 l2 l3
    omega
  have hptr : ch2.map Prod.fst = ch3.map Prod.fst := by
    rw [hp2, hp1, hp3, hr1, ← hn, List.range_add]
    simp only [List.map_append, List.map_map, List.append_assoc]
    congr 3
    apply List.map_congr_left
    intro i _
    simp only [Function.comp]
    congr 1
    omega
  refine ⟨m1, m2, m3, ch2, ch3, hrun1, hrun2, hrun3, hw2, hw3, ?_, ?_, ?_, ?_⟩
  · rw [hw2.2.2, hw3.2.2, hlen]
  · have h2 := hw2.2.1
    rw [hptr, hw3.2.1] at h2
    exact (Option.some.inj h2).symm
  · rw [hcalls2, hcalls1, hcalls3]; omega
  · exact map_triple (fun x => x.1) (fun x => x.2.length) (fun x => used x.2) ch2 ch3 hptr hmap
      hused

/-- C17 with 4-byte buffers: after `sb_init` and the append of "he", the
appends of "llo w" and "orld" on the one hand and of "llo world" on the
other. -/
theorem C17_split_independent_witness :
    ∃ (m1 m2 m3 : Mem) (ch2 ch3 : List (Ptr × Sb_Buffer)),
      sb_append_len 4 allOk 11 ⟨⟨⟨[104, 101, 7, 7], 2, .null⟩, .first, 1⟩, [], 0, []⟩ .valid
        [108, 108, 111, 32, 119] ([108, 108, 111, 32, 119] : List Nat).length = .ok m1 ∧
      sb_append_len 4 allOk 11 m1 .valid [111, 114, 108, 100]
        ([111, 114, 108, 100] : List Nat).length = .ok m2 ∧
      sb_append_len 4 allOk 11 ⟨⟨⟨[104, 101, 7, 7], 2, .null⟩, .first, 1⟩, [], 0, []⟩ .valid
        ([108, 108, 111, 32, 119] ++ [111, 114, 108, 100])
        ([108, 108, 111, 32, 119] ++ [111, 114, 108, 100] : List Nat).length = .ok m3 ∧
      WF 4 m2 ch2 ∧ WF 4 m3 ch3 ∧
      m2.sb.number_of_buffers = m3.sb.number_of_buffers ∧
      m2.sb.last_buffer = m3.sb.last_buffer ∧ m2.calls = m3.calls ∧
      ch2.map (fun x => (x.1, x.2.length, used x.2))
        = ch3.map (fun x => (x.1, x.2.length, used x.2)) :=
  C17_split_independent 4 allOk ⟨⟨⟨[104, 101, 7, 7], 2, .null⟩, .first, 1⟩, [], 0, []⟩ (0 + 2)
    [108, 108, 111, 32, 119] [111, 114, 108, 100] 11 (by decide) (fun _ => rfl)
    (Reached.append _ _ _ 4 [104, 101] 2
      (Reached.init mem4 ⟨⟨⟨[7, 7, 7, 7], 0, .null⟩, .first, 1⟩, [], 0, []⟩
        (by decide) (by decide))
      (by decide) (by decide) (by decide))
    (by decide)

end StringBuilder
